import Mathlib

/-!
# goini: the INI tokenizer (`parser/lexer.go`) and document builder (`parser/parser.go`)

A shallow embedding of the two Go files and a verification of their behaviour.

Modelling conventions.

* A Go `string` holding valid UTF-8 is modelled by its sequence of runes, a `List Char`.
  Offsets (`start`, `pos`, `width`) count runes instead of bytes.  The four delimiters
  `[`, `]`, `=` and newline are one-byte ASCII runes, so `strings.HasPrefix(l.input[l.pos:], d)`
  at a rune boundary is the test that the next rune is `d`.
* The mutated `*lexer` is passed explicitly: a method returns the new lexer.
* A `stateFn` value is a tag naming one of the seven state functions; `nil` is `none`.
* The buffered channel `items` is a FIFO queue with its capacity; a send on a full channel
  can never be completed (there is one goroutine only) and ends the run in `Exec.deadlock`.
* A run of Go code ends in a value, in a run-time panic, or in a deadlock; the unbounded
  `for` loops are given fuel, and `Exec.fuel` tells that it ran out.
* `unicode.IsLetter` and `unicode.IsSpace` belong to the Go standard library; they are
  parameters (`Unicode`), constrained by `Unicode.Faithful` where their values matter.
-/

namespace Goini

/-! ## Outcomes of a run -/

/-- Outcome of running a piece of Go code. -/
inductive Exec (α : Type) where
  /-- normal completion with a value -/
  | ok (a : α)
  /-- run-time panic: call of a nil function value -/
  | nilCall
  /-- run-time panic: slice bounds out of range -/
  | sliceBounds
  /-- a send on a full channel that nobody will ever drain -/
  | deadlock
  /-- the model's fuel ran out (not an outcome of the Go program) -/
  | fuel
  deriving DecidableEq, Repr

/-- Sequencing of runs; every outcome other than `ok` is passed on. -/
def Exec.bind {α β : Type} (x : Exec α) (f : α → Exec β) : Exec β :=
  match x with
  | .ok a => f a
  | .nilCall => .nilCall
  | .sliceBounds => .sliceBounds
  | .deadlock => .deadlock
  | .fuel => .fuel

instance : Monad Exec where
  pure := Exec.ok
  bind := Exec.bind

/-! ## `goini.go` -/

structure KeyValuePair where
  Key : List Char
  Value : List Char
  deriving DecidableEq, Repr

structure Section where
  Name : List Char
  KeyValuePairs : List KeyValuePair
  deriving DecidableEq, Repr

structure File where
  Name : List Char
  Sections : List Section
  deriving DecidableEq, Repr

/-! ## `parser/lexer.go` -/

/-- The predicates of Go's `unicode` package that the lexer consults. -/
structure Unicode where
  IsLetter : Char → Bool
  IsSpace : Char → Bool

inductive itemType where
  | itemError
  | itemEOF
  | itemLeftBracket
  | itemRrightBracket
  | itemNewLine
  | itemEqualSign
  | itemSection
  | itemKey
  | itemValue
  deriving DecidableEq, Repr

def leftBracket : List Char := ['[']
def rightBracket : List Char := [']']
def newLine : List Char := ['\n']
def equalSign : List Char := ['=']

/-- A token: `item` of the source (`Typ` is its field `Type`). -/
structure item where
  Typ : itemType
  Value : List Char
  deriving DecidableEq, Repr

/-- The state functions, as tags. -/
inductive stateFn where
  | lexStart
  | lexLeftBracket
  | lexSection
  | lexRightBracket
  | lexKey
  | lexEqualSign
  | lexValue
  deriving DecidableEq, Repr

/-- A buffered channel of items. -/
structure chan where
  cap : Nat
  buf : List item
  deriving DecidableEq, Repr

structure lexer where
  name : List Char
  input : List Char
  start : Nat
  pos : Nat
  width : Nat
  state : Option stateFn
  items : chan
  deriving DecidableEq, Repr

def lex (name input : List Char) : lexer :=
  { name := name, input := input, start := 0, pos := 0, width := 0,
    state := some stateFn.lexStart, items := { cap := 2, buf := [] } }

/-- The slice expression `s[i:]`. -/
def sliceFrom (s : List Char) (i : Nat) : Exec (List Char) :=
  if i ≤ s.length then .ok (s.drop i) else .sliceBounds

/-- The slice expression `s[i:j]`. -/
def slice (s : List Char) (i j : Nat) : Exec (List Char) :=
  if i ≤ j ∧ j ≤ s.length then .ok ((s.drop i).take (j - i)) else .sliceBounds

/-- The function `strings.HasPrefix`. -/
def HasPrefix (s pre : List Char) : Bool := pre.isPrefixOf s

/-- The send statement `l.items <- it`. -/
def send (l : lexer) (it : item) : Exec lexer :=
  if l.items.buf.length < l.items.cap then
    .ok { l with items := { l.items with buf := l.items.buf ++ [it] } }
  else .deadlock

def emit (l : lexer) (t : itemType) : Exec lexer := do
  let v ← slice l.input l.start l.pos
  let l ← send l { Typ := t, Value := v }
  pure { l with start := l.pos }

def ignore (l : lexer) : lexer := { l with start := l.pos }

/-- The method `next`; the rune `eof` is `none`. -/
def next (l : lexer) : Option Char × lexer :=
  match l.input[l.pos]? with
  | none => (none, l)
  | some r => (some r, { l with pos := l.pos + 1, width := 1 })

/-- The method `errorf`; no call site passes arguments, so the message is the format. -/
def errorf (l : lexer) (format : List Char) : Exec (lexer × Option stateFn) := do
  let l ← send l { Typ := itemType.itemError, Value := format }
  pure ({ l with start := 0, pos := 0, input := l.input.take 0 }, none)

/-- The loop of `lexStart`, `n` iterations at most. -/
def lexStartLoop (U : Unicode) : Nat → lexer → Exec (lexer × Option stateFn)
  | 0, _ => .fuel
  | n + 1, l => do
    let rest ← sliceFrom l.input l.pos
    if HasPrefix rest leftBracket then
      pure (l, some stateFn.lexLeftBracket)
    else
      match next l with
      | (none, l) => do
        let l ← emit l itemType.itemEOF
        pure (l, none)
      | (some r, l) =>
        if U.IsSpace r then lexStartLoop U n (ignore l)
        else if U.IsLetter r then pure (l, some stateFn.lexKey)
        else lexStartLoop U n l

def lexStart (U : Unicode) (l : lexer) : Exec (lexer × Option stateFn) :=
  lexStartLoop U (l.input.length - l.pos + 1) l

def lexLeftBracket (l : lexer) : Exec (lexer × Option stateFn) := do
  let l := { l with pos := l.pos + leftBracket.length }
  let l ← emit l itemType.itemLeftBracket
  pure (l, some stateFn.lexSection)

/-- The loop of `lexSection`, `n` iterations at most. -/
def lexSectionLoop (U : Unicode) : Nat → lexer → Exec (lexer × Option stateFn)
  | 0, _ => .fuel
  | n + 1, l => do
    let rest ← sliceFrom l.input l.pos
    if HasPrefix rest rightBracket then do
      let l ← emit l itemType.itemSection
      pure (l, some stateFn.lexRightBracket)
    else
      match next l with
      | (none, l) => errorf l "unclosed section".toList
      | (some r, l) =>
        if r = '\n' then errorf l "unclosed section".toList
        else if !U.IsLetter r then errorf l "invalid section".toList
        else lexSectionLoop U n l

def lexSection (U : Unicode) (l : lexer) : Exec (lexer × Option stateFn) :=
  lexSectionLoop U (l.input.length - l.pos + 1) l

def lexRightBracket (l : lexer) : Exec (lexer × Option stateFn) := do
  let l := { l with pos := l.pos + rightBracket.length }
  let l ← emit l itemType.itemRrightBracket
  pure (l, some stateFn.lexStart)

/-- The loop of `lexKey`, `n` iterations at most. -/
def lexKeyLoop (U : Unicode) : Nat → lexer → Exec (lexer × Option stateFn)
  | 0, _ => .fuel
  | n + 1, l => do
    let rest ← sliceFrom l.input l.pos
    if HasPrefix rest equalSign then do
      let l ← emit l itemType.itemKey
      pure (l, some stateFn.lexEqualSign)
    else
      match next l with
      | (none, l) => errorf l "unassigned key".toList
      | (some r, l) =>
        if r = '\n' then errorf l "unassigned key".toList
        else if !U.IsLetter r then errorf l "invalid key".toList
        else lexKeyLoop U n l

def lexKey (U : Unicode) (l : lexer) : Exec (lexer × Option stateFn) :=
  lexKeyLoop U (l.input.length - l.pos + 1) l

def lexEqualSign (l : lexer) : Exec (lexer × Option stateFn) := do
  let l := { l with pos := l.pos + equalSign.length }
  let l ← emit l itemType.itemEqualSign
  pure (l, some stateFn.lexValue)

/-- The loop of `lexValue`, `n` iterations at most. -/
def lexValueLoop : Nat → lexer → Exec (lexer × Option stateFn)
  | 0, _ => .fuel
  | n + 1, l => do
    let rest ← sliceFrom l.input l.pos
    if HasPrefix rest newLine then do
      let l ← emit l itemType.itemValue
      pure (l, some stateFn.lexStart)
    else
      match next l with
      | (none, l) => errorf l "unexpected end of file".toList
      | (some _, l) => lexValueLoop n l

def lexValue (l : lexer) : Exec (lexer × Option stateFn) :=
  lexValueLoop (l.input.length - l.pos + 1) l

/-- The call `f(l)` of a state function value `f`. -/
def stateFn.call (U : Unicode) (f : stateFn) (l : lexer) : Exec (lexer × Option stateFn) :=
  match f with
  | .lexStart => Goini.lexStart U l
  | .lexLeftBracket => Goini.lexLeftBracket l
  | .lexSection => Goini.lexSection U l
  | .lexRightBracket => Goini.lexRightBracket l
  | .lexKey => Goini.lexKey U l
  | .lexEqualSign => Goini.lexEqualSign l
  | .lexValue => Goini.lexValue l

/-- The loop of `nextItem`, `n` iterations at most: receive an item if one is buffered,
otherwise `l.state = l.state(l)`, which panics when `l.state` is nil. -/
def nextItemLoop (U : Unicode) : Nat → lexer → Exec (item × lexer)
  | 0, _ => .fuel
  | n + 1, l =>
    match l.items.buf with
    | it :: buf => .ok (it, { l with items := { l.items with buf := buf } })
    | [] =>
      match l.state with
      | none => .nilCall
      | some f => do
        let (l, st) ← f.call U l
        nextItemLoop U n { l with state := st }

/-- The method `nextItem`.  Three iterations are enough between two tokens: `lexStart` may
hand over to `lexKey` or `lexLeftBracket` without sending, every other state function
sends, and the last iteration receives (`nextItem_phase`). -/
def nextItem (U : Unicode) (l : lexer) : Exec (item × lexer) :=
  nextItemLoop U 3 l

/-! ## `parser/parser.go` -/

/-- The loop of `Parse`, `n` iterations at most. -/
def ParseLoop (U : Unicode) : Nat → lexer → File → Section → List Char → Exec File
  | 0, _, _, _, _ => .fuel
  | n + 1, l, file, section_, key => do
    let (it, l) ← nextItem U l
    if it.Typ = itemType.itemEOF then
      pure { file with Sections := file.Sections ++ [section_] }
    else
      match it.Typ with
      | .itemSection =>
        let file :=
          if section_.KeyValuePairs.length > 0 then
            { file with Sections := file.Sections ++ [section_] }
          else file
        ParseLoop U n l file { Name := it.Value, KeyValuePairs := [] } key
      | .itemKey => ParseLoop U n l file section_ it.Value
      | .itemValue =>
        ParseLoop U n l file
          { section_ with
            KeyValuePairs := section_.KeyValuePairs ++ [{ Key := key, Value := it.Value }] }
          []
      | _ => ParseLoop U n l file section_ key

/-- The function `Parse`.  Every iteration of its loop takes one token, and `2 * n + 2`
iterations are enough for a text of `n` runes (`Parse_total`). -/
def Parse (U : Unicode) (name input : List Char) : Exec File :=
  ParseLoop U (2 * input.length + 2) (lex name input)
    { Name := name, Sections := [] } { Name := [], KeyValuePairs := [] } []

/-- The `switch` in the loop of `Parse`: what a token other than `itemEOF` does to the
file, to the current section and to the pending key (`ParseLoop_handle`). -/
def handle (it : item) (file : File) (section_ : Section) (key : List Char) :
    File × Section × List Char :=
  match it.Typ with
  | .itemSection =>
    (if section_.KeyValuePairs.length > 0 then
        { file with Sections := file.Sections ++ [section_] }
      else file,
      { Name := it.Value, KeyValuePairs := [] }, key)
  | .itemKey => (file, section_, it.Value)
  | .itemValue =>
    (file,
      { section_ with
        KeyValuePairs := section_.KeyValuePairs ++ [{ Key := key, Value := it.Value }] },
      [])
  | _ => (file, section_, key)

/-- The tokens a client receives that calls `nextItem` until it is handed `itemEOF` or
`itemError` (`n` calls at most). -/
def tokensLoop (U : Unicode) : Nat → lexer → Exec (List item)
  | 0, _ => .fuel
  | n + 1, l => do
    let (it, l) ← nextItem U l
    if it.Typ = itemType.itemEOF ∨ it.Typ = itemType.itemError then pure [it]
    else do
      let rest ← tokensLoop U n l
      pure (it :: rest)

/-- The token sequence of an input, from a fresh lexer (`tokens_total`: the fuel is
enough). -/
def tokens (U : Unicode) (name input : List Char) : Exec (List item) :=
  tokensLoop U (2 * input.length + 2) (lex name input)

/-- Classification of the ASCII runes, all other runes being neither letters nor space. -/
def asciiTables : Unicode where
  IsLetter := fun c => c.isAlpha
  IsSpace := fun c => c == ' ' || (9 ≤ c.toNat && c.toNat ≤ 13)


/-! ## Texts of the grammar -/

/-- The concatenation of the lines `key ++ "=" ++ value ++ "\n"` of the pairs. -/
def pairLines : List KeyValuePair → List Char
  | [] => []
  | p :: ps => p.Key ++ equalSign ++ p.Value ++ newLine ++ pairLines ps

/-- The concatenation of the section blocks: a header line `"[" ++ name ++ "]\n"` and the
lines of the pairs. -/
def blocksText : List Section → List Char
  | [] => []
  | b :: bs =>
    leftBracket ++ b.Name ++ rightBracket ++ newLine ++ pairLines b.KeyValuePairs ++ blocksText bs

/-- A well-formed text: a preamble and section blocks. -/
def documentText (P : List KeyValuePair) (Bs : List Section) : List Char :=
  pairLines P ++ blocksText Bs

/-- Of the list `("", P), B1, ..., Bn`: every element but the last if it has a pair, and
the last element. -/
def presentSections (P : List KeyValuePair) (Bs : List Section) : List Section :=
  (({ Name := [], KeyValuePairs := P } :: Bs).dropLast.filter
      fun b => decide (0 < b.KeyValuePairs.length)) ++
    [({ Name := [], KeyValuePairs := P } :: Bs).getLast (List.cons_ne_nil _ _)]

/-! ## What is assumed of the `unicode` tables -/

/-- Facts of Go's `unicode.IsLetter` and `unicode.IsSpace` that the proofs rely on: on ASCII
the letters are `A`-`Z` and `a`-`z` and the white space is the blank and `\t` `\n` `\v` `\f`
`\r`; no rune is both a letter and white space. -/
structure Unicode.Faithful (U : Unicode) : Prop where
  letter_ascii : ∀ c : Char, c.toNat < 128 → U.IsLetter c = c.isAlpha
  space_ascii : ∀ c : Char, c.toNat < 128 →
    U.IsSpace c = (c == ' ' || (9 ≤ c.toNat && c.toNat ≤ 13))
  letter_not_space : ∀ c : Char, U.IsLetter c = true → U.IsSpace c = false

/-- Every rune of `s` is a letter. -/
def Letters (U : Unicode) (s : List Char) : Prop := ∀ c ∈ s, U.IsLetter c = true

/-- Every rune of `s` is white space. -/
def Spaces (U : Unicode) (s : List Char) : Prop := ∀ c ∈ s, U.IsSpace c = true

/-- A key or a section name of the grammar: `letter+`. -/
def Ident (U : Unicode) (s : List Char) : Prop := s ≠ [] ∧ Letters U s

/-- A value of the grammar: no newline in it. -/
def NoNewline (s : List Char) : Prop := '\n' ∉ s

instance (U : Unicode) (s : List Char) : Decidable (Letters U s) := by
  unfold Letters; infer_instance

instance (U : Unicode) (s : List Char) : Decidable (Spaces U s) := by
  unfold Spaces; infer_instance

instance (U : Unicode) (s : List Char) : Decidable (Ident U s) := by
  unfold Ident; infer_instance

instance (s : List Char) : Decidable (NoNewline s) := by
  unfold NoNewline; infer_instance

/-! ## Notions of the proofs

The lexer between two runes.

`l.At pre tok rest buf`: the input is `pre ++ tok ++ rest`, the pending token text is `tok`
(`start` is at its beginning, `pos` at its end), and `buf` is what the channel holds. -/

structure lexer.At (l : lexer) (pre tok rest : List Char) (buf : List item) : Prop where
  input : l.input = pre ++ tok ++ rest
  start : l.start = pre.length
  pos : l.pos = pre.length + tok.length
  cap : l.items.cap = 2
  buf : l.items.buf = buf

/-- Between two tokens: nothing is buffered, no token text is pending, `rest` is still to be
read and `f` is the state function to run. -/
def lexer.Ready (l : lexer) (rest : List Char) (f : stateFn) : Prop :=
  (∃ pre, l.At pre [] rest []) ∧ l.state = some f

/-- After the last token: nothing is buffered and the state is nil. -/
def lexer.Halted (l : lexer) : Prop := l.items.buf = [] ∧ l.state = none

/-- A line of a well-formed text, without its white space. -/
inductive Line where
  | pair (k v : List Char)
  | header (s : List Char)

/-- The text of a line, its newline included. -/
def Line.text : Line → List Char
  | .pair k v => k ++ '=' :: v ++ ['\n']
  | .header s => '[' :: s ++ [']', '\n']

def Line.WellFormed (U : Unicode) : Line → Prop
  | .pair k v => Ident U k ∧ NoNewline v
  | .header s => Ident U s

/-- The text of lines each of which has white space in front of it. -/
def paddedText : List (List Char × Line) → List Char
  | [] => []
  | (w, ln) :: rest => w ++ ln.text ++ paddedText rest

/-- What the loop of `Parse` makes of the lines: `acc` are the sections appended so far and
`cur` is the current section. -/
def build : List Line → List Section → Section → List Section
  | [], acc, cur => acc ++ [cur]
  | .pair k v :: rest, acc, cur =>
    build rest acc { cur with KeyValuePairs := cur.KeyValuePairs ++ [{ Key := k, Value := v }] }
  | .header s :: rest, acc, cur =>
    build rest (if cur.KeyValuePairs.length > 0 then acc ++ [cur] else acc)
      { Name := s, KeyValuePairs := [] }

/-- The lines of the pairs, without white space in front. -/
def pairRows (ps : List KeyValuePair) : List (List Char × Line) :=
  ps.map fun p => ([], Line.pair p.Key p.Value)

/-- The lines of the section blocks, without white space in front. -/
def blockRows : List Section → List (List Char × Line)
  | [] => []
  | b :: bs => ([], Line.header b.Name) :: (pairRows b.KeyValuePairs ++ blockRows bs)

/-- Where the lexer stands between two calls of `nextItem`, and what is left of the input:
before a line, inside a header after `[`, before `]`, before `=`, or inside a value. -/
inductive Phase where
  | start (R : List Char)
  | name (R : List Char)
  | close (R : List Char)
  | assign (R : List Char)
  | value (R : List Char)

/-- The lexer is in the phase. -/
def Phase.Holds (l : lexer) : Phase → Prop
  | .start R => l.Ready R stateFn.lexStart
  | .name R => l.Ready R stateFn.lexSection
  | .close R => l.Ready (']' :: R) stateFn.lexRightBracket
  | .assign R => l.Ready ('=' :: R) stateFn.lexEqualSign
  | .value R => l.Ready R stateFn.lexValue

/-- A bound on the number of calls of `nextItem` that are still to come. -/
def Phase.potential : Phase → Nat
  | .start R => 2 * R.length + 2
  | .name R => 2 * R.length + 2
  | .close R => 2 * R.length + 3
  | .assign R => 2 * R.length + 4
  | .value R => 2 * R.length + 3

/-- The token a phase hands out, when it is not the last one, and the phase that follows. -/
def Phase.Emits : Phase → itemType → Phase → Prop
  | .start _, t, q =>
    (t = itemType.itemLeftBracket ∧ ∃ R, q = .name R) ∨ (t = itemType.itemKey ∧ ∃ R, q = .assign R)
  | .name _, t, q => t = itemType.itemSection ∧ ∃ R, q = .close R
  | .close R, t, q => t = itemType.itemRrightBracket ∧ q = .start R
  | .assign R, t, q => t = itemType.itemEqualSign ∧ q = .value R
  | .value _, t, q => t = itemType.itemValue ∧ ∃ R, q = .start R

/-- The tokens that end the token sequence. -/
def item.Terminal (it : item) : Prop :=
  it.Typ = itemType.itemEOF ∨ it.Typ = itemType.itemError

instance (it : item) : Decidable it.Terminal := by
  unfold item.Terminal; infer_instance

/-- The concatenation of the texts of the lines. -/
def linesText : List Line → List Char
  | [] => []
  | ln :: rest => ln.text ++ linesText rest

instance (U : Unicode) (ln : Line) : Decidable (ln.WellFormed U) := by
  cases ln <;> unfold Line.WellFormed <;> infer_instance

/-- Runes that `lexStart` has no case for: neither white space, nor letters, nor `[`. -/
def Junk (U : Unicode) (j : List Char) : Prop :=
  ∀ c ∈ j, U.IsSpace c = false ∧ U.IsLetter c = false ∧ c ≠ '['

instance (U : Unicode) (j : List Char) : Decidable (Junk U j) := by
  unfold Junk; infer_instance

/-- The outcome with a function applied to its value. -/
def Exec.map {α β : Type} (f : α → β) : Exec α → Exec β
  | .ok a => .ok (f a)
  | .nilCall => .nilCall
  | .sliceBounds => .sliceBounds
  | .deadlock => .deadlock
  | .fuel => .fuel

/-- The lexer with another name. -/
def lexer.rename (nm : List Char) (l : lexer) : lexer := { l with name := nm }

/-- The lexer with its buffer emptied. -/
def lexer.drained (l : lexer) : lexer := { l with items := { l.items with buf := [] } }

/-- The iterations of the loop of `nextItem` under a client that asks for one token after
the other: `Run U l0 sent received l` tells that, from the lexer `l0`, some iterations
lead to the lexer `l`, the state functions having sent the items `sent` on the channel
and the client having received the items `received`.  An iteration receives the first
item of the buffer, or, the buffer being empty, calls the state function and stores the
state that it returns; what the call has sent is what it leaves in the buffer. -/
inductive Run (U : Unicode) (l0 : lexer) : List item → List item → lexer → Prop where
  | init : Run U l0 [] [] l0
  | call {s r : List item} {l l1 : lexer} {f : stateFn} {st : Option stateFn} :
    Run U l0 s r l → l.items.buf = [] → l.state = some f → f.call U l = .ok (l1, st) →
    Run U l0 (s ++ l1.items.buf) r { l1 with state := st }
  | recv {s r : List item} {l : lexer} {it : item} {b : List item} :
    Run U l0 s r l → l.items.buf = it :: b →
    Run U l0 s (r ++ [it]) { l with items := { l.items with buf := b } }

/-- The shapes of the lexer at the head of an iteration of the loop of `nextItem`: in a
phase; after the last token; handed over by `lexStart` to `lexLeftBracket` or to `lexKey`;
or with one item in the buffer, after the receipt of which it is in a phase or, the item
being the last token, has the state nil. -/
def Stage (l : lexer) : Prop :=
  l.items.cap = 2 ∧
    ((∃ p : Phase, p.Holds l) ∨ l.Halted ∨
      (∃ pre tok R : List Char, l.At pre tok ('[' :: R) [] ∧
        l.state = some stateFn.lexLeftBracket) ∨
      (∃ pre tok R : List Char, l.At pre tok R [] ∧ l.state = some stateFn.lexKey) ∨
      (∃ it : item, l.items.buf = [it] ∧
        ((¬ it.Terminal ∧ ∃ p : Phase, p.Holds l.drained) ∨ (it.Terminal ∧ l.drained.Halted))))

section Basics

variable {α β : Type}

@[simp] theorem Exec.ok_bind (a : α) (f : α → Exec β) : (Exec.ok a >>= f) = f a := rfl
@[simp] theorem Exec.nilCall_bind (f : α → Exec β) : ((Exec.nilCall : Exec α) >>= f) = .nilCall := rfl
@[simp] theorem Exec.sliceBounds_bind (f : α → Exec β) :
    ((Exec.sliceBounds : Exec α) >>= f) = .sliceBounds := rfl
@[simp] theorem Exec.deadlock_bind (f : α → Exec β) : ((Exec.deadlock : Exec α) >>= f) = .deadlock := rfl
@[simp] theorem Exec.fuel_bind (f : α → Exec β) : ((Exec.fuel : Exec α) >>= f) = .fuel := rfl
@[simp] theorem Exec.pure_eq (a : α) : (pure a : Exec α) = .ok a := rfl

end Basics

theorem asciiTables_faithful : asciiTables.Faithful where
  letter_ascii := fun _ _ => rfl
  space_ascii := fun _ _ => rfl
  letter_not_space := by
    intro c h
    have h1 : c.isAlpha = true := h
    show (c == ' ' || (decide (9 ≤ c.toNat) && decide (c.toNat ≤ 13))) = false
    have h2 : 65 ≤ c.toNat := by
      simp only [Char.isAlpha, Char.isUpper, Char.isLower, Bool.or_eq_true, Bool.and_eq_true,
        decide_eq_true_eq] at h1
      rcases h1 with h1 | h1
      · exact h1.1
      · exact le_trans (by decide) h1.1
    have h3 : c ≠ ' ' := by
      rintro rfl
      revert h2
      decide
    simp [h3]
    intro _
    omega

namespace Unicode.Faithful

variable {U : Unicode} (hU : U.Faithful)
include hU

theorem letter_lbracket : U.IsLetter '[' = false := by rw [hU.letter_ascii _ (by decide)]; decide
theorem letter_rbracket : U.IsLetter ']' = false := by rw [hU.letter_ascii _ (by decide)]; decide
theorem letter_equal : U.IsLetter '=' = false := by rw [hU.letter_ascii _ (by decide)]; decide
theorem letter_newline : U.IsLetter '\n' = false := by rw [hU.letter_ascii _ (by decide)]; decide
theorem space_newline : U.IsSpace '\n' = true := by rw [hU.space_ascii _ (by decide)]; decide
theorem space_lbracket : U.IsSpace '[' = false := by rw [hU.space_ascii _ (by decide)]; decide

end Unicode.Faithful

theorem lex_At (name input : List Char) : (lex name input).At [] [] input [] :=
  ⟨rfl, rfl, rfl, rfl, rfl⟩

namespace lexer.At

variable {l : lexer} {pre tok rest : List Char} {buf : List item}

theorem withState (h : l.At pre tok rest buf) (st : Option stateFn) :
    ({ l with state := st } : lexer).At pre tok rest buf :=
  ⟨h.input, h.start, h.pos, h.cap, h.buf⟩

theorem sliceFrom_eq (h : l.At pre tok rest buf) : sliceFrom l.input l.pos = .ok rest := by
  have h1 : l.pos = (pre ++ tok).length := by simp [h.pos]
  rw [sliceFrom, h.input, h1, if_pos (by simp), List.drop_left]

theorem slice_eq (h : l.At pre tok rest buf) : slice l.input l.start l.pos = .ok tok := by
  rw [slice, h.input, h.start, h.pos, if_pos (by simp)]
  simp [List.append_assoc]

theorem remaining (h : l.At pre tok rest buf) : l.input.length - l.pos = rest.length := by
  rw [h.input, h.pos]
  simp
  omega

theorem next_nil (h : l.At pre tok [] buf) : next l = (none, l) := by
  have h1 : l.input[l.pos]? = none := by
    rw [h.input, h.pos]
    simp
  simp [next, h1]

theorem next_cons {c : Char} (h : l.At pre tok (c :: rest) buf) :
    ∃ l1 : lexer, next l = (some c, l1) ∧ l1.At pre (tok ++ [c]) rest buf := by
  have h1 : l.input[l.pos]? = some c := by
    have h2 : l.pos = (pre ++ tok).length := by simp [h.pos]
    rw [h.input, h2, List.getElem?_append_right (le_refl _)]
    simp
  refine ⟨{ l with pos := l.pos + 1, width := 1 }, by simp [next, h1], ?_⟩
  exact ⟨by simp [h.input], h.start, by simp [h.pos, Nat.add_assoc], h.cap, h.buf⟩

theorem advance {c : Char} (h : l.At pre tok (c :: rest) buf) :
    ({ l with pos := l.pos + 1 } : lexer).At pre (tok ++ [c]) rest buf :=
  ⟨by simp [h.input], h.start, by simp [h.pos, Nat.add_assoc], h.cap, h.buf⟩

theorem ignore_At (h : l.At pre tok rest buf) : (ignore l).At (pre ++ tok) [] rest buf :=
  ⟨by simp [ignore, h.input], by simp [ignore, h.pos], by simp [ignore, h.pos], h.cap, h.buf⟩

theorem emit_eq (h : l.At pre tok rest []) (t : itemType) :
    ∃ l1 : lexer, emit l t = .ok l1 ∧ l1.At (pre ++ tok) [] rest [{ Typ := t, Value := tok }] := by
  refine ⟨{ l with items := { l.items with buf := l.items.buf ++ [{ Typ := t, Value := tok }] },
                   start := l.pos }, ?_, ?_⟩
  · simp [emit, h.slice_eq, send, h.cap, h.buf]
  · exact ⟨by simp [h.input], by simp [h.pos], by simp [h.pos], h.cap, by simp [h.buf]⟩

theorem errorf_eq (h : l.At pre tok rest []) (msg : List Char) :
    ∃ l1 : lexer, errorf l msg = .ok (l1, none) ∧
      l1.At [] [] [] [{ Typ := itemType.itemError, Value := msg }] := by
  refine ⟨{ l with items := { l.items with
                              buf := l.items.buf ++ [{ Typ := itemType.itemError, Value := msg }] },
                   start := 0, pos := 0, input := l.input.take 0 }, ?_, ?_⟩
  · simp [errorf, send, h.cap, h.buf]
  · exact ⟨by simp, rfl, rfl, h.cap, by simp [h.buf]⟩

end lexer.At

/-! ## The state functions, one at a time -/

@[simp] theorem HasPrefix_nil (d : Char) : HasPrefix [] [d] = false := rfl

@[simp] theorem HasPrefix_cons (c d : Char) (rest : List Char) :
    HasPrefix (c :: rest) [d] = (d == c) := by
  simp [HasPrefix, List.isPrefixOf]

section StateFunctions

variable {U : Unicode} {l : lexer} {pre tok R : List Char} {buf : List item}

/-- The loop of `lexSection` runs over letters. -/
theorem lexSectionLoop_letters (hU : U.Faithful) {s : List Char} (hs : Letters U s) :
    ∀ {l : lexer} {tok : List Char}, l.At pre tok (s ++ R) buf →
      ∃ l1 : lexer, l1.At pre (tok ++ s) R buf ∧
        ∀ m, lexSectionLoop U (s.length + m) l = lexSectionLoop U m l1 := by
  induction s with
  | nil => intro l tok h; exact ⟨l, by simpa using h, by simp⟩
  | cons c s ih =>
    intro l tok h
    have hc : U.IsLetter c = true := hs c (List.mem_cons_self _ _)
    have hc1 : c ≠ ']' := by rintro rfl; simp [hU.letter_rbracket] at hc
    have hc2 : c ≠ '\n' := by rintro rfl; simp [hU.letter_newline] at hc
    obtain ⟨l1, hn, h1⟩ := h.next_cons
    obtain ⟨l2, h2, hl⟩ := ih (fun d hd => hs d (List.mem_cons_of_mem _ hd)) h1
    refine ⟨l2, by simpa using h2, fun m => ?_⟩
    rw [← hl m, show (c :: s).length + m = (s.length + m) + 1 by simp; omega]
    rw [lexSectionLoop, h.sliceFrom_eq]
    simp [rightBracket, hn, hc, hc2, Ne.symm hc1]

/-- The loop of `lexKey` runs over letters. -/
theorem lexKeyLoop_letters (hU : U.Faithful) {s : List Char} (hs : Letters U s) :
    ∀ {l : lexer} {tok : List Char}, l.At pre tok (s ++ R) buf →
      ∃ l1 : lexer, l1.At pre (tok ++ s) R buf ∧
        ∀ m, lexKeyLoop U (s.length + m) l = lexKeyLoop U m l1 := by
  induction s with
  | nil => intro l tok h; exact ⟨l, by simpa using h, by simp⟩
  | cons c s ih =>
    intro l tok h
    have hc : U.IsLetter c = true := hs c (List.mem_cons_self _ _)
    have hc1 : c ≠ '=' := by rintro rfl; simp [hU.letter_equal] at hc
    have hc2 : c ≠ '\n' := by rintro rfl; simp [hU.letter_newline] at hc
    obtain ⟨l1, hn, h1⟩ := h.next_cons
    obtain ⟨l2, h2, hl⟩ := ih (fun d hd => hs d (List.mem_cons_of_mem _ hd)) h1
    refine ⟨l2, by simpa using h2, fun m => ?_⟩
    rw [← hl m, show (c :: s).length + m = (s.length + m) + 1 by simp; omega]
    rw [lexKeyLoop, h.sliceFrom_eq]
    simp [equalSign, hn, hc, hc2, Ne.symm hc1]

/-- The loop of `lexValue` runs over everything but a newline. -/
theorem lexValueLoop_noNewline {s : List Char} (hs : NoNewline s) :
    ∀ {l : lexer} {tok : List Char}, l.At pre tok (s ++ R) buf →
      ∃ l1 : lexer, l1.At pre (tok ++ s) R buf ∧
        ∀ m, lexValueLoop (s.length + m) l = lexValueLoop m l1 := by
  induction s with
  | nil => intro l tok h; exact ⟨l, by simpa using h, by simp⟩
  | cons c s ih =>
    intro l tok h
    have hc : c ≠ '\n' := fun e => hs (e ▸ List.mem_cons_self _ _)
    obtain ⟨l1, hn, h1⟩ := h.next_cons
    obtain ⟨l2, h2, hl⟩ := ih (fun hd => hs (List.mem_cons_of_mem _ hd)) h1
    refine ⟨l2, by simpa using h2, fun m => ?_⟩
    rw [← hl m, show (c :: s).length + m = (s.length + m) + 1 by simp; omega]
    rw [lexValueLoop, h.sliceFrom_eq]
    simp [newLine, hn, Ne.symm hc]

/-- The loop of `lexStart` skips white space, moving `start` along. -/
theorem lexStartLoop_spaces (hU : U.Faithful) {s : List Char} (hs : Spaces U s) :
    ∀ {l : lexer} {pre : List Char}, l.At pre [] (s ++ R) buf →
      ∃ l1 : lexer, l1.At (pre ++ s) [] R buf ∧
        ∀ m, lexStartLoop U (s.length + m) l = lexStartLoop U m l1 := by
  induction s with
  | nil => intro l pre h; exact ⟨l, by simpa using h, by simp⟩
  | cons c s ih =>
    intro l pre h
    have hc : U.IsSpace c = true := hs c (List.mem_cons_self _ _)
    have hc1 : c ≠ '[' := by rintro rfl; simp [hU.space_lbracket] at hc
    obtain ⟨l1, hn, h1⟩ := h.next_cons
    have h1 := h1.ignore_At
    obtain ⟨l2, h2, hl⟩ := ih (fun d hd => hs d (List.mem_cons_of_mem _ hd)) h1
    refine ⟨l2, by simpa using h2, fun m => ?_⟩
    rw [← hl m, show (c :: s).length + m = (s.length + m) + 1 by simp; omega]
    rw [lexStartLoop, h.sliceFrom_eq]
    simp [leftBracket, hn, hc, Ne.symm hc1]

theorem lexStart_letter (hU : U.Faithful) {ws : List Char} (hws : Spaces U ws) {c : Char}
    (hc : U.IsLetter c = true) (h : l.At pre [] (ws ++ c :: R) buf) :
    ∃ l1 : lexer, lexStart U l = .ok (l1, some stateFn.lexKey) ∧ l1.At (pre ++ ws) [c] R buf := by
  obtain ⟨l1, h1, hl⟩ := lexStartLoop_spaces hU hws h
  obtain ⟨l2, hn, h2⟩ := h1.next_cons
  have hc1 : c ≠ '[' := by rintro rfl; simp [hU.letter_lbracket] at hc
  refine ⟨l2, ?_, by simpa using h2⟩
  rw [lexStart, h.remaining, show (ws ++ c :: R).length + 1 = ws.length + (R.length + 1 + 1) by
    simp; omega, hl, lexStartLoop, h1.sliceFrom_eq]
  simp [leftBracket, hn, hc, hU.letter_not_space c hc, Ne.symm hc1]

theorem lexStart_bracket (hU : U.Faithful) {ws : List Char} (hws : Spaces U ws)
    (h : l.At pre [] (ws ++ '[' :: R) buf) :
    ∃ l1 : lexer, lexStart U l = .ok (l1, some stateFn.lexLeftBracket) ∧
      l1.At (pre ++ ws) [] ('[' :: R) buf := by
  obtain ⟨l1, h1, hl⟩ := lexStartLoop_spaces hU hws h
  refine ⟨l1, ?_, h1⟩
  rw [lexStart, h.remaining, show (ws ++ '[' :: R).length + 1 = ws.length + (R.length + 1 + 1) by
    simp; omega, hl, lexStartLoop, h1.sliceFrom_eq]
  simp [leftBracket]

theorem lexStart_eof (hU : U.Faithful) {ws : List Char} (hws : Spaces U ws)
    (h : l.At pre [] ws []) :
    ∃ l1 : lexer, lexStart U l = .ok (l1, none) ∧
      l1.At (pre ++ ws) [] [] [{ Typ := itemType.itemEOF, Value := [] }] := by
  have h0 : l.At pre [] (ws ++ []) [] := by simpa using h
  obtain ⟨l1, h1, hl⟩ := lexStartLoop_spaces hU hws h0
  obtain ⟨l2, he, h2⟩ := h1.emit_eq itemType.itemEOF
  refine ⟨l2, ?_, by simpa using h2⟩
  rw [lexStart, h.remaining, show ws.length + 1 = ws.length + (0 + 1) by rfl, hl, lexStartLoop,
    h1.sliceFrom_eq]
  simp [leftBracket, h1.next_nil, he]

theorem lexLeftBracket_eq {c : Char} (h : l.At pre tok (c :: R) []) :
    ∃ l1 : lexer, lexLeftBracket l = .ok (l1, some stateFn.lexSection) ∧
      l1.At (pre ++ (tok ++ [c])) [] R [{ Typ := itemType.itemLeftBracket, Value := tok ++ [c] }] := by
  obtain ⟨l1, he, h1⟩ := h.advance.emit_eq itemType.itemLeftBracket
  exact ⟨l1, by simp [lexLeftBracket, leftBracket, he], h1⟩

theorem lexRightBracket_eq {c : Char} (h : l.At pre tok (c :: R) []) :
    ∃ l1 : lexer, lexRightBracket l = .ok (l1, some stateFn.lexStart) ∧
      l1.At (pre ++ (tok ++ [c])) [] R [{ Typ := itemType.itemRrightBracket, Value := tok ++ [c] }] := by
  obtain ⟨l1, he, h1⟩ := h.advance.emit_eq itemType.itemRrightBracket
  exact ⟨l1, by simp [lexRightBracket, rightBracket, he], h1⟩

theorem lexEqualSign_eq {c : Char} (h : l.At pre tok (c :: R) []) :
    ∃ l1 : lexer, lexEqualSign l = .ok (l1, some stateFn.lexValue) ∧
      l1.At (pre ++ (tok ++ [c])) [] R [{ Typ := itemType.itemEqualSign, Value := tok ++ [c] }] := by
  obtain ⟨l1, he, h1⟩ := h.advance.emit_eq itemType.itemEqualSign
  exact ⟨l1, by simp [lexEqualSign, equalSign, he], h1⟩

theorem lexSection_closed (hU : U.Faithful) {s : List Char} (hs : Letters U s)
    (h : l.At pre tok (s ++ ']' :: R) []) :
    ∃ l1 : lexer, lexSection U l = .ok (l1, some stateFn.lexRightBracket) ∧
      l1.At (pre ++ (tok ++ s)) [] (']' :: R) [{ Typ := itemType.itemSection, Value := tok ++ s }] := by
  obtain ⟨l1, h1, hl⟩ := lexSectionLoop_letters hU hs h
  obtain ⟨l2, he, h2⟩ := h1.emit_eq itemType.itemSection
  refine ⟨l2, ?_, h2⟩
  rw [lexSection, h.remaining, show (s ++ ']' :: R).length + 1 = s.length + (R.length + 1 + 1) by
    simp; omega, hl, lexSectionLoop, h1.sliceFrom_eq]
  simp [rightBracket, he]

theorem lexSection_unclosed (hU : U.Faithful) {s : List Char} (hs : Letters U s)
    (hR : R = [] ∨ ∃ r, R = '\n' :: r) (h : l.At pre tok (s ++ R) []) :
    ∃ l1 : lexer, lexSection U l = .ok (l1, none) ∧
      l1.At [] [] [] [{ Typ := itemType.itemError, Value := "unclosed section".toList }] := by
  obtain ⟨l1, h1, hl⟩ := lexSectionLoop_letters hU hs h
  rw [lexSection, h.remaining, show (s ++ R).length + 1 = s.length + (R.length + 1) by
    simp; omega, hl, lexSectionLoop, h1.sliceFrom_eq]
  rcases hR with rfl | ⟨r, rfl⟩
  · obtain ⟨l2, he, h2⟩ := h1.errorf_eq "unclosed section".toList
    exact ⟨l2, by simpa [rightBracket, h1.next_nil] using he, h2⟩
  · obtain ⟨l2, hn, h2⟩ := h1.next_cons
    obtain ⟨l3, he, h3⟩ := h2.errorf_eq "unclosed section".toList
    exact ⟨l3, by simpa [rightBracket, hn] using he, h3⟩

theorem lexSection_invalid (hU : U.Faithful) {s : List Char} (hs : Letters U s) {c : Char}
    (hc : U.IsLetter c = false) (hc1 : c ≠ ']') (hc2 : c ≠ '\n')
    (h : l.At pre tok (s ++ c :: R) []) :
    ∃ l1 : lexer, lexSection U l = .ok (l1, none) ∧
      l1.At [] [] [] [{ Typ := itemType.itemError, Value := "invalid section".toList }] := by
  obtain ⟨l1, h1, hl⟩ := lexSectionLoop_letters hU hs h
  obtain ⟨l2, hn, h2⟩ := h1.next_cons
  obtain ⟨l3, he, h3⟩ := h2.errorf_eq "invalid section".toList
  refine ⟨l3, ?_, h3⟩
  rw [lexSection, h.remaining, show (s ++ c :: R).length + 1 = s.length + (R.length + 1 + 1) by
    simp; omega, hl, lexSectionLoop, h1.sliceFrom_eq]
  simpa [rightBracket, hn, hc, hc2, Ne.symm hc1] using he

theorem lexKey_assigned (hU : U.Faithful) {s : List Char} (hs : Letters U s)
    (h : l.At pre tok (s ++ '=' :: R) []) :
    ∃ l1 : lexer, lexKey U l = .ok (l1, some stateFn.lexEqualSign) ∧
      l1.At (pre ++ (tok ++ s)) [] ('=' :: R) [{ Typ := itemType.itemKey, Value := tok ++ s }] := by
  obtain ⟨l1, h1, hl⟩ := lexKeyLoop_letters hU hs h
  obtain ⟨l2, he, h2⟩ := h1.emit_eq itemType.itemKey
  refine ⟨l2, ?_, h2⟩
  rw [lexKey, h.remaining, show (s ++ '=' :: R).length + 1 = s.length + (R.length + 1 + 1) by
    simp; omega, hl, lexKeyLoop, h1.sliceFrom_eq]
  simp [equalSign, he]

theorem lexKey_unassigned (hU : U.Faithful) {s : List Char} (hs : Letters U s)
    (hR : R = [] ∨ ∃ r, R = '\n' :: r) (h : l.At pre tok (s ++ R) []) :
    ∃ l1 : lexer, lexKey U l = .ok (l1, none) ∧
      l1.At [] [] [] [{ Typ := itemType.itemError, Value := "unassigned key".toList }] := by
  obtain ⟨l1, h1, hl⟩ := lexKeyLoop_letters hU hs h
  rw [lexKey, h.remaining, show (s ++ R).length + 1 = s.length + (R.length + 1) by
    simp; omega, hl, lexKeyLoop, h1.sliceFrom_eq]
  rcases hR with rfl | ⟨r, rfl⟩
  · obtain ⟨l2, he, h2⟩ := h1.errorf_eq "unassigned key".toList
    exact ⟨l2, by simpa [equalSign, h1.next_nil] using he, h2⟩
  · obtain ⟨l2, hn, h2⟩ := h1.next_cons
    obtain ⟨l3, he, h3⟩ := h2.errorf_eq "unassigned key".toList
    exact ⟨l3, by simpa [equalSign, hn] using he, h3⟩

theorem lexKey_invalid (hU : U.Faithful) {s : List Char} (hs : Letters U s) {c : Char}
    (hc : U.IsLetter c = false) (hc1 : c ≠ '=') (hc2 : c ≠ '\n')
    (h : l.At pre tok (s ++ c :: R) []) :
    ∃ l1 : lexer, lexKey U l = .ok (l1, none) ∧
      l1.At [] [] [] [{ Typ := itemType.itemError, Value := "invalid key".toList }] := by
  obtain ⟨l1, h1, hl⟩ := lexKeyLoop_letters hU hs h
  obtain ⟨l2, hn, h2⟩ := h1.next_cons
  obtain ⟨l3, he, h3⟩ := h2.errorf_eq "invalid key".toList
  refine ⟨l3, ?_, h3⟩
  rw [lexKey, h.remaining, show (s ++ c :: R).length + 1 = s.length + (R.length + 1 + 1) by
    simp; omega, hl, lexKeyLoop, h1.sliceFrom_eq]
  simpa [equalSign, hn, hc, hc2, Ne.symm hc1] using he

theorem lexValue_line {v : List Char} (hv : NoNewline v) (h : l.At pre tok (v ++ '\n' :: R) []) :
    ∃ l1 : lexer, lexValue l = .ok (l1, some stateFn.lexStart) ∧
      l1.At (pre ++ (tok ++ v)) [] ('\n' :: R) [{ Typ := itemType.itemValue, Value := tok ++ v }] := by
  obtain ⟨l1, h1, hl⟩ := lexValueLoop_noNewline hv h
  obtain ⟨l2, he, h2⟩ := h1.emit_eq itemType.itemValue
  refine ⟨l2, ?_, h2⟩
  rw [lexValue, h.remaining, show (v ++ '\n' :: R).length + 1 = v.length + (R.length + 1 + 1) by
    simp; omega, hl, lexValueLoop, h1.sliceFrom_eq]
  simp [newLine, he]

theorem lexValue_eof {v : List Char} (hv : NoNewline v) (h : l.At pre tok v []) :
    ∃ l1 : lexer, lexValue l = .ok (l1, none) ∧
      l1.At [] [] [] [{ Typ := itemType.itemError, Value := "unexpected end of file".toList }] := by
  have h0 : l.At pre tok (v ++ []) [] := by simpa using h
  obtain ⟨l1, h1, hl⟩ := lexValueLoop_noNewline hv h0
  obtain ⟨l2, he, h2⟩ := h1.errorf_eq "unexpected end of file".toList
  refine ⟨l2, ?_, h2⟩
  rw [lexValue, h.remaining, show v.length + 1 = v.length + (0 + 1) by rfl, hl, lexValueLoop,
    h1.sliceFrom_eq]
  simpa [newLine, h1.next_nil] using he

/-! The state functions on any input. -/

/-- The state function `lexStart` on any input: it sends `itemEOF`, or hands over to
`lexLeftBracket` in front of a `[`, or hands over to `lexKey` after a letter. -/
theorem lexStartLoop_cases (U : Unicode) :
    ∀ (R : List Char) (n : Nat) (l : lexer) (pre tok : List Char),
      l.At pre tok R [] → R.length < n →
      (∃ (l1 : lexer) (pre1 v : List Char), lexStartLoop U n l = .ok (l1, none) ∧
          l1.At pre1 [] [] [{ Typ := itemType.itemEOF, Value := v }]) ∨
      (∃ (l1 : lexer) (pre1 tok1 R1 : List Char),
          lexStartLoop U n l = .ok (l1, some stateFn.lexLeftBracket) ∧
          l1.At pre1 tok1 ('[' :: R1) [] ∧ R1.length < R.length) ∨
      (∃ (l1 : lexer) (pre1 tok1 R1 : List Char),
          lexStartLoop U n l = .ok (l1, some stateFn.lexKey) ∧
          l1.At pre1 tok1 R1 [] ∧ R1.length < R.length) := by
  intro R
  induction R with
  | nil =>
    intro n l pre tok h hn
    obtain ⟨m, rfl⟩ : ∃ m, n = m + 1 := ⟨n - 1, by omega⟩
    obtain ⟨l1, he, h1⟩ := h.emit_eq itemType.itemEOF
    refine Or.inl ⟨l1, _, _, ?_, h1⟩
    rw [lexStartLoop, h.sliceFrom_eq]
    simp [leftBracket, h.next_nil, he]
  | cons c R ih =>
    intro n l pre tok h hn
    obtain ⟨m, rfl⟩ : ∃ m, n = m + 1 := ⟨n - 1, by omega⟩
    have hm : R.length < m := by simpa using hn
    by_cases hc : c = '['
    · subst hc
      refine Or.inr (Or.inl ⟨l, _, _, _, ?_, h, by simp⟩)
      rw [lexStartLoop, h.sliceFrom_eq]
      simp [leftBracket]
    · obtain ⟨l1, hnx, h1⟩ := h.next_cons
      have hstep : lexStartLoop U (m + 1) l =
          if U.IsSpace c then lexStartLoop U m (ignore l1)
          else if U.IsLetter c then .ok (l1, some stateFn.lexKey)
          else lexStartLoop U m l1 := by
        rw [lexStartLoop, h.sliceFrom_eq]
        simp [leftBracket, Ne.symm hc, hnx]
      by_cases hsp : U.IsSpace c = true
      · rw [hstep, if_pos hsp]
        rcases ih m _ _ _ h1.ignore_At hm with h3 | ⟨l3, p3, t3, R3, h3, hA3, hl3⟩ |
            ⟨l3, p3, t3, R3, h3, hA3, hl3⟩
        · exact Or.inl h3
        · exact Or.inr (Or.inl ⟨l3, p3, t3, R3, h3, hA3, by simp; omega⟩)
        · exact Or.inr (Or.inr ⟨l3, p3, t3, R3, h3, hA3, by simp; omega⟩)
      · by_cases hlt : U.IsLetter c = true
        · refine Or.inr (Or.inr ⟨l1, _, _, _, ?_, h1, by simp⟩)
          rw [hstep, if_neg hsp, if_pos hlt]
        · rw [hstep, if_neg hsp, if_neg hlt]
          rcases ih m _ _ _ h1 hm with h3 | ⟨l3, p3, t3, R3, h3, hA3, hl3⟩ |
              ⟨l3, p3, t3, R3, h3, hA3, hl3⟩
          · exact Or.inl h3
          · exact Or.inr (Or.inl ⟨l3, p3, t3, R3, h3, hA3, by simp; omega⟩)
          · exact Or.inr (Or.inr ⟨l3, p3, t3, R3, h3, hA3, by simp; omega⟩)

/-- The state function `lexSection` on any input: it sends an error, or the section name in
front of a `]`. -/
theorem lexSectionLoop_cases (U : Unicode) :
    ∀ (R : List Char) (n : Nat) (l : lexer) (pre tok : List Char),
      l.At pre tok R [] → R.length < n →
      (∃ (l1 : lexer) (msg : List Char), lexSectionLoop U n l = .ok (l1, none) ∧
          l1.At [] [] [] [{ Typ := itemType.itemError, Value := msg }]) ∨
      (∃ (l1 : lexer) (pre1 v R1 : List Char),
          lexSectionLoop U n l = .ok (l1, some stateFn.lexRightBracket) ∧
          l1.At pre1 [] (']' :: R1) [{ Typ := itemType.itemSection, Value := v }] ∧
          R1.length < R.length) := by
  intro R
  induction R with
  | nil =>
    intro n l pre tok h hn
    obtain ⟨m, rfl⟩ : ∃ m, n = m + 1 := ⟨n - 1, by omega⟩
    obtain ⟨l1, he, h1⟩ := h.errorf_eq "unclosed section".toList
    refine Or.inl ⟨l1, _, ?_, h1⟩
    rw [lexSectionLoop, h.sliceFrom_eq]
    simpa [rightBracket, h.next_nil] using he
  | cons c R ih =>
    intro n l pre tok h hn
    obtain ⟨m, rfl⟩ : ∃ m, n = m + 1 := ⟨n - 1, by omega⟩
    have hm : R.length < m := by simpa using hn
    by_cases hc : c = ']'
    · subst hc
      obtain ⟨l1, he, h1⟩ := h.emit_eq itemType.itemSection
      refine Or.inr ⟨l1, _, _, _, ?_, h1, by simp⟩
      rw [lexSectionLoop, h.sliceFrom_eq]
      simp [rightBracket, he]
    · obtain ⟨l1, hnx, h1⟩ := h.next_cons
      have hstep : lexSectionLoop U (m + 1) l =
          if c = '\n' then errorf l1 "unclosed section".toList
          else if (!U.IsLetter c) = true then errorf l1 "invalid section".toList
          else lexSectionLoop U m l1 := by
        rw [lexSectionLoop, h.sliceFrom_eq]
        simp [rightBracket, Ne.symm hc, hnx]
      by_cases hnl : c = '\n'
      · obtain ⟨l2, he, h2⟩ := h1.errorf_eq "unclosed section".toList
        exact Or.inl ⟨l2, _, by rw [hstep, if_pos hnl, he], h2⟩
      · by_cases hlt : (!U.IsLetter c) = true
        · obtain ⟨l2, he, h2⟩ := h1.errorf_eq "invalid section".toList
          exact Or.inl ⟨l2, _, by rw [hstep, if_neg hnl, if_pos hlt, he], h2⟩
        · rw [hstep, if_neg hnl, if_neg hlt]
          rcases ih m l1 pre _ h1 hm with h3 | ⟨l3, p3, v3, R3, h3, hA3, hl3⟩
          · exact Or.inl h3
          · exact Or.inr ⟨l3, p3, v3, R3, h3, hA3, by simp; omega⟩

/-- The state function `lexKey` on any input: it sends an error, or the key in front of
a `=`. -/
theorem lexKeyLoop_cases (U : Unicode) :
    ∀ (R : List Char) (n : Nat) (l : lexer) (pre tok : List Char),
      l.At pre tok R [] → R.length < n →
      (∃ (l1 : lexer) (msg : List Char), lexKeyLoop U n l = .ok (l1, none) ∧
          l1.At [] [] [] [{ Typ := itemType.itemError, Value := msg }]) ∨
      (∃ (l1 : lexer) (pre1 v R1 : List Char),
          lexKeyLoop U n l = .ok (l1, some stateFn.lexEqualSign) ∧
          l1.At pre1 [] ('=' :: R1) [{ Typ := itemType.itemKey, Value := v }] ∧
          R1.length < R.length) := by
  intro R
  induction R with
  | nil =>
    intro n l pre tok h hn
    obtain ⟨m, rfl⟩ : ∃ m, n = m + 1 := ⟨n - 1, by omega⟩
    obtain ⟨l1, he, h1⟩ := h.errorf_eq "unassigned key".toList
    refine Or.inl ⟨l1, _, ?_, h1⟩
    rw [lexKeyLoop, h.sliceFrom_eq]
    simpa [equalSign, h.next_nil] using he
  | cons c R ih =>
    intro n l pre tok h hn
    obtain ⟨m, rfl⟩ : ∃ m, n = m + 1 := ⟨n - 1, by omega⟩
    have hm : R.length < m := by simpa using hn
    by_cases hc : c = '='
    · subst hc
      obtain ⟨l1, he, h1⟩ := h.emit_eq itemType.itemKey
      refine Or.inr ⟨l1, _, _, _, ?_, h1, by simp⟩
      rw [lexKeyLoop, h.sliceFrom_eq]
      simp [equalSign, he]
    · obtain ⟨l1, hnx, h1⟩ := h.next_cons
      have hstep : lexKeyLoop U (m + 1) l =
          if c = '\n' then errorf l1 "unassigned key".toList
          else if (!U.IsLetter c) = true then errorf l1 "invalid key".toList
          else lexKeyLoop U m l1 := by
        rw [lexKeyLoop, h.sliceFrom_eq]
        simp [equalSign, Ne.symm hc, hnx]
      by_cases hnl : c = '\n'
      · obtain ⟨l2, he, h2⟩ := h1.errorf_eq "unassigned key".toList
        exact Or.inl ⟨l2, _, by rw [hstep, if_pos hnl, he], h2⟩
      · by_cases hlt : (!U.IsLetter c) = true
        · obtain ⟨l2, he, h2⟩ := h1.errorf_eq "invalid key".toList
          exact Or.inl ⟨l2, _, by rw [hstep, if_neg hnl, if_pos hlt, he], h2⟩
        · rw [hstep, if_neg hnl, if_neg hlt]
          rcases ih m l1 pre _ h1 hm with h3 | ⟨l3, p3, v3, R3, h3, hA3, hl3⟩
          · exact Or.inl h3
          · exact Or.inr ⟨l3, p3, v3, R3, h3, hA3, by simp; omega⟩

/-- The state function `lexValue` on any input: it sends an error, or the value in front
of a newline. -/
theorem lexValueLoop_cases :
    ∀ (R : List Char) (n : Nat) (l : lexer) (pre tok : List Char),
      l.At pre tok R [] → R.length < n →
      (∃ (l1 : lexer) (msg : List Char), lexValueLoop n l = .ok (l1, none) ∧
          l1.At [] [] [] [{ Typ := itemType.itemError, Value := msg }]) ∨
      (∃ (l1 : lexer) (pre1 v R1 : List Char),
          lexValueLoop n l = .ok (l1, some stateFn.lexStart) ∧
          l1.At pre1 [] ('\n' :: R1) [{ Typ := itemType.itemValue, Value := v }] ∧
          R1.length < R.length) := by
  intro R
  induction R with
  | nil =>
    intro n l pre tok h hn
    obtain ⟨m, rfl⟩ : ∃ m, n = m + 1 := ⟨n - 1, by omega⟩
    obtain ⟨l1, he, h1⟩ := h.errorf_eq "unexpected end of file".toList
    refine Or.inl ⟨l1, _, ?_, h1⟩
    rw [lexValueLoop, h.sliceFrom_eq]
    simpa [newLine, h.next_nil] using he
  | cons c R ih =>
    intro n l pre tok h hn
    obtain ⟨m, rfl⟩ : ∃ m, n = m + 1 := ⟨n - 1, by omega⟩
    have hm : R.length < m := by simpa using hn
    by_cases hc : c = '\n'
    · subst hc
      obtain ⟨l1, he, h1⟩ := h.emit_eq itemType.itemValue
      refine Or.inr ⟨l1, _, _, _, ?_, h1, by simp⟩
      rw [lexValueLoop, h.sliceFrom_eq]
      simp [newLine, he]
    · obtain ⟨l1, hnx, h1⟩ := h.next_cons
      have hstep : lexValueLoop (m + 1) l = lexValueLoop m l1 := by
        rw [lexValueLoop, h.sliceFrom_eq]
        simp [newLine, Ne.symm hc, hnx]
      rw [hstep]
      rcases ih m l1 pre _ h1 hm with h3 | ⟨l3, p3, v3, R3, h3, hA3, hl3⟩
      · exact Or.inl h3
      · exact Or.inr ⟨l3, p3, v3, R3, h3, hA3, by simp; omega⟩

end StateFunctions

/-! ## One token at a time -/

theorem lex_Ready (name input : List Char) : (lex name input).Ready input stateFn.lexStart :=
  ⟨⟨[], lex_At name input⟩, rfl⟩

section Tokens

variable {U : Unicode} {l : lexer} {R : List Char}

theorem nextItemLoop_run (n : Nat) {l1 : lexer} {f : stateFn} {st : Option stateFn}
    (hb : l.items.buf = []) (hs : l.state = some f) (hc : f.call U l = .ok (l1, st)) :
    nextItemLoop U (n + 1) l = nextItemLoop U n { l1 with state := st } := by
  simp [nextItemLoop, hb, hs, hc]

theorem nextItemLoop_recv (n : Nat) {it : item} {b : List item} (hb : l.items.buf = it :: b) :
    nextItemLoop U (n + 1) l = .ok (it, { l with items := { l.items with buf := b } }) := by
  simp [nextItemLoop, hb]

/-- A state function that sends: `nextItem` runs it and receives what it sent. -/
theorem nextItem_of_call {l1 : lexer} {f : stateFn} {st : Option stateFn} {it : item}
    {pre tok rest : List Char} (hb : l.items.buf = []) (hs : l.state = some f)
    (hc : f.call U l = .ok (l1, st)) (h1 : l1.At pre tok rest [it]) :
    ∃ l2 : lexer, nextItem U l = .ok (it, l2) ∧ l2.At pre tok rest [] ∧ l2.state = st := by
  refine ⟨{ l1 with state := st, items := { l1.items with buf := [] } }, ?_,
    ⟨h1.input, h1.start, h1.pos, h1.cap, rfl⟩, rfl⟩
  rw [nextItem, nextItemLoop_run 2 hb hs hc, nextItemLoop_recv 1 (by exact h1.buf)]

/-- The state function `lexStart` hands over to `g` without sending, and `g` sends. -/
theorem nextItem_of_call2 {l1 l2 : lexer} {g : stateFn} {st : Option stateFn} {it : item}
    {pre tok rest : List Char} (hb : l.items.buf = []) (hs : l.state = some stateFn.lexStart)
    (hc : lexStart U l = .ok (l1, some g)) (hb1 : l1.items.buf = [])
    (hc2 : g.call U { l1 with state := some g } = .ok (l2, st)) (h2 : l2.At pre tok rest [it]) :
    ∃ l3 : lexer, nextItem U l = .ok (it, l3) ∧ l3.At pre tok rest [] ∧ l3.state = st := by
  refine ⟨{ l2 with state := st, items := { l2.items with buf := [] } }, ?_,
    ⟨h2.input, h2.start, h2.pos, h2.cap, rfl⟩, rfl⟩
  rw [nextItem, nextItemLoop_run 2 hb hs (by exact hc), nextItemLoop_run 1 (by exact hb1) rfl hc2,
    nextItemLoop_recv 0 (by exact h2.buf)]

theorem nextItem_key (hU : U.Faithful) {ws k : List Char} (hws : Spaces U ws) (hk : Ident U k)
    (h : l.Ready (ws ++ k ++ '=' :: R) stateFn.lexStart) :
    ∃ l1 : lexer, nextItem U l = .ok ({ Typ := itemType.itemKey, Value := k }, l1) ∧
      l1.Ready ('=' :: R) stateFn.lexEqualSign := by
  obtain ⟨⟨pre, hA⟩, hs⟩ := h
  obtain ⟨c, k, rfl⟩ := List.exists_cons_of_ne_nil hk.1
  have hA0 : l.At pre [] (ws ++ c :: (k ++ '=' :: R)) [] := by simpa using hA
  obtain ⟨l1, h1, hA1⟩ := lexStart_letter hU hws (hk.2 c (List.mem_cons_self _ _)) hA0
  obtain ⟨l2, h2, hA2⟩ := lexKey_assigned hU (fun d hd => hk.2 d (List.mem_cons_of_mem _ hd))
    (hA1.withState (some stateFn.lexKey))
  obtain ⟨l3, h3, hA3, hs3⟩ := nextItem_of_call2 hA.buf hs h1 hA1.buf h2 hA2
  exact ⟨l3, by simpa using h3, ⟨_, hA3⟩, hs3⟩

theorem nextItem_equalSign (h : l.Ready ('=' :: R) stateFn.lexEqualSign) :
    ∃ l1 : lexer, nextItem U l = .ok ({ Typ := itemType.itemEqualSign, Value := ['='] }, l1) ∧
      l1.Ready R stateFn.lexValue := by
  obtain ⟨⟨pre, hA⟩, hs⟩ := h
  obtain ⟨l1, h1, hA1⟩ := lexEqualSign_eq hA
  obtain ⟨l2, h2, hA2, hs2⟩ := nextItem_of_call hA.buf hs h1 hA1
  exact ⟨l2, by simpa using h2, ⟨_, hA2⟩, hs2⟩

theorem nextItem_value {v : List Char} (hv : NoNewline v)
    (h : l.Ready (v ++ '\n' :: R) stateFn.lexValue) :
    ∃ l1 : lexer, nextItem U l = .ok ({ Typ := itemType.itemValue, Value := v }, l1) ∧
      l1.Ready ('\n' :: R) stateFn.lexStart := by
  obtain ⟨⟨pre, hA⟩, hs⟩ := h
  obtain ⟨l1, h1, hA1⟩ := lexValue_line hv hA
  obtain ⟨l2, h2, hA2, hs2⟩ := nextItem_of_call hA.buf hs h1 hA1
  exact ⟨l2, by simpa using h2, ⟨_, hA2⟩, hs2⟩

theorem nextItem_leftBracket (hU : U.Faithful) {ws : List Char} (hws : Spaces U ws)
    (h : l.Ready (ws ++ '[' :: R) stateFn.lexStart) :
    ∃ l1 : lexer, nextItem U l = .ok ({ Typ := itemType.itemLeftBracket, Value := ['['] }, l1) ∧
      l1.Ready R stateFn.lexSection := by
  obtain ⟨⟨pre, hA⟩, hs⟩ := h
  obtain ⟨l1, h1, hA1⟩ := lexStart_bracket hU hws hA
  obtain ⟨l2, h2, hA2⟩ := lexLeftBracket_eq (hA1.withState (some stateFn.lexLeftBracket))
  obtain ⟨l3, h3, hA3, hs3⟩ := nextItem_of_call2 hA.buf hs h1 hA1.buf h2 hA2
  exact ⟨l3, by simpa using h3, ⟨_, hA3⟩, hs3⟩

theorem nextItem_section (hU : U.Faithful) {s : List Char} (hs : Letters U s)
    (h : l.Ready (s ++ ']' :: R) stateFn.lexSection) :
    ∃ l1 : lexer, nextItem U l = .ok ({ Typ := itemType.itemSection, Value := s }, l1) ∧
      l1.Ready (']' :: R) stateFn.lexRightBracket := by
  obtain ⟨⟨pre, hA⟩, hst⟩ := h
  obtain ⟨l1, h1, hA1⟩ := lexSection_closed hU hs hA
  obtain ⟨l2, h2, hA2, hs2⟩ := nextItem_of_call hA.buf hst h1 hA1
  exact ⟨l2, by simpa using h2, ⟨_, hA2⟩, hs2⟩

theorem nextItem_rightBracket (h : l.Ready (']' :: R) stateFn.lexRightBracket) :
    ∃ l1 : lexer, nextItem U l = .ok ({ Typ := itemType.itemRrightBracket, Value := [']'] }, l1) ∧
      l1.Ready R stateFn.lexStart := by
  obtain ⟨⟨pre, hA⟩, hs⟩ := h
  obtain ⟨l1, h1, hA1⟩ := lexRightBracket_eq hA
  obtain ⟨l2, h2, hA2, hs2⟩ := nextItem_of_call hA.buf hs h1 hA1
  exact ⟨l2, by simpa using h2, ⟨_, hA2⟩, hs2⟩

theorem nextItem_eof (hU : U.Faithful) {ws : List Char} (hws : Spaces U ws)
    (h : l.Ready ws stateFn.lexStart) :
    ∃ l1 : lexer, nextItem U l = .ok ({ Typ := itemType.itemEOF, Value := [] }, l1) ∧
      l1.Halted := by
  obtain ⟨⟨pre, hA⟩, hs⟩ := h
  obtain ⟨l1, h1, hA1⟩ := lexStart_eof hU hws hA
  obtain ⟨l2, h2, hA2, hs2⟩ := nextItem_of_call hA.buf hs h1 hA1
  exact ⟨l2, h2, hA2.buf, hs2⟩

theorem nextItem_section_unclosed (hU : U.Faithful) {s : List Char} (hs : Letters U s)
    (hR : R = [] ∨ ∃ r, R = '\n' :: r) (h : l.Ready (s ++ R) stateFn.lexSection) :
    ∃ l1 : lexer, nextItem U l =
        .ok ({ Typ := itemType.itemError, Value := "unclosed section".toList }, l1) ∧
      l1.Halted := by
  obtain ⟨⟨pre, hA⟩, hst⟩ := h
  obtain ⟨l1, h1, hA1⟩ := lexSection_unclosed hU hs hR hA
  obtain ⟨l2, h2, hA2, hs2⟩ := nextItem_of_call hA.buf hst h1 hA1
  exact ⟨l2, h2, hA2.buf, hs2⟩

theorem nextItem_section_invalid (hU : U.Faithful) {s : List Char} (hs : Letters U s) {c : Char}
    (hc : U.IsLetter c = false) (hc1 : c ≠ ']') (hc2 : c ≠ '\n')
    (h : l.Ready (s ++ c :: R) stateFn.lexSection) :
    ∃ l1 : lexer, nextItem U l =
        .ok ({ Typ := itemType.itemError, Value := "invalid section".toList }, l1) ∧
      l1.Halted := by
  obtain ⟨⟨pre, hA⟩, hst⟩ := h
  obtain ⟨l1, h1, hA1⟩ := lexSection_invalid hU hs hc hc1 hc2 hA
  obtain ⟨l2, h2, hA2, hs2⟩ := nextItem_of_call hA.buf hst h1 hA1
  exact ⟨l2, h2, hA2.buf, hs2⟩

theorem nextItem_value_eof {v : List Char} (hv : NoNewline v)
    (h : l.Ready v stateFn.lexValue) :
    ∃ l1 : lexer, nextItem U l =
        .ok ({ Typ := itemType.itemError, Value := "unexpected end of file".toList }, l1) ∧
      l1.Halted := by
  obtain ⟨⟨pre, hA⟩, hs⟩ := h
  obtain ⟨l1, h1, hA1⟩ := lexValue_eof hv hA
  obtain ⟨l2, h2, hA2, hs2⟩ := nextItem_of_call hA.buf hs h1 hA1
  exact ⟨l2, h2, hA2.buf, hs2⟩

/-- A key that starts the input or follows white space and is not followed by `=`. -/
theorem nextItem_key_error (hU : U.Faithful) {k T : List Char} (hk : Ident U k)
    {msg : List Char}
    (hT : ∀ {l0 : lexer} {pre tok s : List Char}, Letters U s → l0.At pre tok (s ++ T) [] →
      ∃ l1 : lexer, lexKey U l0 = .ok (l1, none) ∧
        l1.At [] [] [] [{ Typ := itemType.itemError, Value := msg }])
    (h : l.Ready (k ++ T) stateFn.lexStart) :
    ∃ l1 : lexer, nextItem U l = .ok ({ Typ := itemType.itemError, Value := msg }, l1) ∧
      l1.Halted := by
  obtain ⟨⟨pre, hA⟩, hs⟩ := h
  obtain ⟨c, k, rfl⟩ := List.exists_cons_of_ne_nil hk.1
  have hA0 : l.At pre [] ([] ++ c :: (k ++ T)) [] := by simpa using hA
  obtain ⟨l1, h1, hA1⟩ := lexStart_letter hU (fun _ hd => absurd hd (List.not_mem_nil _))
    (hk.2 c (List.mem_cons_self _ _)) hA0
  obtain ⟨l2, h2, hA2⟩ := hT (fun d hd => hk.2 d (List.mem_cons_of_mem _ hd))
    (hA1.withState (some stateFn.lexKey))
  obtain ⟨l3, h3, hA3, hs3⟩ := nextItem_of_call2 hA.buf hs h1 hA1.buf h2 hA2
  exact ⟨l3, h3, hA3.buf, hs3⟩

/-- Once the state is nil and nothing is buffered, asking for a token calls nil. -/
theorem nextItem_halted (h : l.Halted) : nextItem U l = .nilCall := by
  simp [nextItem, nextItemLoop, h.1, h.2]

theorem Phase.two_le_potential (p : Phase) : 2 ≤ p.potential := by
  cases p <;> simp [Phase.potential]

/-- One call of `nextItem` on any input, from any phase: it hands out the last token and
leaves the state nil, or it hands out another token and goes on to a phase of smaller
potential.  In particular three iterations of its loop are always enough. -/
theorem nextItem_phase (U : Unicode) (p : Phase) (h : p.Holds l) :
    ∃ (it : item) (l1 : lexer), nextItem U l = .ok (it, l1) ∧
      ((it.Terminal ∧ l1.Halted) ∨
        (¬ it.Terminal ∧ ∃ q : Phase, q.Holds l1 ∧ p.Emits it.Typ q ∧ q.potential < p.potential)) := by
  cases p with
  | start R =>
    obtain ⟨⟨pre, hA⟩, hs⟩ := h
    have hfuel : R.length < l.input.length - l.pos + 1 := by rw [hA.remaining]; omega
    rcases lexStartLoop_cases U R _ l pre [] hA hfuel with ⟨l1, p1, v, h1, hA1⟩ |
        ⟨l1, p1, t1, R1, h1, hA1, hl1⟩ | ⟨l1, p1, t1, R1, h1, hA1, hl1⟩
    · obtain ⟨l2, h2, hA2, hs2⟩ := nextItem_of_call hA.buf hs (by exact h1) hA1
      exact ⟨_, l2, h2, Or.inl ⟨Or.inl rfl, hA2.buf, hs2⟩⟩
    · obtain ⟨l2, h2, hA2⟩ := lexLeftBracket_eq (hA1.withState (some stateFn.lexLeftBracket))
      obtain ⟨l3, h3, hA3, hs3⟩ := nextItem_of_call2 hA.buf hs h1 hA1.buf h2 hA2
      refine ⟨_, l3, h3, Or.inr ⟨by simp [item.Terminal], .name R1, ⟨⟨_, hA3⟩, hs3⟩,
        Or.inl ⟨rfl, R1, rfl⟩, ?_⟩⟩
      simp only [Phase.potential]; omega
    · have hA1s := hA1.withState (some stateFn.lexKey)
      have hfuel1 : R1.length <
          ({ l1 with state := some stateFn.lexKey } : lexer).input.length -
            ({ l1 with state := some stateFn.lexKey } : lexer).pos + 1 := by
        rw [hA1s.remaining]; omega
      rcases lexKeyLoop_cases U R1 _ _ p1 t1 hA1s hfuel1 with ⟨l2, msg, h2, hA2⟩ |
          ⟨l2, p2, v2, R2, h2, hA2, hl2⟩
      · obtain ⟨l3, h3, hA3, hs3⟩ := nextItem_of_call2 hA.buf hs h1 hA1.buf (by exact h2) hA2
        exact ⟨_, l3, h3, Or.inl ⟨Or.inr rfl, hA3.buf, hs3⟩⟩
      · obtain ⟨l3, h3, hA3, hs3⟩ := nextItem_of_call2 hA.buf hs h1 hA1.buf (by exact h2) hA2
        refine ⟨_, l3, h3, Or.inr ⟨by simp [item.Terminal], .assign R2, ⟨⟨_, hA3⟩, hs3⟩,
          Or.inr ⟨rfl, R2, rfl⟩, ?_⟩⟩
        simp only [Phase.potential]; omega
  | name R =>
    obtain ⟨⟨pre, hA⟩, hs⟩ := h
    have hfuel : R.length < l.input.length - l.pos + 1 := by rw [hA.remaining]; omega
    rcases lexSectionLoop_cases U R _ l pre [] hA hfuel with ⟨l1, msg, h1, hA1⟩ |
        ⟨l1, p1, v1, R1, h1, hA1, hl1⟩
    · obtain ⟨l2, h2, hA2, hs2⟩ := nextItem_of_call hA.buf hs (by exact h1) hA1
      exact ⟨_, l2, h2, Or.inl ⟨Or.inr rfl, hA2.buf, hs2⟩⟩
    · obtain ⟨l2, h2, hA2, hs2⟩ := nextItem_of_call hA.buf hs (by exact h1) hA1
      refine ⟨_, l2, h2, Or.inr ⟨by simp [item.Terminal], .close R1, ⟨⟨_, hA2⟩, hs2⟩,
        ⟨rfl, R1, rfl⟩, ?_⟩⟩
      simp only [Phase.potential]; omega
  | close R =>
    obtain ⟨⟨pre, hA⟩, hs⟩ := h
    obtain ⟨l1, h1, hA1⟩ := lexRightBracket_eq hA
    obtain ⟨l2, h2, hA2, hs2⟩ := nextItem_of_call hA.buf hs h1 hA1
    refine ⟨_, l2, h2, Or.inr ⟨by simp [item.Terminal], .start R, ⟨⟨_, hA2⟩, hs2⟩,
      ⟨rfl, rfl⟩, ?_⟩⟩
    simp only [Phase.potential]; omega
  | assign R =>
    obtain ⟨⟨pre, hA⟩, hs⟩ := h
    obtain ⟨l1, h1, hA1⟩ := lexEqualSign_eq hA
    obtain ⟨l2, h2, hA2, hs2⟩ := nextItem_of_call hA.buf hs h1 hA1
    refine ⟨_, l2, h2, Or.inr ⟨by simp [item.Terminal], .value R, ⟨⟨_, hA2⟩, hs2⟩,
      ⟨rfl, rfl⟩, ?_⟩⟩
    simp only [Phase.potential]; omega
  | value R =>
    obtain ⟨⟨pre, hA⟩, hs⟩ := h
    have hfuel : R.length < l.input.length - l.pos + 1 := by rw [hA.remaining]; omega
    rcases lexValueLoop_cases R _ l pre [] hA hfuel with ⟨l1, msg, h1, hA1⟩ |
        ⟨l1, p1, v1, R1, h1, hA1, hl1⟩
    · obtain ⟨l2, h2, hA2, hs2⟩ := nextItem_of_call hA.buf hs (by exact h1) hA1
      exact ⟨_, l2, h2, Or.inl ⟨Or.inr rfl, hA2.buf, hs2⟩⟩
    · obtain ⟨l2, h2, hA2, hs2⟩ := nextItem_of_call hA.buf hs (by exact h1) hA1
      refine ⟨_, l2, h2, Or.inr ⟨by simp [item.Terminal], .start ('\n' :: R1), ⟨⟨_, hA2⟩, hs2⟩,
        ⟨rfl, _, rfl⟩, ?_⟩⟩
      simp only [Phase.potential, List.length_cons]; omega

end Tokens

/-! ## Well-formed texts, line by line -/

section ParseSteps

variable {U : Unicode} {l l1 : lexer} {v : List Char}

theorem ParseLoop_eof (n : Nat) (file : File) (cur : Section) (key : List Char)
    (h : nextItem U l = .ok ({ Typ := itemType.itemEOF, Value := v }, l1)) :
    ParseLoop U (n + 1) l file cur key =
      .ok { file with Sections := file.Sections ++ [cur] } := by
  simp [ParseLoop, h]

theorem ParseLoop_section (n : Nat) (file : File) (cur : Section) (key : List Char)
    (h : nextItem U l = .ok ({ Typ := itemType.itemSection, Value := v }, l1)) :
    ParseLoop U (n + 1) l file cur key =
      ParseLoop U n l1
        (if cur.KeyValuePairs.length > 0 then
          { file with Sections := file.Sections ++ [cur] } else file)
        { Name := v, KeyValuePairs := [] } key := by
  simp [ParseLoop, h]

theorem ParseLoop_key (n : Nat) (file : File) (cur : Section) (key : List Char)
    (h : nextItem U l = .ok ({ Typ := itemType.itemKey, Value := v }, l1)) :
    ParseLoop U (n + 1) l file cur key = ParseLoop U n l1 file cur v := by
  simp [ParseLoop, h]

theorem ParseLoop_value (n : Nat) (file : File) (cur : Section) (key : List Char)
    (h : nextItem U l = .ok ({ Typ := itemType.itemValue, Value := v }, l1)) :
    ParseLoop U (n + 1) l file cur key =
      ParseLoop U n l1 file
        { cur with KeyValuePairs := cur.KeyValuePairs ++ [{ Key := key, Value := v }] } [] := by
  simp [ParseLoop, h]

/-- Every other token leaves the builder as it is. -/
theorem ParseLoop_other (n : Nat) (file : File) (cur : Section) (key : List Char) {t : itemType}
    (ht : t = itemType.itemError ∨ t = itemType.itemLeftBracket ∨ t = itemType.itemRrightBracket ∨
      t = itemType.itemNewLine ∨ t = itemType.itemEqualSign)
    (h : nextItem U l = .ok ({ Typ := t, Value := v }, l1)) :
    ParseLoop U (n + 1) l file cur key = ParseLoop U n l1 file cur key := by
  rcases ht with rfl | rfl | rfl | rfl | rfl <;> simp [ParseLoop, h]

theorem ParseLoop_nilCall (n : Nat) (file : File) (cur : Section) (key : List Char)
    (h : nextItem U l = .nilCall) : ParseLoop U (n + 1) l file cur key = .nilCall := by
  simp [ParseLoop, h]

/-- Every token but `itemEOF` sends the loop of `Parse` round again. -/
theorem ParseLoop_again (n : Nat) (file : File) (cur : Section) (key : List Char) {it : item}
    (ht : it.Typ ≠ itemType.itemEOF) (h : nextItem U l = .ok (it, l1)) :
    ∃ (file1 : File) (cur1 : Section) (key1 : List Char),
      ParseLoop U (n + 1) l file cur key = ParseLoop U n l1 file1 cur1 key1 := by
  obtain ⟨t, v⟩ := it
  cases t with
  | itemEOF => exact absurd rfl ht
  | itemSection => exact ⟨_, _, _, ParseLoop_section n file cur key h⟩
  | itemKey => exact ⟨_, _, _, ParseLoop_key n file cur key h⟩
  | itemValue => exact ⟨_, _, _, ParseLoop_value n file cur key h⟩
  | itemError => exact ⟨_, _, _, ParseLoop_other n file cur key (by simp) h⟩
  | itemLeftBracket => exact ⟨_, _, _, ParseLoop_other n file cur key (by simp) h⟩
  | itemRrightBracket => exact ⟨_, _, _, ParseLoop_other n file cur key (by simp) h⟩
  | itemNewLine => exact ⟨_, _, _, ParseLoop_other n file cur key (by simp) h⟩
  | itemEqualSign => exact ⟨_, _, _, ParseLoop_other n file cur key (by simp) h⟩

/-- The loop of `Parse` ends when its fuel is no less than the potential of the phase: it
returns a document, or it panics on the call of the nil state after an error token. -/
theorem ParseLoop_total (U : Unicode) :
    ∀ (n : Nat) (p : Phase) (l : lexer) (file : File) (cur : Section) (key : List Char),
      p.Holds l → p.potential ≤ n →
      (∃ f : File, ParseLoop U n l file cur key = .ok f) ∨
        ParseLoop U n l file cur key = .nilCall := by
  intro n
  induction n with
  | zero =>
    intro p l file cur key _ hp
    have := p.two_le_potential
    omega
  | succ n ih =>
    intro p l file cur key h hp
    obtain ⟨it, l1, hn, hcase⟩ := nextItem_phase U p h
    rcases hcase with ⟨hT | hT, hH⟩ | ⟨hT, q, hq, _, hlt⟩
    · obtain ⟨t, v⟩ := it
      obtain rfl : t = itemType.itemEOF := hT
      exact Or.inl ⟨_, ParseLoop_eof n file cur key hn⟩
    · obtain ⟨f1, c1, k1, e⟩ := ParseLoop_again n file cur key (by rw [hT]; decide) hn
      obtain ⟨m, rfl⟩ : ∃ m, n = m + 1 := ⟨n - 1, by have := p.two_le_potential; omega⟩
      rw [e, ParseLoop_nilCall m f1 c1 k1 (nextItem_halted hH)]
      exact Or.inr rfl
    · obtain ⟨f1, c1, k1, e⟩ := ParseLoop_again n file cur key (fun e => hT (Or.inl e)) hn
      rw [e]
      exact ih q l1 f1 c1 k1 hq (by omega)

/-- The function `Parse` ends on every input, in a document or in the panic of a nil
call: the fuel `2 * n + 2` is never used up. -/
theorem Parse_total (U : Unicode) (name input : List Char) :
    (∃ f : File, Parse U name input = .ok f) ∨ Parse U name input = .nilCall :=
  ParseLoop_total U _ (.start input) _ _ _ _ (lex_Ready name input) (le_refl _)

end ParseSteps

theorem Spaces.append {U : Unicode} {a b : List Char} (ha : Spaces U a) (hb : Spaces U b) :
    Spaces U (a ++ b) := by
  intro c hc
  rcases List.mem_append.1 hc with h | h
  · exact ha c h
  · exact hb c h

theorem Spaces.nil (U : Unicode) : Spaces U [] := fun _ h => absurd h (List.not_mem_nil _)

theorem Spaces.of_newline {U : Unicode} (hU : U.Faithful) : Spaces U ['\n'] := by
  intro c hc
  rw [List.mem_singleton.1 hc]
  exact hU.space_newline

/-- The loop of `Parse` on a well-formed text: three tokens a line, then `itemEOF`. -/
theorem ParseLoop_lines {U : Unicode} (hU : U.Faithful) (wEnd : List Char)
    (hEnd : Spaces U wEnd) (file : File) (m : Nat) :
    ∀ (lines : List (List Char × Line)) (l : lexer) (acc : List Section) (cur : Section)
      (w0 : List Char),
      (∀ x ∈ lines, Spaces U x.1 ∧ x.2.WellFormed U) → Spaces U w0 →
      l.Ready (w0 ++ (paddedText lines ++ wEnd)) stateFn.lexStart →
      ParseLoop U (3 * lines.length + 1 + m) l { file with Sections := acc } cur [] =
        .ok { file with Sections := build (lines.map Prod.snd) acc cur } := by
  intro lines
  induction lines with
  | nil =>
    intro l acc cur w0 _ hw0 hR
    obtain ⟨l1, h1, _⟩ := nextItem_eof hU (hw0.append hEnd) (by simpa [paddedText] using hR)
    rw [show 3 * ([] : List (List Char × Line)).length + 1 + m = m + 1 by simp; omega,
      ParseLoop_eof m _ cur [] h1]
    simp [build]
  | cons x rest ih =>
    intro l acc cur w0 hwf hw0 hR
    obtain ⟨w, ln⟩ := x
    have hx := hwf (w, ln) (List.mem_cons_self _ _)
    have hrest : ∀ y ∈ rest, Spaces U y.1 ∧ y.2.WellFormed U :=
      fun y hy => hwf y (List.mem_cons_of_mem _ hy)
    have hfuel : 3 * ((w, ln) :: rest).length + 1 + m = (3 * rest.length + 1 + m) + 1 + 1 + 1 := by
      simp; omega
    rw [hfuel]
    cases ln with
    | pair k v =>
      have hR0 : l.Ready ((w0 ++ w) ++ k ++ '=' :: (v ++ '\n' :: (paddedText rest ++ wEnd)))
          stateFn.lexStart := by
        simpa [paddedText, Line.text] using hR
      obtain ⟨l1, h1, hR1⟩ := nextItem_key hU (hw0.append hx.1) hx.2.1 hR0
      obtain ⟨l2, h2, hR2⟩ := nextItem_equalSign (U := U) hR1
      obtain ⟨l3, h3, hR3⟩ := nextItem_value (U := U) hx.2.2 hR2
      rw [ParseLoop_key _ _ _ _ h1, ParseLoop_other _ _ _ _ (by simp) h2,
        ParseLoop_value _ _ _ _ h3]
      rw [ih l3 acc _ ['\n'] hrest (Spaces.of_newline hU) (by simpa using hR3)]
      simp [build]
    | header s =>
      have hR0 : l.Ready ((w0 ++ w) ++ '[' :: (s ++ ']' :: '\n' :: (paddedText rest ++ wEnd)))
          stateFn.lexStart := by
        simpa [paddedText, Line.text] using hR
      obtain ⟨l1, h1, hR1⟩ := nextItem_leftBracket hU (hw0.append hx.1) hR0
      obtain ⟨l2, h2, hR2⟩ := nextItem_section hU hx.2.2 hR1
      obtain ⟨l3, h3, hR3⟩ := nextItem_rightBracket (U := U) hR2
      rw [ParseLoop_other _ _ _ _ (by simp) h1, ParseLoop_section _ _ _ _ h2,
        ParseLoop_other _ _ _ _ (by simp) h3]
      by_cases hc : cur.KeyValuePairs.length > 0
      · rw [if_pos hc, ih l3 _ _ ['\n'] hrest (Spaces.of_newline hU) (by simpa using hR3)]
        simp [build, hc]
      · rw [if_neg hc]
        rw [ih l3 acc _ ['\n'] hrest (Spaces.of_newline hU) (by simpa using hR3)]
        simp [build, hc]

theorem paddedText_length (lines : List (List Char × Line)) :
    2 * lines.length ≤ (paddedText lines).length := by
  induction lines with
  | nil => simp
  | cons x rest ih =>
    obtain ⟨w, ln⟩ := x
    cases ln <;> simp [paddedText, Line.text] <;> omega

/-- The function `Parse` on a well-formed text with white space before every line and at
the end. -/
theorem Parse_lines {U : Unicode} (hU : U.Faithful) (name : List Char)
    (lines : List (List Char × Line)) (wEnd : List Char)
    (hwf : ∀ x ∈ lines, Spaces U x.1 ∧ x.2.WellFormed U) (hEnd : Spaces U wEnd) :
    Parse U name (paddedText lines ++ wEnd) =
      .ok { Name := name,
            Sections := build (lines.map Prod.snd) [] { Name := [], KeyValuePairs := [] } } := by
  have hlen := paddedText_length lines
  obtain ⟨m, hm⟩ : ∃ m, 2 * (paddedText lines ++ wEnd).length + 2 = 3 * lines.length + 1 + m :=
    ⟨2 * (paddedText lines ++ wEnd).length + 2 - (3 * lines.length + 1), by
      simp only [List.length_append]; omega⟩
  rw [Parse, hm]
  exact ParseLoop_lines hU wEnd hEnd { Name := name, Sections := [] } m lines _ [] _ []
    hwf (Spaces.nil U) (by simpa using lex_Ready name (paddedText lines ++ wEnd))

/-! ## Pure facts on `build` -/

theorem paddedText_append (a b : List (List Char × Line)) :
    paddedText (a ++ b) = paddedText a ++ paddedText b := by
  induction a with
  | nil => rfl
  | cons x a ih =>
    obtain ⟨w, ln⟩ := x
    simp [paddedText, ih]

theorem paddedText_pairRows (ps : List KeyValuePair) : paddedText (pairRows ps) = pairLines ps := by
  induction ps with
  | nil => rfl
  | cons p ps ih =>
    have h : pairRows (p :: ps) = ([], Line.pair p.Key p.Value) :: pairRows ps := rfl
    rw [h, paddedText, ih]
    simp [pairLines, Line.text, equalSign, newLine]

theorem paddedText_blockRows (bs : List Section) : paddedText (blockRows bs) = blocksText bs := by
  induction bs with
  | nil => rfl
  | cons b bs ih =>
    rw [blockRows, paddedText, paddedText_append, paddedText_pairRows, ih]
    simp [blocksText, Line.text, leftBracket, rightBracket, newLine]

theorem build_pairRows (ps : List KeyValuePair) :
    ∀ (rest : List Line) (acc : List Section) (cur : Section),
      build ((pairRows ps).map Prod.snd ++ rest) acc cur =
        build rest acc { cur with KeyValuePairs := cur.KeyValuePairs ++ ps } := by
  induction ps with
  | nil => intro rest acc cur; simp [pairRows]
  | cons p ps ih =>
    intro rest acc cur
    have h : (pairRows (p :: ps)).map Prod.snd = Line.pair p.Key p.Value :: (pairRows ps).map Prod.snd :=
      rfl
    rw [h, List.cons_append, build, ih]
    simp

theorem build_blockRows (bs : List Section) :
    ∀ (acc : List Section) (cur : Section),
      build ((blockRows bs).map Prod.snd) acc cur =
        acc ++ ((cur :: bs).dropLast.filter fun b => decide (0 < b.KeyValuePairs.length)) ++
          [(cur :: bs).getLast (List.cons_ne_nil _ _)] := by
  induction bs with
  | nil => intro acc cur; simp [blockRows, build]
  | cons b bs ih =>
    intro acc cur
    have h : (blockRows (b :: bs)).map Prod.snd =
        Line.header b.Name :: ((pairRows b.KeyValuePairs).map Prod.snd ++ (blockRows bs).map Prod.snd) := by
      simp [blockRows]
    rw [h, build, build_pairRows, ih]
    by_cases hc : 0 < cur.KeyValuePairs.length
    · simp [hc, List.filter_cons]
    · simp [hc, List.filter_cons]

theorem wellFormed_pairRows {U : Unicode} {ps : List KeyValuePair}
    (h : ∀ p ∈ ps, Ident U p.Key ∧ NoNewline p.Value) :
    ∀ x ∈ pairRows ps, Spaces U x.1 ∧ x.2.WellFormed U := by
  intro x hx
  obtain ⟨p, hp, rfl⟩ := List.mem_map.1 hx
  exact ⟨Spaces.nil U, h p hp⟩

theorem wellFormed_blockRows {U : Unicode} {bs : List Section}
    (h : ∀ b ∈ bs, Ident U b.Name ∧ ∀ p ∈ b.KeyValuePairs, Ident U p.Key ∧ NoNewline p.Value) :
    ∀ x ∈ blockRows bs, Spaces U x.1 ∧ x.2.WellFormed U := by
  induction bs with
  | nil => intro x hx; simp [blockRows] at hx
  | cons b bs ih =>
    intro x hx
    have hb := h b (List.mem_cons_self _ _)
    rw [blockRows, List.mem_cons, List.mem_append] at hx
    rcases hx with rfl | hx | hx
    · exact ⟨Spaces.nil U, hb.1⟩
    · exact wellFormed_pairRows hb.2 x hx
    · exact ih (fun c hc => h c (List.mem_cons_of_mem _ hc)) x hx

/-- An ASCII word of letters is a key, whatever the tables say beyond ASCII. -/
theorem Ident_of_ascii {U : Unicode} (hU : U.Faithful) {s : List Char} (h0 : s ≠ [])
    (h : ∀ c ∈ s, c.toNat < 128 ∧ c.isAlpha = true) : Ident U s :=
  ⟨h0, fun c hc => by rw [hU.letter_ascii c (h c hc).1]; exact (h c hc).2⟩

/-! ## The client that collects the tokens -/

section TokenSteps

variable {U : Unicode} {l l1 : lexer} {it : item}

theorem tokensLoop_last (n : Nat)
    (ht : it.Typ = itemType.itemEOF ∨ it.Typ = itemType.itemError)
    (h : nextItem U l = .ok (it, l1)) : tokensLoop U (n + 1) l = .ok [it] := by
  simp [tokensLoop, h, ht]

theorem tokensLoop_cons (n : Nat) {rest : List item}
    (ht : it.Typ ≠ itemType.itemEOF ∧ it.Typ ≠ itemType.itemError)
    (h : nextItem U l = .ok (it, l1)) (hrest : tokensLoop U n l1 = .ok rest) :
    tokensLoop U (n + 1) l = .ok (it :: rest) := by
  simp [tokensLoop, h, ht.1, ht.2, hrest]

/-- The client that collects the tokens receives a last token when its fuel is no less than
the potential of the phase. -/
theorem tokensLoop_total (U : Unicode) :
    ∀ (n : Nat) (p : Phase) (l : lexer), p.Holds l → p.potential ≤ n →
      ∃ ts : List item, tokensLoop U n l = .ok ts := by
  intro n
  induction n with
  | zero =>
    intro p l _ hp
    have := p.two_le_potential
    omega
  | succ n ih =>
    intro p l h hp
    obtain ⟨it, l1, hn, hcase⟩ := nextItem_phase U p h
    rcases hcase with ⟨hT, _⟩ | ⟨hT, q, hq, _, hlt⟩
    · exact ⟨_, tokensLoop_last n hT hn⟩
    · obtain ⟨ts, hts⟩ := ih q l1 hq (by omega)
      exact ⟨_, tokensLoop_cons n (by simpa [item.Terminal, not_or] using hT) hn hts⟩

/-- Every input has a finite token sequence: the fuel `2 * n + 2` is never used up. -/
theorem tokens_total (U : Unicode) (name input : List Char) :
    ∃ ts : List item, tokens U name input = .ok ts :=
  tokensLoop_total U _ (.start input) _ (lex_Ready name input) (le_refl _)

/-- When the tokens end in an error, the loop of `Parse` ends in the call of the nil
state. -/
theorem ParseLoop_nilCall_of_error (U : Unicode) :
    ∀ (n : Nat) (p : Phase) (l : lexer) (file : File) (cur : Section) (key : List Char)
      (ts : List item), p.Holds l → p.potential ≤ n → tokensLoop U n l = .ok ts →
      (∃ it : item, ts.getLast? = some it ∧ it.Typ = itemType.itemError) →
      ParseLoop U n l file cur key = .nilCall := by
  intro n
  induction n with
  | zero =>
    intro p l file cur key ts _ hp
    have := p.two_le_potential
    omega
  | succ n ih =>
    intro p l file cur key ts h hp hts hlast
    obtain ⟨it0, hl0, he0⟩ := hlast
    obtain ⟨it, l1, hn, hcase⟩ := nextItem_phase U p h
    rcases hcase with ⟨hT, hH⟩ | ⟨hT, q, hq, _, hlt⟩
    · rw [tokensLoop_last n hT hn] at hts
      obtain rfl : [it] = ts := by simpa using hts
      obtain rfl : it = it0 := by simpa using hl0
      obtain ⟨f1, c1, k1, e⟩ := ParseLoop_again n file cur key (by rw [he0]; decide) hn
      obtain ⟨m, rfl⟩ : ∃ m, n = m + 1 := ⟨n - 1, by have := p.two_le_potential; omega⟩
      rw [e, ParseLoop_nilCall m f1 c1 k1 (nextItem_halted hH)]
    · obtain ⟨rest, hrest⟩ := tokensLoop_total U n q l1 hq (by omega)
      have hT2 : it.Typ ≠ itemType.itemEOF ∧ it.Typ ≠ itemType.itemError := by
        simpa [item.Terminal, not_or] using hT
      rw [tokensLoop_cons n hT2 hn hrest] at hts
      obtain rfl : it :: rest = ts := by simpa using hts
      obtain ⟨f1, c1, k1, e⟩ := ParseLoop_again n file cur key hT2.1 hn
      rw [e]
      cases rest with
      | nil =>
        obtain rfl : it = it0 := by simpa using hl0
        exact absurd he0 hT2.2
      | cons a r =>
        exact ih q l1 f1 c1 k1 (a :: r) hq (by omega) hrest
          ⟨it0, by simpa [List.getLast?_cons_cons] using hl0, he0⟩

end TokenSteps

/-! ## The document of a well-formed text -/

/-- C1. For every list of pairs whose keys are non-empty strings of letters and whose values
hold no newline, `Parse` applied to the concatenation of the lines `key=value\n` returns a
document with exactly one section, named `""`, whose pairs are the given pairs in the given
order (values as they are, equal keys kept apart); on the empty text that section has no
pair. -/
theorem Parse_pairLines (U : Unicode) (hU : U.Faithful) (name : List Char)
    (ps : List KeyValuePair) (hps : ∀ p ∈ ps, Ident U p.Key ∧ NoNewline p.Value) :
    Parse U name (pairLines ps) =
        .ok { Name := name, Sections := [{ Name := [], KeyValuePairs := ps }] } ∧
      Parse U name [] = .ok { Name := name, Sections := [{ Name := [], KeyValuePairs := [] }] } := by
  constructor
  · have h := Parse_lines hU name (pairRows ps) [] (wellFormed_pairRows hps) (Spaces.nil U)
    rw [paddedText_pairRows, List.append_nil] at h
    rw [h]
    have hb := build_pairRows ps [] [] { Name := [], KeyValuePairs := [] }
    rw [List.append_nil] at hb
    rw [hb]
    simp [build]
  · have h := Parse_lines hU name [] [] (fun _ hx => absurd hx (List.not_mem_nil _)) (Spaces.nil U)
    simpa [paddedText, build] using h

theorem Parse_pairLines_witness :
    asciiTables.Faithful ∧
      (∀ p ∈ [({ Key := "key".toList, Value := "abcdefg".toList } : KeyValuePair),
          { Key := "key".toList, Value := " = [x] ".toList }],
        Ident asciiTables p.Key ∧ NoNewline p.Value) ∧
      (Parse asciiTables "t".toList
          (pairLines [{ Key := "key".toList, Value := "abcdefg".toList },
            { Key := "key".toList, Value := " = [x] ".toList }]) =
        .ok { Name := "t".toList,
              Sections := [{ Name := [],
                             KeyValuePairs := [{ Key := "key".toList, Value := "abcdefg".toList },
                               { Key := "key".toList, Value := " = [x] ".toList }] }] } ∧
       Parse asciiTables "t".toList [] =
        .ok { Name := "t".toList, Sections := [{ Name := [], KeyValuePairs := [] }] }) :=
  ⟨asciiTables_faithful, by decide,
    Parse_pairLines asciiTables asciiTables_faithful _ _ (by decide)⟩

/-- C2. For a well-formed text, a preamble `P` followed by blocks `B1..Bn` (a header line
and lines `key=value\n`; keys and header names non-empty strings of letters, values without
newline), `Parse` returns the elements of the list `("", P), B1, ..., Bn` in that order,
each with its name and its pairs in source order: an element other than the last is
returned exactly if it has a pair, the last element is always returned.  So
`"[user]\nname=Adam\n"` gives the one element `user`, and the text of a preamble and two
headers gives the three elements `""`, `user`, `address`. -/
theorem Parse_documentText (U : Unicode) (hU : U.Faithful) (name : List Char)
    (P : List KeyValuePair) (Bs : List Section)
    (hP : ∀ p ∈ P, Ident U p.Key ∧ NoNewline p.Value)
    (hBs : ∀ b ∈ Bs, Ident U b.Name ∧ ∀ p ∈ b.KeyValuePairs, Ident U p.Key ∧ NoNewline p.Value) :
    Parse U name (documentText P Bs) = .ok { Name := name, Sections := presentSections P Bs } ∧
      Parse U name "[user]\nname=Adam\n".toList =
        .ok { Name := name,
              Sections := [{ Name := "user".toList,
                             KeyValuePairs := [{ Key := "name".toList, Value := "Adam".toList }] }] } ∧
      Parse U name
          "key=abcdefg\n\n[user]\nname=Adam Eury\nage=35\n\n[address]\nstreet=1800 Test Lane\ncity=Testy\n".toList =
        .ok { Name := name,
              Sections :=
                [{ Name := [],
                   KeyValuePairs := [{ Key := "key".toList, Value := "abcdefg".toList }] },
                 { Name := "user".toList,
                   KeyValuePairs := [{ Key := "name".toList, Value := "Adam Eury".toList },
                     { Key := "age".toList, Value := "35".toList }] },
                 { Name := "address".toList,
                   KeyValuePairs := [{ Key := "street".toList, Value := "1800 Test Lane".toList },
                     { Key := "city".toList, Value := "Testy".toList }] }] } := by
  refine ⟨?_, ?_, ?_⟩
  · have hwf : ∀ x ∈ pairRows P ++ blockRows Bs, Spaces U x.1 ∧ x.2.WellFormed U := by
      intro x hx
      rcases List.mem_append.1 hx with hx | hx
      · exact wellFormed_pairRows hP x hx
      · exact wellFormed_blockRows hBs x hx
    have h := Parse_lines hU name (pairRows P ++ blockRows Bs) [] hwf (Spaces.nil U)
    rw [paddedText_append, paddedText_pairRows, paddedText_blockRows, List.append_nil] at h
    rw [documentText, h, List.map_append, build_pairRows, build_blockRows]
    simp [presentSections]
  · have key : ∀ s : List Char, s ≠ [] → (∀ c ∈ s, c.toNat < 128 ∧ c.isAlpha = true) → Ident U s :=
      fun s h0 h => Ident_of_ascii hU h0 h
    have h := Parse_lines hU name
      [([], Line.header "user".toList), ([], Line.pair "name".toList "Adam".toList)] []
      (by
        intro x hx
        simp only [List.mem_cons, List.mem_singleton, List.not_mem_nil, or_false] at hx
        rcases hx with rfl | rfl
        · exact ⟨Spaces.nil U, key _ (by decide) (by decide)⟩
        · exact ⟨Spaces.nil U, key _ (by decide) (by decide), by decide⟩)
      (Spaces.nil U)
    exact h
  · have key : ∀ s : List Char, s ≠ [] → (∀ c ∈ s, c.toNat < 128 ∧ c.isAlpha = true) → Ident U s :=
      fun s h0 h => Ident_of_ascii hU h0 h
    have hn : Spaces U ['\n'] := Spaces.of_newline hU
    have h := Parse_lines hU name
      [([], Line.pair "key".toList "abcdefg".toList),
       (['\n'], Line.header "user".toList),
       ([], Line.pair "name".toList "Adam Eury".toList),
       ([], Line.pair "age".toList "35".toList),
       (['\n'], Line.header "address".toList),
       ([], Line.pair "street".toList "1800 Test Lane".toList),
       ([], Line.pair "city".toList "Testy".toList)] []
      (by
        intro x hx
        simp only [List.mem_cons, List.mem_singleton, List.not_mem_nil, or_false] at hx
        rcases hx with rfl | rfl | rfl | rfl | rfl | rfl | rfl
        · exact ⟨Spaces.nil U, key _ (by decide) (by decide), by decide⟩
        · exact ⟨hn, key _ (by decide) (by decide)⟩
        · exact ⟨Spaces.nil U, key _ (by decide) (by decide), by decide⟩
        · exact ⟨Spaces.nil U, key _ (by decide) (by decide), by decide⟩
        · exact ⟨hn, key _ (by decide) (by decide)⟩
        · exact ⟨Spaces.nil U, key _ (by decide) (by decide), by decide⟩
        · exact ⟨Spaces.nil U, key _ (by decide) (by decide), by decide⟩)
      (Spaces.nil U)
    exact h

theorem Parse_documentText_witness :
    asciiTables.Faithful ∧
      (∀ p ∈ [({ Key := "key".toList, Value := "abcdefg".toList } : KeyValuePair)],
        Ident asciiTables p.Key ∧ NoNewline p.Value) ∧
      (∀ b ∈ [({ Name := "empty".toList, KeyValuePairs := [] } : Section),
          { Name := "user".toList,
            KeyValuePairs := [{ Key := "name".toList, Value := "Adam".toList }] },
          { Name := "last".toList, KeyValuePairs := [] }],
        Ident asciiTables b.Name ∧
          ∀ p ∈ b.KeyValuePairs, Ident asciiTables p.Key ∧ NoNewline p.Value) ∧
      Parse asciiTables "t".toList
          (documentText [{ Key := "key".toList, Value := "abcdefg".toList }]
            [{ Name := "empty".toList, KeyValuePairs := [] },
             { Name := "user".toList,
               KeyValuePairs := [{ Key := "name".toList, Value := "Adam".toList }] },
             { Name := "last".toList, KeyValuePairs := [] }]) =
        .ok { Name := "t".toList,
              Sections := presentSections [{ Key := "key".toList, Value := "abcdefg".toList }]
                [{ Name := "empty".toList, KeyValuePairs := [] },
                 { Name := "user".toList,
                   KeyValuePairs := [{ Key := "name".toList, Value := "Adam".toList }] },
                 { Name := "last".toList, KeyValuePairs := [] }] } :=
  ⟨asciiTables_faithful, by decide, by decide,
    (Parse_documentText asciiTables asciiTables_faithful _ _ _ (by decide) (by decide)).1⟩

/-- Whatever `Parse` returns has a section: the loop returns at `itemEOF` only, after
appending the current section. -/
theorem ParseLoop_sections_ne_nil (U : Unicode) :
    ∀ (n : Nat) (l : lexer) (file : File) (cur : Section) (key : List Char) (f : File),
      ParseLoop U n l file cur key = .ok f → f.Sections ≠ [] := by
  intro n
  induction n with
  | zero => intro l file cur key f h; simp [ParseLoop] at h
  | succ n ih =>
    intro l file cur key f h
    rw [ParseLoop] at h
    cases hn : nextItem U l with
    | ok x =>
      obtain ⟨it, l1⟩ := x
      rw [hn] at h
      simp only [Exec.ok_bind] at h
      by_cases he : it.Typ = itemType.itemEOF
      · rw [if_pos he] at h
        simp only [Exec.pure_eq, Exec.ok.injEq] at h
        rw [← h]
        simp
      · rw [if_neg he] at h
        split at h <;> exact ih _ _ _ _ _ h
    | nilCall => rw [hn] at h; simp at h
    | sliceBounds => rw [hn] at h; simp at h
    | deadlock => rw [hn] at h; simp at h
    | fuel => rw [hn] at h; simp at h

/-- C3. On every input on which `Parse` returns a document, the section list of the document
is not empty; and `Parse(name, "")` returns exactly one section, with the empty name and no
pair.  (The middle part tells that the fuel of the model does not cut a run short: `Parse`
ends on every input, in a document or in a panic.) -/
theorem Parse_sections_ne_nil (U : Unicode) (name input : List Char) :
    (∀ f : File, Parse U name input = .ok f → f.Sections ≠ []) ∧
      ((∃ f : File, Parse U name input = .ok f) ∨ Parse U name input = .nilCall) ∧
      Parse U name [] = .ok { Name := name, Sections := [{ Name := [], KeyValuePairs := [] }] } :=
  ⟨fun f h => ParseLoop_sections_ne_nil U _ _ _ _ _ f h, Parse_total U name input, rfl⟩

theorem Parse_sections_ne_nil_witness :
    Parse asciiTables "t".toList "[user]\nname=Adam\n".toList =
        .ok { Name := "t".toList,
              Sections := [{ Name := "user".toList,
                             KeyValuePairs := [{ Key := "name".toList, Value := "Adam".toList }] }] } ∧
      ({ Name := "t".toList,
         Sections := [{ Name := "user".toList,
                        KeyValuePairs := [{ Key := "name".toList, Value := "Adam".toList }] }] } :
        File).Sections ≠ [] :=
  ⟨by decide,
    (Parse_sections_ne_nil asciiTables "t".toList "[user]\nname=Adam\n".toList).1 _ (by decide)⟩

/-- After a value that the input ends in, and after a header that is not closed on its
line, `Parse` ends in the call of the nil state. -/
theorem Parse_nilCall_families (U : Unicode) (hU : U.Faithful) (name k v s r : List Char)
    (hk : Ident U k) (hv : NoNewline v) (hs : Letters U s) :
    Parse U name (k ++ '=' :: v) = .nilCall ∧ Parse U name ('[' :: s ++ '\n' :: r) = .nilCall := by
  constructor
  · obtain ⟨n, hn⟩ : ∃ n, 2 * (k ++ '=' :: v).length + 2 = n + 1 + 1 + 1 + 1 :=
      ⟨2 * (k ++ '=' :: v).length + 2 - 4, by simp only [List.length_append, List.length_cons]; omega⟩
    have h0 : (lex name (k ++ '=' :: v)).Ready ([] ++ k ++ '=' :: v) stateFn.lexStart := by
      simpa using lex_Ready name (k ++ '=' :: v)
    obtain ⟨l1, h1, hR1⟩ := nextItem_key hU (Spaces.nil U) hk h0
    obtain ⟨l2, h2, hR2⟩ := nextItem_equalSign (U := U) hR1
    obtain ⟨l3, h3, hR3⟩ := nextItem_value_eof (U := U) hv hR2
    rw [Parse, hn, ParseLoop_key _ _ _ _ h1, ParseLoop_other _ _ _ _ (by simp) h2,
      ParseLoop_other _ _ _ _ (by simp) h3, ParseLoop_nilCall _ _ _ _ (nextItem_halted hR3)]
  · obtain ⟨n, hn⟩ : ∃ n, 2 * ('[' :: s ++ '\n' :: r).length + 2 = n + 1 + 1 + 1 :=
      ⟨2 * ('[' :: s ++ '\n' :: r).length + 2 - 3, by
        simp only [List.length_append, List.length_cons]; omega⟩
    have h0 : (lex name ('[' :: s ++ '\n' :: r)).Ready ([] ++ '[' :: (s ++ '\n' :: r))
        stateFn.lexStart := by
      simpa using lex_Ready name ('[' :: s ++ '\n' :: r)
    obtain ⟨l1, h1, hR1⟩ := nextItem_leftBracket hU (Spaces.nil U) h0
    obtain ⟨l2, h2, hR2⟩ := nextItem_section_unclosed hU hs (Or.inr ⟨r, rfl⟩) hR1
    rw [Parse, hn, ParseLoop_other _ _ _ _ (by simp) h1, ParseLoop_other _ _ _ _ (by simp) h2,
      ParseLoop_nilCall _ _ _ _ (nextItem_halted hR2)]

/-- C4 (what the code does instead). On every input whose tokens end in `itemError`,
`Parse` does not return a document: its loop has no case for `itemError` and asks for one
more token, and `nextItem` calls the nil state that `errorf` returned, a run-time panic.
So it is for `"key=abc"` and for `"[user\nname=x\n"`. -/
theorem Parse_nilCall_of_error (U : Unicode) (name input : List Char) :
    (∀ ts : List item, tokens U name input = .ok ts →
        (∃ it : item, ts.getLast? = some it ∧ it.Typ = itemType.itemError) →
        Parse U name input = .nilCall) ∧
      (U.Faithful →
        Parse U name "key=abc".toList = .nilCall ∧
          Parse U name "[user\nname=x\n".toList = .nilCall) := by
  refine ⟨fun ts hts hlast => ?_, fun hU => ?_⟩
  · exact ParseLoop_nilCall_of_error U _ (.start input) _ _ _ _ ts (lex_Ready name input)
      (le_refl _) hts hlast
  · have h := Parse_nilCall_families U hU name "key".toList "abc".toList "user".toList
      "name=x\n".toList (Ident_of_ascii hU (by decide) (by decide)) (by decide)
      (Ident_of_ascii hU (by decide) (by decide)).2
    exact h

theorem Parse_nilCall_of_error_witness :
    tokens asciiTables "t".toList "key=abc".toList =
        .ok [{ Typ := itemType.itemKey, Value := "key".toList },
             { Typ := itemType.itemEqualSign, Value := "=".toList },
             { Typ := itemType.itemError, Value := "unexpected end of file".toList }] ∧
      Parse asciiTables "t".toList "key=abc".toList = .nilCall ∧
      asciiTables.Faithful ∧
      Parse asciiTables "t".toList "[user\nname=x\n".toList = .nilCall :=
  ⟨by decide,
    (Parse_nilCall_of_error asciiTables "t".toList "key=abc".toList).1
      [{ Typ := itemType.itemKey, Value := "key".toList },
       { Typ := itemType.itemEqualSign, Value := "=".toList },
       { Typ := itemType.itemError, Value := "unexpected end of file".toList }]
      (by decide)
      ⟨{ Typ := itemType.itemError, Value := "unexpected end of file".toList }, rfl, rfl⟩,
    asciiTables_faithful,
    ((Parse_nilCall_of_error asciiTables "t".toList []).2 asciiTables_faithful).2⟩

/-- C5. For all non-empty strings of letters `a` and `b` and every sequence `L` of
well-formed lines `key=value\n`, `Parse` applied to `"[a]\n[b]\n"` followed by the lines of
`L` returns exactly one section, named `b`, holding the pairs of `L`: the header `a`, which
is followed by another header with no pair in between, is not in the document. -/
theorem Parse_header_header (U : Unicode) (hU : U.Faithful) (name a b : List Char)
    (L : List KeyValuePair) (ha : Ident U a) (hb : Ident U b)
    (hL : ∀ p ∈ L, Ident U p.Key ∧ NoNewline p.Value) :
    Parse U name
        (leftBracket ++ a ++ rightBracket ++ newLine ++
          (leftBracket ++ b ++ rightBracket ++ newLine ++ pairLines L)) =
      .ok { Name := name, Sections := [{ Name := b, KeyValuePairs := L }] } := by
  have hwf : ∀ c ∈ [({ Name := a, KeyValuePairs := [] } : Section), { Name := b, KeyValuePairs := L }],
      Ident U c.Name ∧ ∀ p ∈ c.KeyValuePairs, Ident U p.Key ∧ NoNewline p.Value := by
    intro c hc
    simp only [List.mem_cons, List.mem_singleton, List.not_mem_nil, or_false] at hc
    rcases hc with rfl | rfl
    · exact ⟨ha, fun p hp => absurd hp (List.not_mem_nil _)⟩
    · exact ⟨hb, hL⟩
  have h := Parse_lines hU name
    (blockRows [{ Name := a, KeyValuePairs := [] }, { Name := b, KeyValuePairs := L }]) []
    (wellFormed_blockRows hwf) (Spaces.nil U)
  rw [paddedText_blockRows, build_blockRows] at h
  simpa [blocksText, pairLines] using h

theorem Parse_header_header_witness :
    asciiTables.Faithful ∧ Ident asciiTables "a".toList ∧ Ident asciiTables "b".toList ∧
      (∀ p ∈ [({ Key := "k".toList, Value := "v".toList } : KeyValuePair)],
        Ident asciiTables p.Key ∧ NoNewline p.Value) ∧
      Parse asciiTables "t".toList
          (leftBracket ++ "a".toList ++ rightBracket ++ newLine ++
            (leftBracket ++ "b".toList ++ rightBracket ++ newLine ++
              pairLines [{ Key := "k".toList, Value := "v".toList }])) =
        .ok { Name := "t".toList,
              Sections := [{ Name := "b".toList,
                             KeyValuePairs := [{ Key := "k".toList, Value := "v".toList }] }] } :=
  ⟨asciiTables_faithful, by decide, by decide, by decide,
    Parse_header_header asciiTables asciiTables_faithful _ _ _ _ (by decide) (by decide)
      (by decide)⟩

/-! ## The tokens of malformed texts -/


/-- C6. For every (possibly empty) string `s` of letters and every string `r`, the tokens of
`"[" ++ s ++ "\n" ++ r`, and those of `"[" ++ s` where the input ends, are the left bracket
followed by an error token with the message `unclosed section`; there is no section-name
token. -/
theorem tokens_unclosed_section (U : Unicode) (hU : U.Faithful) (name s r : List Char)
    (hs : Letters U s) :
    tokens U name (leftBracket ++ s ++ newLine ++ r) =
        .ok [{ Typ := itemType.itemLeftBracket, Value := "[".toList },
             { Typ := itemType.itemError, Value := "unclosed section".toList }] ∧
      tokens U name (leftBracket ++ s) =
        .ok [{ Typ := itemType.itemLeftBracket, Value := "[".toList },
             { Typ := itemType.itemError, Value := "unclosed section".toList }] := by
  constructor
  · have h0 : (lex name (leftBracket ++ s ++ newLine ++ r)).Ready ([] ++ '[' :: (s ++ '\n' :: r))
        stateFn.lexStart := by
      simpa [leftBracket, newLine] using lex_Ready name (leftBracket ++ s ++ newLine ++ r)
    obtain ⟨l1, h1, hR1⟩ := nextItem_leftBracket hU (Spaces.nil U) h0
    obtain ⟨l2, h2, _⟩ := nextItem_section_unclosed hU hs (Or.inr ⟨r, rfl⟩) hR1
    rw [tokens, show 2 * (leftBracket ++ s ++ newLine ++ r).length + 2 =
      (2 * (leftBracket ++ s ++ newLine ++ r).length) + 1 + 1 by rfl]
    exact tokensLoop_cons _ (by simp) h1 (tokensLoop_last _ (Or.inr rfl) h2)
  · have h0 : (lex name (leftBracket ++ s)).Ready ([] ++ '[' :: (s ++ [])) stateFn.lexStart := by
      simpa [leftBracket] using lex_Ready name (leftBracket ++ s)
    obtain ⟨l1, h1, hR1⟩ := nextItem_leftBracket hU (Spaces.nil U) h0
    obtain ⟨l2, h2, _⟩ := nextItem_section_unclosed hU hs (Or.inl rfl) hR1
    rw [tokens, show 2 * (leftBracket ++ s).length + 2 = (2 * (leftBracket ++ s).length) + 1 + 1 by
      rfl]
    exact tokensLoop_cons _ (by simp) h1 (tokensLoop_last _ (Or.inr rfl) h2)

theorem tokens_unclosed_section_witness :
    asciiTables.Faithful ∧ Letters asciiTables "user".toList ∧
      tokens asciiTables "t".toList (leftBracket ++ "user".toList ++ newLine ++ "name=x\n".toList) =
        .ok [{ Typ := itemType.itemLeftBracket, Value := "[".toList },
             { Typ := itemType.itemError, Value := "unclosed section".toList }] :=
  ⟨asciiTables_faithful, by decide,
    (tokens_unclosed_section asciiTables asciiTables_faithful "t".toList "user".toList
      "name=x\n".toList (by decide)).1⟩

/-- C7. For every non-empty string `k` of letters and every string `v` without newline, the
tokens of `k ++ "=" ++ v`, an input that ends without a newline, are the key `k`, the equal
sign, and an error token with the message `unexpected end of file`; no value token is
emitted. -/
theorem tokens_value_eof (U : Unicode) (hU : U.Faithful) (name k v : List Char)
    (hk : Ident U k) (hv : NoNewline v) :
    tokens U name (k ++ equalSign ++ v) =
      .ok [{ Typ := itemType.itemKey, Value := k },
           { Typ := itemType.itemEqualSign, Value := "=".toList },
           { Typ := itemType.itemError, Value := "unexpected end of file".toList }] := by
  have h0 : (lex name (k ++ equalSign ++ v)).Ready ([] ++ k ++ '=' :: v) stateFn.lexStart := by
    simpa [equalSign] using lex_Ready name (k ++ equalSign ++ v)
  obtain ⟨l1, h1, hR1⟩ := nextItem_key hU (Spaces.nil U) hk h0
  obtain ⟨l2, h2, hR2⟩ := nextItem_equalSign (U := U) hR1
  obtain ⟨l3, h3, _⟩ := nextItem_value_eof (U := U) hv hR2
  obtain ⟨n, hn⟩ : ∃ n, 2 * (k ++ equalSign ++ v).length + 2 = n + 1 + 1 + 1 :=
    ⟨2 * (k ++ equalSign ++ v).length + 2 - 3, by
      simp only [List.length_append, equalSign, List.length_cons]; omega⟩
  rw [tokens, hn]
  exact tokensLoop_cons _ (by simp) h1
    (tokensLoop_cons _ (by simp) h2 (tokensLoop_last _ (Or.inr rfl) h3))

theorem tokens_value_eof_witness :
    asciiTables.Faithful ∧ Ident asciiTables "key".toList ∧ NoNewline "abc".toList ∧
      tokens asciiTables "t".toList ("key".toList ++ equalSign ++ "abc".toList) =
        .ok [{ Typ := itemType.itemKey, Value := "key".toList },
             { Typ := itemType.itemEqualSign, Value := "=".toList },
             { Typ := itemType.itemError, Value := "unexpected end of file".toList }] :=
  ⟨asciiTables_faithful, by decide, by decide,
    tokens_value_eof asciiTables asciiTables_faithful "t".toList "key".toList "abc".toList
      (by decide) (by decide)⟩

/-- C8. For every (possibly empty) string `s` of letters, every rune `c` that is not a
letter, not `]` and not a newline, and every string `r`, the tokens of `"[" ++ s ++ c ++ r`
are the left bracket followed by an error token with the message `invalid section`; there
is no section-name token. -/
theorem tokens_invalid_section (U : Unicode) (hU : U.Faithful) (name s : List Char) (c : Char)
    (r : List Char) (hs : Letters U s) (hc : U.IsLetter c = false) (hc1 : c ≠ ']')
    (hc2 : c ≠ '\n') :
    tokens U name (leftBracket ++ s ++ c :: r) =
      .ok [{ Typ := itemType.itemLeftBracket, Value := "[".toList },
           { Typ := itemType.itemError, Value := "invalid section".toList }] := by
  have h0 : (lex name (leftBracket ++ s ++ c :: r)).Ready ([] ++ '[' :: (s ++ c :: r))
      stateFn.lexStart := by
    simpa [leftBracket] using lex_Ready name (leftBracket ++ s ++ c :: r)
  obtain ⟨l1, h1, hR1⟩ := nextItem_leftBracket hU (Spaces.nil U) h0
  obtain ⟨l2, h2, _⟩ := nextItem_section_invalid hU hs hc hc1 hc2 hR1
  rw [tokens, show 2 * (leftBracket ++ s ++ c :: r).length + 2 =
    (2 * (leftBracket ++ s ++ c :: r).length) + 1 + 1 by rfl]
  exact tokensLoop_cons _ (by simp) h1 (tokensLoop_last _ (Or.inr rfl) h2)

theorem tokens_invalid_section_witness :
    asciiTables.Faithful ∧ Letters asciiTables "my".toList ∧ asciiTables.IsLetter ' ' = false ∧
      ' ' ≠ ']' ∧ ' ' ≠ '\n' ∧
      tokens asciiTables "t".toList (leftBracket ++ "my".toList ++ ' ' :: "section]\n".toList) =
        .ok [{ Typ := itemType.itemLeftBracket, Value := "[".toList },
             { Typ := itemType.itemError, Value := "invalid section".toList }] :=
  ⟨asciiTables_faithful, by decide, by decide, by decide, by decide,
    tokens_invalid_section asciiTables asciiTables_faithful "t".toList "my".toList ' '
      "section]\n".toList (by decide) (by decide) (by decide) (by decide)⟩

/-- C9. For every non-empty string `k` of letters and every string `r`, the tokens of
`k ++ "\n" ++ r`, and those of `k` where the input ends, are one token only, an error with
the message `unassigned key`: a key that meets a newline or the end of the input before `=`
is rejected and no key token is emitted. -/
theorem tokens_unassigned_key (U : Unicode) (hU : U.Faithful) (name k r : List Char)
    (hk : Ident U k) :
    tokens U name (k ++ newLine ++ r) =
        .ok [{ Typ := itemType.itemError, Value := "unassigned key".toList }] ∧
      tokens U name k = .ok [{ Typ := itemType.itemError, Value := "unassigned key".toList }] := by
  constructor
  · have h0 : (lex name (k ++ newLine ++ r)).Ready (k ++ '\n' :: r) stateFn.lexStart := by
      simpa [newLine] using lex_Ready name (k ++ newLine ++ r)
    obtain ⟨l1, h1, _⟩ := nextItem_key_error hU hk
      (fun hs hA => lexKey_unassigned hU hs (Or.inr ⟨r, rfl⟩) hA) h0
    rw [tokens, show 2 * (k ++ newLine ++ r).length + 2 = (2 * (k ++ newLine ++ r).length + 1) + 1 by
      rfl]
    exact tokensLoop_last _ (Or.inr rfl) h1
  · have h0 : (lex name k).Ready (k ++ []) stateFn.lexStart := by
      simpa using lex_Ready name k
    obtain ⟨l1, h1, _⟩ := nextItem_key_error hU hk
      (fun hs hA => lexKey_unassigned hU hs (Or.inl rfl) hA) h0
    rw [tokens, show 2 * k.length + 2 = (2 * k.length + 1) + 1 by rfl]
    exact tokensLoop_last _ (Or.inr rfl) h1

theorem tokens_unassigned_key_witness :
    asciiTables.Faithful ∧ Ident asciiTables "key".toList ∧
      tokens asciiTables "t".toList ("key".toList ++ newLine ++ "other=v\n".toList) =
        .ok [{ Typ := itemType.itemError, Value := "unassigned key".toList }] :=
  ⟨asciiTables_faithful, by decide,
    (tokens_unassigned_key asciiTables asciiTables_faithful "t".toList "key".toList
      "other=v\n".toList (by decide)).1⟩

/-- C10. For every non-empty string `k` of letters, every rune `c` that is not a letter, not
`=` and not a newline, and every string `r`, the tokens of `k ++ c ++ r` are one token only,
an error with the message `invalid key`; no key token is emitted. -/
theorem tokens_invalid_key (U : Unicode) (hU : U.Faithful) (name k : List Char) (c : Char)
    (r : List Char) (hk : Ident U k) (hc : U.IsLetter c = false) (hc1 : c ≠ '=')
    (hc2 : c ≠ '\n') :
    tokens U name (k ++ c :: r) =
      .ok [{ Typ := itemType.itemError, Value := "invalid key".toList }] := by
  have h0 : (lex name (k ++ c :: r)).Ready (k ++ c :: r) stateFn.lexStart :=
    lex_Ready name (k ++ c :: r)
  obtain ⟨l1, h1, _⟩ := nextItem_key_error hU hk
    (fun hs hA => lexKey_invalid hU hs hc hc1 hc2 hA) h0
  rw [tokens, show 2 * (k ++ c :: r).length + 2 = (2 * (k ++ c :: r).length + 1) + 1 by rfl]
  exact tokensLoop_last _ (Or.inr rfl) h1

theorem tokens_invalid_key_witness :
    asciiTables.Faithful ∧ Ident asciiTables "key".toList ∧ asciiTables.IsLetter '1' = false ∧
      '1' ≠ '=' ∧ '1' ≠ '\n' ∧
      tokens asciiTables "t".toList ("key".toList ++ '1' :: "=v\n".toList) =
        .ok [{ Typ := itemType.itemError, Value := "invalid key".toList }] :=
  ⟨asciiTables_faithful, by decide, by decide, by decide, by decide,
    tokens_invalid_key asciiTables asciiTables_faithful "t".toList "key".toList '1'
      "=v\n".toList (by decide) (by decide) (by decide) (by decide)⟩

/-! ## Invariants of the document -/

/-- The sections that the loop of `Parse` has appended before the last one have a pair. -/
theorem ParseLoop_dropLast (U : Unicode) :
    ∀ (n : Nat) (l : lexer) (file : File) (cur : Section) (key : List Char) (f : File),
      (∀ s ∈ file.Sections, 0 < s.KeyValuePairs.length) →
      ParseLoop U n l file cur key = .ok f →
      ∀ s ∈ f.Sections.dropLast, 0 < s.KeyValuePairs.length := by
  intro n
  induction n with
  | zero => intro l file cur key f _ h; simp [ParseLoop] at h
  | succ n ih =>
    intro l file cur key f hfile h
    rw [ParseLoop] at h
    cases hn : nextItem U l with
    | ok x =>
      obtain ⟨it, l1⟩ := x
      rw [hn] at h
      simp only [Exec.ok_bind] at h
      by_cases he : it.Typ = itemType.itemEOF
      · rw [if_pos he] at h
        simp only [Exec.pure_eq, Exec.ok.injEq] at h
        rw [← h]
        simpa using hfile
      · rw [if_neg he] at h
        split at h
        · refine ih _ _ _ _ _ ?_ h
          by_cases hc : cur.KeyValuePairs.length > 0
          · rw [if_pos hc]
            intro s hs
            rcases List.mem_append.1 hs with hs | hs
            · exact hfile s hs
            · rw [List.mem_singleton.1 hs]; exact hc
          · rw [if_neg hc]; exact hfile
        · exact ih _ _ _ _ _ hfile h
        · exact ih _ _ _ _ _ hfile h
        · exact ih _ _ _ _ _ hfile h
    | nilCall => rw [hn] at h; simp at h
    | sliceBounds => rw [hn] at h; simp at h
    | deadlock => rw [hn] at h; simp at h
    | fuel => rw [hn] at h; simp at h

/-- C20. On every input on which `Parse` returns a document, every section other than the
last one of the section list has a key/value pair; the last section alone may be empty. -/
theorem Parse_dropLast_nonempty (U : Unicode) (name input : List Char) (f : File)
    (h : Parse U name input = .ok f) :
    ∀ s ∈ f.Sections.dropLast, 0 < s.KeyValuePairs.length :=
  ParseLoop_dropLast U _ _ _ _ _ f (fun _ hs => absurd hs (List.not_mem_nil _)) h

theorem Parse_dropLast_nonempty_witness :
    Parse asciiTables "t".toList "k=v\n[a]\n[b]\n".toList =
        .ok { Name := "t".toList,
              Sections := [{ Name := [], KeyValuePairs := [{ Key := "k".toList, Value := "v".toList }] },
                           { Name := "b".toList, KeyValuePairs := [] }] } ∧
      ∀ s ∈ ([{ Name := [], KeyValuePairs := [{ Key := "k".toList, Value := "v".toList }] },
              { Name := "b".toList, KeyValuePairs := [] }] : List Section).dropLast,
        0 < s.KeyValuePairs.length :=
  ⟨by decide,
    Parse_dropLast_nonempty asciiTables "t".toList "k=v\n[a]\n[b]\n".toList
      { Name := "t".toList,
        Sections := [{ Name := [], KeyValuePairs := [{ Key := "k".toList, Value := "v".toList }] },
                     { Name := "b".toList, KeyValuePairs := [] }] } (by decide)⟩

/-! ## White space between the lines -/

theorem paddedText_unpadded (rows : List (List Char × Line)) :
    paddedText (rows.map fun x => ([], x.2)) = linesText (rows.map Prod.snd) := by
  induction rows with
  | nil => rfl
  | cons x rows ih =>
    obtain ⟨w, ln⟩ := x
    simp only [List.map_cons, paddedText, linesText, ih, List.nil_append]

/-- C13. White space at the top level is ignored: for every sequence of well-formed lines
(`key=value\n` or `[name]\n`, keys and names non-empty strings of letters, values without
newline) and all strings of white space, `Parse` applied to the text with a string of white
space before every line and one after the last line returns the same document as `Parse`
applied to the text of the lines alone. -/
theorem Parse_padding (U : Unicode) (hU : U.Faithful) (name : List Char)
    (rows : List (List Char × Line)) (wEnd : List Char)
    (hrows : ∀ x ∈ rows, Spaces U x.1 ∧ x.2.WellFormed U) (hEnd : Spaces U wEnd) :
    Parse U name (paddedText rows ++ wEnd) = Parse U name (linesText (rows.map Prod.snd)) ∧
      ∃ f : File, Parse U name (linesText (rows.map Prod.snd)) = .ok f := by
  have h1 := Parse_lines hU name rows wEnd hrows hEnd
  have h2 := Parse_lines hU name (rows.map fun x => ([], x.2)) []
    (by
      intro y hy
      obtain ⟨x, hx, rfl⟩ := List.mem_map.1 hy
      exact ⟨Spaces.nil U, (hrows x hx).2⟩)
    (Spaces.nil U)
  rw [paddedText_unpadded, List.append_nil, List.map_map] at h2
  have h3 : (Prod.snd ∘ fun x : List Char × Line => (([] : List Char), x.2)) = Prod.snd := rfl
  rw [h3] at h2
  exact ⟨by rw [h1, h2], _, h2⟩

theorem Parse_padding_witness :
    asciiTables.Faithful ∧
      (∀ x ∈ [(" \n\t".toList, Line.pair "k".toList " v ".toList),
          ("\n\n".toList, Line.header "user".toList), ("  ".toList, Line.pair "a".toList "b".toList)],
        Spaces asciiTables x.1 ∧ x.2.WellFormed asciiTables) ∧
      Spaces asciiTables "\n \n".toList ∧
      Parse asciiTables "t".toList " \n\tk= v \n\n\n[user]\n  a=b\n\n \n".toList =
        Parse asciiTables "t".toList "k= v \n[user]\na=b\n".toList :=
  ⟨asciiTables_faithful, by decide, by decide,
    (Parse_padding asciiTables asciiTables_faithful "t".toList
      [(" \n\t".toList, Line.pair "k".toList " v ".toList),
        ("\n\n".toList, Line.header "user".toList), ("  ".toList, Line.pair "a".toList "b".toList)]
      "\n \n".toList (by decide) (by decide)).1⟩

/-! ## Runes that `lexStart` has no case for -/

/-- The loop of `lexStart` runs over such runes and leaves `start` where it is. -/
theorem lexStartLoop_junk {U : Unicode} {pre R : List Char} {buf : List item} {j : List Char}
    (hj : Junk U j) :
    ∀ {l : lexer} {tok : List Char}, l.At pre tok (j ++ R) buf →
      ∃ l1 : lexer, l1.At pre (tok ++ j) R buf ∧
        ∀ m, lexStartLoop U (j.length + m) l = lexStartLoop U m l1 := by
  induction j with
  | nil => intro l tok h; exact ⟨l, by simpa using h, by simp⟩
  | cons c j ih =>
    intro l tok h
    obtain ⟨hc1, hc2, hc3⟩ := hj c (List.mem_cons_self _ _)
    obtain ⟨l1, hn, h1⟩ := h.next_cons
    obtain ⟨l2, h2, hl⟩ := ih (fun d hd => hj d (List.mem_cons_of_mem _ hd)) h1
    refine ⟨l2, by simpa using h2, fun m => ?_⟩
    rw [← hl m, show (c :: j).length + m = (j.length + m) + 1 by simp; omega]
    rw [lexStartLoop, h.sliceFrom_eq]
    simp [leftBracket, hn, hc1, hc2, Ne.symm hc3]

/-- A key that such runes stand in front of: the key token begins with them. -/
theorem nextItem_junk_key {U : Unicode} (hU : U.Faithful) {l : lexer} {j k R : List Char}
    (hj : Junk U j) (hk : Ident U k) (h : l.Ready (j ++ k ++ '=' :: R) stateFn.lexStart) :
    ∃ l1 : lexer, nextItem U l = .ok ({ Typ := itemType.itemKey, Value := j ++ k }, l1) ∧
      l1.Ready ('=' :: R) stateFn.lexEqualSign := by
  obtain ⟨⟨pre, hA⟩, hs⟩ := h
  obtain ⟨c, k, rfl⟩ := List.exists_cons_of_ne_nil hk.1
  have hc : U.IsLetter c = true := hk.2 c (List.mem_cons_self _ _)
  have hc1 : c ≠ '[' := by rintro rfl; simp [hU.letter_lbracket] at hc
  have hA0 : l.At pre [] (j ++ c :: (k ++ '=' :: R)) [] := by simpa using hA
  obtain ⟨l1, hA1, hl⟩ := lexStartLoop_junk hj hA0
  obtain ⟨l2, hn, hA2⟩ := hA1.next_cons
  have h1 : lexStart U l = .ok (l2, some stateFn.lexKey) := by
    rw [lexStart, hA0.remaining,
      show (j ++ c :: (k ++ '=' :: R)).length + 1 = j.length + ((k ++ '=' :: R).length + 1 + 1) by
        simp; omega,
      hl, lexStartLoop, hA1.sliceFrom_eq]
    simp [leftBracket, hn, hc, hU.letter_not_space c hc, Ne.symm hc1]
  obtain ⟨l3, h3, hA3⟩ := lexKey_assigned hU (fun d hd => hk.2 d (List.mem_cons_of_mem _ hd))
    (hA2.withState (some stateFn.lexKey))
  obtain ⟨l4, h4, hA4, hs4⟩ := nextItem_of_call2 hA.buf hs h1 hA2.buf h3 hA3
  exact ⟨l4, by simpa using h4, ⟨_, hA4⟩, hs4⟩

/-- The document of one line `key=value\n` that such runes stand in front of. -/
theorem Parse_junk_line {U : Unicode} (hU : U.Faithful) (name j k v : List Char)
    (hj : Junk U j) (hk : Ident U k) (hv : NoNewline v) :
    Parse U name (j ++ k ++ equalSign ++ v ++ newLine) =
      .ok { Name := name,
            Sections := [{ Name := [], KeyValuePairs := [{ Key := j ++ k, Value := v }] }] } := by
  have h0 : (lex name (j ++ k ++ equalSign ++ v ++ newLine)).Ready
      (j ++ k ++ '=' :: (v ++ '\n' :: [])) stateFn.lexStart := by
    simpa [equalSign, newLine] using lex_Ready name (j ++ k ++ equalSign ++ v ++ newLine)
  obtain ⟨l1, h1, hR1⟩ := nextItem_junk_key hU hj hk h0
  obtain ⟨l2, h2, hR2⟩ := nextItem_equalSign (U := U) hR1
  obtain ⟨l3, h3, hR3⟩ := nextItem_value (U := U) hv hR2
  obtain ⟨l4, h4, _⟩ := nextItem_eof hU (Spaces.of_newline hU) hR3
  obtain ⟨n, hn⟩ : ∃ n, 2 * (j ++ k ++ equalSign ++ v ++ newLine).length + 2 = n + 1 + 1 + 1 + 1 :=
    ⟨2 * (j ++ k ++ equalSign ++ v ++ newLine).length + 2 - 4, by
      simp only [List.length_append, equalSign, newLine, List.length_cons]; omega⟩
  rw [Parse, hn, ParseLoop_key _ _ _ _ h1, ParseLoop_other _ _ _ _ (by simp) h2,
    ParseLoop_value _ _ _ _ h3, ParseLoop_eof _ _ _ _ h4]
  simp

/-- C17. For every string `j` of runes that are neither white space, nor letters, nor `[`,
every non-empty string `k` of letters and every value `v` without newline,
`Parse(name, j ++ k ++ "=" ++ v ++ "\n")` returns one section, named `""`, with the single
pair whose key is `j ++ k` and whose value is `v`: `lexStart` advances past the runes of `j`
without moving `start`, so they are part of the key token that follows. -/
theorem Parse_junk_in_key (U : Unicode) (hU : U.Faithful) (name j k v : List Char)
    (hj : Junk U j) (hk : Ident U k) (hv : NoNewline v) :
    Parse U name (j ++ k ++ equalSign ++ v ++ newLine) =
      .ok { Name := name,
            Sections := [{ Name := [], KeyValuePairs := [{ Key := j ++ k, Value := v }] }] } :=
  Parse_junk_line hU name j k v hj hk hv

theorem Parse_junk_in_key_witness :
    asciiTables.Faithful ∧ Junk asciiTables "1".toList ∧ Ident asciiTables "key".toList ∧
      NoNewline "v".toList ∧
      Parse asciiTables "t".toList ("1".toList ++ "key".toList ++ equalSign ++ "v".toList ++ newLine) =
        .ok { Name := "t".toList,
              Sections := [{ Name := [],
                             KeyValuePairs := [{ Key := "1".toList ++ "key".toList,
                                                 Value := "v".toList }] }] } :=
  ⟨asciiTables_faithful, by decide, by decide, by decide,
    Parse_junk_in_key asciiTables asciiTables_faithful "t".toList "1".toList "key".toList
      "v".toList (by decide) (by decide) (by decide)⟩

/-- C11 (what the code does instead). `Parse("t", "1key=v\n")` returns a document whose one
key is `1key`, which is not a string of letters: `lexStart` has no case for the digit and
does not move `start` past it, although `lexKey` rejects every rune that is not a letter. -/
theorem Parse_key_not_letters (U : Unicode) (hU : U.Faithful) (name : List Char) :
    Parse U name "1key=v\n".toList =
        .ok { Name := name,
              Sections := [{ Name := [],
                             KeyValuePairs := [{ Key := "1key".toList, Value := "v".toList }] }] } ∧
      ¬ Letters U "1key".toList := by
  have h1 : U.IsLetter '1' = false := by rw [hU.letter_ascii _ (by decide)]; decide
  have h2 : U.IsSpace '1' = false := by rw [hU.space_ascii _ (by decide)]; decide
  constructor
  · have h := Parse_junk_line hU name "1".toList "key".toList "v".toList
      (by
        intro c hc
        rw [List.mem_singleton.1 hc]
        exact ⟨h2, h1, by decide⟩)
      (Ident_of_ascii hU (by decide) (by decide)) (by decide)
    exact h
  · intro h
    have := h '1' (by decide)
    rw [h1] at this
    exact absurd this (by decide)

theorem Parse_key_not_letters_witness :
    asciiTables.Faithful ∧
      Parse asciiTables "t".toList "1key=v\n".toList =
        .ok { Name := "t".toList,
              Sections := [{ Name := [],
                             KeyValuePairs := [{ Key := "1key".toList, Value := "v".toList }] }] } ∧
      ¬ Letters asciiTables "1key".toList :=
  ⟨asciiTables_faithful, Parse_key_not_letters asciiTables asciiTables_faithful "t".toList⟩

/-! ## The pending key -/

/-- The loop of `Parse` does to its variables what `handle` says. -/
theorem ParseLoop_handle {U : Unicode} {l l1 : lexer} (n : Nat) (file : File) (cur : Section)
    (key : List Char) {it : item} (ht : it.Typ ≠ itemType.itemEOF)
    (h : nextItem U l = .ok (it, l1)) :
    ParseLoop U (n + 1) l file cur key =
      ParseLoop U n l1 (handle it file cur key).1 (handle it file cur key).2.1
        (handle it file cur key).2.2 := by
  obtain ⟨t, v⟩ := it
  cases t with
  | itemEOF => exact absurd rfl ht
  | itemSection => exact ParseLoop_section n file cur key h
  | itemKey => exact ParseLoop_key n file cur key h
  | itemValue => exact ParseLoop_value n file cur key h
  | itemError => exact ParseLoop_other n file cur key (by simp) h
  | itemLeftBracket => exact ParseLoop_other n file cur key (by simp) h
  | itemRrightBracket => exact ParseLoop_other n file cur key (by simp) h
  | itemNewLine => exact ParseLoop_other n file cur key (by simp) h
  | itemEqualSign => exact ParseLoop_other n file cur key (by simp) h

/-! ## The order of the tokens -/

/-- In the tokens that come from a phase, a value token has an equal sign and a key token
in front of it, or it has an equal sign in front of it and the phase is before `=`, or it
is the first token and the phase is inside a value. -/
theorem tokensLoop_value_guarded (U : Unicode) :
    ∀ (n : Nat) (p : Phase) (l : lexer) (ts : List item), p.Holds l →
      tokensLoop U n l = .ok ts →
      ∀ (pre : List item) (v : item) (post : List item), ts = pre ++ v :: post →
        v.Typ = itemType.itemValue →
        (∃ (pre1 : List item) (k e : item), pre = pre1 ++ [k, e] ∧ k.Typ = itemType.itemKey ∧
            e.Typ = itemType.itemEqualSign) ∨
          (∃ (e : item) (R : List Char), pre = [e] ∧ e.Typ = itemType.itemEqualSign ∧
            p = .assign R) ∨
          (∃ R : List Char, pre = [] ∧ p = .value R) := by
  intro n
  induction n with
  | zero => intro p l ts _ h; simp [tokensLoop] at h
  | succ n ih =>
    intro p l ts hp hts pre v post hsplit hv
    obtain ⟨it, l1, hn, hcase⟩ := nextItem_phase U p hp
    rcases hcase with ⟨hT, _⟩ | ⟨hT, q, hq, hem, _⟩
    · rw [tokensLoop_last n hT hn] at hts
      obtain rfl : [it] = ts := by simpa using hts
      have hpre : pre = [] ∧ v = it := by
        cases pre with
        | nil =>
          have := hsplit.symm
          simp at this
          exact ⟨rfl, this.1⟩
        | cons a pre => simp at hsplit
      obtain ⟨_, rfl⟩ := hpre
      rcases hT with hT | hT <;> rw [hv] at hT <;> exact absurd hT (by decide)
    · have hT2 : it.Typ ≠ itemType.itemEOF ∧ it.Typ ≠ itemType.itemError := by
        simpa [item.Terminal, not_or] using hT
      obtain ⟨rest, hrest⟩ : ∃ rest, tokensLoop U n l1 = .ok rest := by
        cases hr : tokensLoop U n l1 with
        | ok rest => exact ⟨rest, rfl⟩
        | nilCall => simp [tokensLoop, hn, hT2.1, hT2.2, hr] at hts
        | sliceBounds => simp [tokensLoop, hn, hT2.1, hT2.2, hr] at hts
        | deadlock => simp [tokensLoop, hn, hT2.1, hT2.2, hr] at hts
        | fuel => simp [tokensLoop, hn, hT2.1, hT2.2, hr] at hts
      rw [tokensLoop_cons n hT2 hn hrest] at hts
      obtain rfl : it :: rest = ts := by simpa using hts
      cases pre with
      | nil =>
        obtain ⟨rfl, _⟩ : it = v ∧ rest = post := by simpa using hsplit
        cases p with
        | value R => exact Or.inr (Or.inr ⟨R, rfl, rfl⟩)
        | start R =>
          rcases hem with ⟨h1, _⟩ | ⟨h1, _⟩ <;> rw [hv] at h1 <;> exact absurd h1 (by decide)
        | name R => obtain ⟨h1, _⟩ := hem; rw [hv] at h1; exact absurd h1 (by decide)
        | close R => obtain ⟨h1, _⟩ := hem; rw [hv] at h1; exact absurd h1 (by decide)
        | assign R => obtain ⟨h1, _⟩ := hem; rw [hv] at h1; exact absurd h1 (by decide)
      | cons a pre1 =>
        obtain ⟨rfl, hrest2⟩ : it = a ∧ rest = pre1 ++ v :: post := by simpa using hsplit
        rcases ih q l1 rest hq hrest pre1 v post hrest2 hv with
          ⟨pre2, k, e, rfl, hk, he⟩ | ⟨e, R, rfl, he, rfl⟩ | ⟨R, rfl, rfl⟩
        · exact Or.inl ⟨it :: pre2, k, e, rfl, hk, he⟩
        · refine Or.inl ⟨[], it, e, rfl, ?_, he⟩
          cases p with
          | start R0 =>
            rcases hem with ⟨_, R1, h1⟩ | ⟨h1, _⟩
            · exact absurd h1 (by simp)
            · exact h1
          | name R0 => obtain ⟨_, R1, h1⟩ := hem; exact absurd h1 (by simp)
          | close R0 => obtain ⟨_, h1⟩ := hem; exact absurd h1 (by simp)
          | assign R0 => obtain ⟨_, h1⟩ := hem; exact absurd h1 (by simp)
          | value R0 => obtain ⟨_, R1, h1⟩ := hem; exact absurd h1 (by simp)
        · cases p with
          | start R0 =>
            rcases hem with ⟨_, R1, h1⟩ | ⟨_, R1, h1⟩ <;> exact absurd h1 (by simp)
          | name R0 => obtain ⟨_, R1, h1⟩ := hem; exact absurd h1 (by simp)
          | close R0 => obtain ⟨_, h1⟩ := hem; exact absurd h1 (by simp)
          | assign R0 =>
            obtain ⟨h1, _⟩ := hem
            exact Or.inr (Or.inl ⟨it, R0, rfl, h1, rfl⟩)
          | value R0 => obtain ⟨_, R1, h1⟩ := hem; exact absurd h1 (by simp)

/-- C15. For every input, in the token sequence of the tokenizer every value token comes
right after an equal-sign token, which comes right after a key token; so the builder gets
no value without a key before it from the tokenizer. -/
theorem tokens_value_after_key (U : Unicode) (name input : List Char) (ts : List item)
    (h : tokens U name input = .ok ts) (pre : List item) (v : item) (post : List item)
    (hsplit : ts = pre ++ v :: post) (hv : v.Typ = itemType.itemValue) :
    ∃ (pre1 : List item) (k e : item), pre = pre1 ++ [k, e] ∧ k.Typ = itemType.itemKey ∧
      e.Typ = itemType.itemEqualSign := by
  rcases tokensLoop_value_guarded U _ (.start input) _ ts (lex_Ready name input) h pre v post
      hsplit hv with h1 | ⟨e, R, _, _, h2⟩ | ⟨R, _, h2⟩
  · exact h1
  · exact absurd h2 (by simp)
  · exact absurd h2 (by simp)

theorem tokens_value_after_key_witness :
    tokens asciiTables "t".toList "[a]\nk=v\n".toList =
        .ok [{ Typ := itemType.itemLeftBracket, Value := "[".toList },
             { Typ := itemType.itemSection, Value := "a".toList },
             { Typ := itemType.itemRrightBracket, Value := "]".toList },
             { Typ := itemType.itemKey, Value := "k".toList },
             { Typ := itemType.itemEqualSign, Value := "=".toList },
             { Typ := itemType.itemValue, Value := "v".toList },
             { Typ := itemType.itemEOF, Value := [] }] ∧
      ∃ (pre1 : List item) (k e : item),
        [{ Typ := itemType.itemLeftBracket, Value := "[".toList },
         { Typ := itemType.itemSection, Value := "a".toList },
         { Typ := itemType.itemRrightBracket, Value := "]".toList },
         { Typ := itemType.itemKey, Value := "k".toList },
         { Typ := itemType.itemEqualSign, Value := "=".toList }] = pre1 ++ [k, e] ∧
        k.Typ = itemType.itemKey ∧ e.Typ = itemType.itemEqualSign :=
  ⟨by decide,
    tokens_value_after_key asciiTables "t".toList "[a]\nk=v\n".toList _ (by decide)
      [{ Typ := itemType.itemLeftBracket, Value := "[".toList },
       { Typ := itemType.itemSection, Value := "a".toList },
       { Typ := itemType.itemRrightBracket, Value := "]".toList },
       { Typ := itemType.itemKey, Value := "k".toList },
       { Typ := itemType.itemEqualSign, Value := "=".toList }]
      { Typ := itemType.itemValue, Value := "v".toList }
      [{ Typ := itemType.itemEOF, Value := [] }] rfl rfl⟩

/-! ## The text of the section-name tokens -/

/-- The section name that `lexSection` sends is the pending text and letters after it. -/
theorem lexSectionLoop_value (U : Unicode) :
    ∀ (R : List Char) (n : Nat) (l : lexer) (pre tok : List Char) (l1 : lexer),
      l.At pre tok R [] → lexSectionLoop U n l = .ok (l1, some stateFn.lexRightBracket) →
      ∃ s : List Char, Letters U s ∧
        l1.items.buf = [{ Typ := itemType.itemSection, Value := tok ++ s }] := by
  intro R
  induction R with
  | nil =>
    intro n l pre tok l1 h hres
    cases n with
    | zero => simp [lexSectionLoop] at hres
    | succ m =>
      obtain ⟨l2, he, _⟩ := h.errorf_eq "unclosed section".toList
      rw [lexSectionLoop, h.sliceFrom_eq] at hres
      simp only [Exec.ok_bind, rightBracket, HasPrefix_nil, h.next_nil] at hres
      rw [he] at hres
      simp at hres
  | cons c R ih =>
    intro n l pre tok l1 h hres
    cases n with
    | zero => simp [lexSectionLoop] at hres
    | succ m =>
      by_cases hc : c = ']'
      · subst hc
        obtain ⟨l2, he, h2⟩ := h.emit_eq itemType.itemSection
        rw [lexSectionLoop, h.sliceFrom_eq] at hres
        simp [rightBracket, he] at hres
        subst hres
        exact ⟨[], fun _ hd => absurd hd (List.not_mem_nil _), by simpa using h2.buf⟩
      · obtain ⟨l2, hnx, h2⟩ := h.next_cons
        have hstep : lexSectionLoop U (m + 1) l =
            if c = '\n' then errorf l2 "unclosed section".toList
            else if (!U.IsLetter c) = true then errorf l2 "invalid section".toList
            else lexSectionLoop U m l2 := by
          rw [lexSectionLoop, h.sliceFrom_eq]
          simp [rightBracket, Ne.symm hc, hnx]
        rw [hstep] at hres
        by_cases hnl : c = '\n'
        · obtain ⟨l3, he, _⟩ := h2.errorf_eq "unclosed section".toList
          rw [if_pos hnl, he] at hres
          simp at hres
        · by_cases hlt : (!U.IsLetter c) = true
          · obtain ⟨l3, he, _⟩ := h2.errorf_eq "invalid section".toList
            rw [if_neg hnl, if_pos hlt, he] at hres
            simp at hres
          · rw [if_neg hnl, if_neg hlt] at hres
            obtain ⟨s, hs, hb⟩ := ih m l2 pre _ l1 h2 hres
            refine ⟨c :: s, ?_, by simpa using hb⟩
            intro d hd
            rcases List.mem_cons.1 hd with rfl | hd
            · simpa using hlt
            · exact hs d hd

/-- A section-name token, whatever the input, is a string of letters. -/
theorem nextItem_section_value (U : Unicode) (p : Phase) {l l1 : lexer} {it : item}
    (h : p.Holds l) (hn : nextItem U l = .ok (it, l1)) (ht : it.Typ = itemType.itemSection) :
    Letters U it.Value := by
  cases p with
  | name R =>
    obtain ⟨⟨pre, hA⟩, hs⟩ := h
    have hfuel : R.length < l.input.length - l.pos + 1 := by rw [hA.remaining]; omega
    rcases lexSectionLoop_cases U R _ l pre [] hA hfuel with ⟨l2, msg, h2, hA2⟩ |
        ⟨l2, p2, v2, R2, h2, hA2, _⟩
    · obtain ⟨l3, h3, _, _⟩ := nextItem_of_call hA.buf hs (by exact h2) hA2
      rw [h3] at hn
      obtain ⟨rfl, _⟩ : { Typ := itemType.itemError, Value := msg } = it ∧ l3 = l1 := by
        simpa using hn
      exact absurd ht (by simp)
    · obtain ⟨s, hsl, hb⟩ := lexSectionLoop_value U R _ l pre [] l2 hA h2
      obtain ⟨l3, h3, _, _⟩ := nextItem_of_call hA.buf hs (by exact h2) hA2
      rw [h3] at hn
      obtain ⟨rfl, _⟩ : { Typ := itemType.itemSection, Value := v2 } = it ∧ l3 = l1 := by
        simpa using hn
      rw [hA2.buf] at hb
      obtain rfl : v2 = s := by simpa using hb
      exact hsl
  | start R =>
    obtain ⟨it2, l2, hn2, hcase⟩ := nextItem_phase U (.start R) h
    rw [hn] at hn2
    obtain ⟨rfl, _⟩ : it = it2 ∧ l1 = l2 := by simpa using hn2
    rcases hcase with ⟨hT | hT, _⟩ | ⟨_, q, _, hem, _⟩
    · rw [ht] at hT; exact absurd hT (by decide)
    · rw [ht] at hT; exact absurd hT (by decide)
    · rcases hem with ⟨h1, _⟩ | ⟨h1, _⟩ <;> rw [ht] at h1 <;> exact absurd h1 (by decide)
  | close R =>
    obtain ⟨it2, l2, hn2, hcase⟩ := nextItem_phase U (.close R) h
    rw [hn] at hn2
    obtain ⟨rfl, _⟩ : it = it2 ∧ l1 = l2 := by simpa using hn2
    rcases hcase with ⟨hT | hT, _⟩ | ⟨_, q, _, hem, _⟩
    · rw [ht] at hT; exact absurd hT (by decide)
    · rw [ht] at hT; exact absurd hT (by decide)
    · obtain ⟨h1, _⟩ := hem; rw [ht] at h1; exact absurd h1 (by decide)
  | assign R =>
    obtain ⟨it2, l2, hn2, hcase⟩ := nextItem_phase U (.assign R) h
    rw [hn] at hn2
    obtain ⟨rfl, _⟩ : it = it2 ∧ l1 = l2 := by simpa using hn2
    rcases hcase with ⟨hT | hT, _⟩ | ⟨_, q, _, hem, _⟩
    · rw [ht] at hT; exact absurd hT (by decide)
    · rw [ht] at hT; exact absurd hT (by decide)
    · obtain ⟨h1, _⟩ := hem; rw [ht] at h1; exact absurd h1 (by decide)
  | value R =>
    obtain ⟨it2, l2, hn2, hcase⟩ := nextItem_phase U (.value R) h
    rw [hn] at hn2
    obtain ⟨rfl, _⟩ : it = it2 ∧ l1 = l2 := by simpa using hn2
    rcases hcase with ⟨hT | hT, _⟩ | ⟨_, q, _, hem, _⟩
    · rw [ht] at hT; exact absurd hT (by decide)
    · rw [ht] at hT; exact absurd hT (by decide)
    · obtain ⟨h1, _⟩ := hem; rw [ht] at h1; exact absurd h1 (by decide)

theorem tokensLoop_cons_inv {U : Unicode} {l l1 : lexer} {it : item} (n : Nat) {ts : List item}
    (ht : ¬ it.Terminal) (h : nextItem U l = .ok (it, l1)) (hts : tokensLoop U (n + 1) l = .ok ts) :
    ∃ rest : List item, tokensLoop U n l1 = .ok rest ∧ ts = it :: rest := by
  have hT2 : it.Typ ≠ itemType.itemEOF ∧ it.Typ ≠ itemType.itemError := by
    simpa [item.Terminal, not_or] using ht
  cases hr : tokensLoop U n l1 with
  | ok rest =>
    rw [tokensLoop_cons n hT2 h hr] at hts
    exact ⟨rest, rfl, by simpa using hts.symm⟩
  | nilCall => simp [tokensLoop, h, hT2.1, hT2.2, hr] at hts
  | sliceBounds => simp [tokensLoop, h, hT2.1, hT2.2, hr] at hts
  | deadlock => simp [tokensLoop, h, hT2.1, hT2.2, hr] at hts
  | fuel => simp [tokensLoop, h, hT2.1, hT2.2, hr] at hts

/-- What holds of every token that `nextItem` hands out holds of every token of the
sequence. -/
theorem tokensLoop_forall (U : Unicode) (P : item → Prop)
    (hP : ∀ (p : Phase) (l l1 : lexer) (it : item), p.Holds l → nextItem U l = .ok (it, l1) → P it) :
    ∀ (n : Nat) (p : Phase) (l : lexer) (ts : List item), p.Holds l →
      tokensLoop U n l = .ok ts → ∀ it ∈ ts, P it := by
  intro n
  induction n with
  | zero => intro p l ts _ h; simp [tokensLoop] at h
  | succ n ih =>
    intro p l ts hp hts
    obtain ⟨it, l1, hn, hcase⟩ := nextItem_phase U p hp
    rcases hcase with ⟨hT, _⟩ | ⟨hT, q, hq, _, _⟩
    · rw [tokensLoop_last n hT hn] at hts
      obtain rfl : [it] = ts := by simpa using hts
      intro x hx
      rw [List.mem_singleton.1 hx]
      exact hP p l l1 it hp hn
    · obtain ⟨rest, hrest, rfl⟩ := tokensLoop_cons_inv n hT hn hts
      intro x hx
      rcases List.mem_cons.1 hx with rfl | hx
      · exact hP p l l1 x hp hn
      · exact ih q l1 rest hq hrest x hx

/-- The names of the sections of the document are the texts of section-name tokens. -/
theorem ParseLoop_names (U : Unicode) :
    ∀ (n : Nat) (p : Phase) (l : lexer) (file : File) (cur : Section) (key : List Char)
      (f : File), p.Holds l → (∀ s ∈ file.Sections, Letters U s.Name) → Letters U cur.Name →
      ParseLoop U n l file cur key = .ok f → ∀ s ∈ f.Sections, Letters U s.Name := by
  intro n
  induction n with
  | zero => intro p l file cur key f _ _ _ h; simp [ParseLoop] at h
  | succ n ih =>
    intro p l file cur key f hp hfile hcur h
    obtain ⟨it, l1, hn, hcase⟩ := nextItem_phase U p hp
    rcases hcase with ⟨hT | hT, hH⟩ | ⟨hT, q, hq, _, _⟩
    · obtain ⟨t, v⟩ := it
      obtain rfl : t = itemType.itemEOF := hT
      rw [ParseLoop_eof n file cur key hn] at h
      simp only [Exec.ok.injEq] at h
      rw [← h]
      intro s hs
      rcases List.mem_append.1 hs with hs | hs
      · exact hfile s hs
      · rw [List.mem_singleton.1 hs]; exact hcur
    · obtain ⟨f1, c1, k1, e⟩ := ParseLoop_again n file cur key (by rw [hT]; decide) hn
      rw [e] at h
      cases n with
      | zero => simp [ParseLoop] at h
      | succ m => rw [ParseLoop_nilCall m f1 c1 k1 (nextItem_halted hH)] at h; simp at h
    · have hne : it.Typ ≠ itemType.itemEOF := fun e => hT (Or.inl e)
      rw [ParseLoop_handle n file cur key hne hn] at h
      have hsec := nextItem_section_value U p hp hn
      refine ih q l1 _ _ _ f hq ?_ ?_ h
      · obtain ⟨t, v⟩ := it
        cases t <;> simp only [handle] <;> try exact hfile
        by_cases hc : cur.KeyValuePairs.length > 0
        · rw [if_pos hc]
          intro s hs
          rcases List.mem_append.1 hs with hs | hs
          · exact hfile s hs
          · rw [List.mem_singleton.1 hs]; exact hcur
        · rw [if_neg hc]; exact hfile
      · obtain ⟨t, v⟩ := it
        cases t <;> simp only [handle] <;> try exact hcur
        exact hsec rfl

/-- C12, refuted as stated: the header `[]` gives a section-name token with the empty
text, which is no non-empty string of letters. -/
theorem tokens_section_empty :
    tokens asciiTables "t".toList "[]\n".toList =
        .ok [{ Typ := itemType.itemLeftBracket, Value := "[".toList },
             { Typ := itemType.itemSection, Value := [] },
             { Typ := itemType.itemRrightBracket, Value := "]".toList },
             { Typ := itemType.itemEOF, Value := [] }] ∧
      ¬ Ident asciiTables [] ∧
      Parse asciiTables "t".toList "[]\n".toList =
        .ok { Name := "t".toList, Sections := [{ Name := [], KeyValuePairs := [] }] } := by
  decide

/-- C12, amended. For every input, every section-name token that the tokenizer emits is a
string of letters, which may be empty; and so is the name of every section of a document
that `Parse` returns. -/
theorem tokens_section_letters (U : Unicode) (name input : List Char) :
    (∀ ts : List item, tokens U name input = .ok ts →
        ∀ it ∈ ts, it.Typ = itemType.itemSection → Letters U it.Value) ∧
      (∀ f : File, Parse U name input = .ok f → ∀ s ∈ f.Sections, Letters U s.Name) := by
  constructor
  · intro ts h
    exact tokensLoop_forall U (fun it => it.Typ = itemType.itemSection → Letters U it.Value)
      (fun p l l1 it hp hn => nextItem_section_value U p hp hn) _ (.start input) _ ts
      (lex_Ready name input) h
  · intro f h
    exact ParseLoop_names U _ (.start input) _ _ _ _ f (lex_Ready name input)
      (fun _ hs => absurd hs (List.not_mem_nil _)) (fun _ hd => absurd hd (List.not_mem_nil _)) h

theorem tokens_section_letters_witness :
    tokens asciiTables "t".toList "[ab]\n[]\n".toList =
        .ok [{ Typ := itemType.itemLeftBracket, Value := "[".toList },
             { Typ := itemType.itemSection, Value := "ab".toList },
             { Typ := itemType.itemRrightBracket, Value := "]".toList },
             { Typ := itemType.itemLeftBracket, Value := "[".toList },
             { Typ := itemType.itemSection, Value := [] },
             { Typ := itemType.itemRrightBracket, Value := "]".toList },
             { Typ := itemType.itemEOF, Value := [] }] ∧
      Letters asciiTables "ab".toList :=
  ⟨by decide,
    (tokens_section_letters asciiTables "t".toList "[ab]\n[]\n".toList).1
      [{ Typ := itemType.itemLeftBracket, Value := "[".toList },
       { Typ := itemType.itemSection, Value := "ab".toList },
       { Typ := itemType.itemRrightBracket, Value := "]".toList },
       { Typ := itemType.itemLeftBracket, Value := "[".toList },
       { Typ := itemType.itemSection, Value := [] },
       { Typ := itemType.itemRrightBracket, Value := "]".toList },
       { Typ := itemType.itemEOF, Value := [] }] (by decide)
      { Typ := itemType.itemSection, Value := "ab".toList } (by decide) rfl⟩

/-! ## The name of the document -/

section Rename

variable (U : Unicode) (nm : List Char)

theorem next_rename (l : lexer) : next (l.rename nm) = ((next l).1, (next l).2.rename nm) := by
  simp only [next, lexer.rename]
  cases l.input[l.pos]? <;> rfl

theorem emit_rename (l : lexer) (t : itemType) :
    emit (l.rename nm) t = (emit l t).map (lexer.rename nm) := by
  simp only [emit, lexer.rename, send]
  cases slice l.input l.start l.pos with
  | ok v =>
    simp only [Exec.ok_bind]
    split <;> rfl
  | nilCall => rfl
  | sliceBounds => rfl
  | deadlock => rfl
  | fuel => rfl

theorem errorf_rename (l : lexer) (msg : List Char) :
    errorf (l.rename nm) msg = (errorf l msg).map fun x => (x.1.rename nm, x.2) := by
  simp only [errorf, lexer.rename, send]
  split <;> rfl

theorem lexStartLoop_rename :
    ∀ (n : Nat) (l : lexer),
      lexStartLoop U n (l.rename nm) = (lexStartLoop U n l).map fun x => (x.1.rename nm, x.2) := by
  intro n
  induction n with
  | zero => intro l; rfl
  | succ n ih =>
    intro l
    rw [lexStartLoop, lexStartLoop]
    have h1 : (l.rename nm).input = l.input := rfl
    have h2 : (l.rename nm).pos = l.pos := rfl
    rw [h1, h2]
    cases sliceFrom l.input l.pos with
    | ok rest =>
      simp only [Exec.ok_bind]
      split
      · rfl
      · rw [next_rename]
        rcases hnx : next l with ⟨r, l2⟩
        cases r with
        | none =>
          simp only []
          rw [emit_rename]
          cases emit l2 itemType.itemEOF <;> rfl
        | some c =>
          simp only []
          split
          · exact ih (ignore l2)
          · split
            · rfl
            · exact ih l2
    | nilCall => rfl
    | sliceBounds => rfl
    | deadlock => rfl
    | fuel => rfl

theorem lexSectionLoop_rename :
    ∀ (n : Nat) (l : lexer),
      lexSectionLoop U n (l.rename nm) = (lexSectionLoop U n l).map fun x => (x.1.rename nm, x.2) := by
  intro n
  induction n with
  | zero => intro l; rfl
  | succ n ih =>
    intro l
    rw [lexSectionLoop, lexSectionLoop]
    have h1 : (l.rename nm).input = l.input := rfl
    have h2 : (l.rename nm).pos = l.pos := rfl
    rw [h1, h2]
    cases sliceFrom l.input l.pos with
    | ok rest =>
      simp only [Exec.ok_bind]
      split
      · rw [emit_rename]
        cases emit l itemType.itemSection <;> rfl
      · rw [next_rename]
        rcases hnx : next l with ⟨r, l2⟩
        cases r with
        | none =>
          simp only []
          rw [errorf_rename]
        | some c =>
          simp only []
          split
          · rw [errorf_rename]
          · split
            · rw [errorf_rename]
            · exact ih l2
    | nilCall => rfl
    | sliceBounds => rfl
    | deadlock => rfl
    | fuel => rfl

theorem lexKeyLoop_rename :
    ∀ (n : Nat) (l : lexer),
      lexKeyLoop U n (l.rename nm) = (lexKeyLoop U n l).map fun x => (x.1.rename nm, x.2) := by
  intro n
  induction n with
  | zero => intro l; rfl
  | succ n ih =>
    intro l
    rw [lexKeyLoop, lexKeyLoop]
    have h1 : (l.rename nm).input = l.input := rfl
    have h2 : (l.rename nm).pos = l.pos := rfl
    rw [h1, h2]
    cases sliceFrom l.input l.pos with
    | ok rest =>
      simp only [Exec.ok_bind]
      split
      · rw [emit_rename]
        cases emit l itemType.itemKey <;> rfl
      · rw [next_rename]
        rcases hnx : next l with ⟨r, l2⟩
        cases r with
        | none =>
          simp only []
          rw [errorf_rename]
        | some c =>
          simp only []
          split
          · rw [errorf_rename]
          · split
            · rw [errorf_rename]
            · exact ih l2
    | nilCall => rfl
    | sliceBounds => rfl
    | deadlock => rfl
    | fuel => rfl

theorem lexValueLoop_rename :
    ∀ (n : Nat) (l : lexer),
      lexValueLoop n (l.rename nm) = (lexValueLoop n l).map fun x => (x.1.rename nm, x.2) := by
  intro n
  induction n with
  | zero => intro l; rfl
  | succ n ih =>
    intro l
    rw [lexValueLoop, lexValueLoop]
    have h1 : (l.rename nm).input = l.input := rfl
    have h2 : (l.rename nm).pos = l.pos := rfl
    rw [h1, h2]
    cases sliceFrom l.input l.pos with
    | ok rest =>
      simp only [Exec.ok_bind]
      split
      · rw [emit_rename]
        cases emit l itemType.itemValue <;> rfl
      · rw [next_rename]
        rcases hnx : next l with ⟨r, l2⟩
        cases r with
        | none =>
          simp only []
          rw [errorf_rename]
        | some c =>
          simp only []
          exact ih l2
    | nilCall => rfl
    | sliceBounds => rfl
    | deadlock => rfl
    | fuel => rfl

theorem call_rename (f : stateFn) (l : lexer) :
    f.call U (l.rename nm) = (f.call U l).map fun x => (x.1.rename nm, x.2) := by
  cases f with
  | lexStart => exact lexStartLoop_rename U nm _ l
  | lexSection => exact lexSectionLoop_rename U nm _ l
  | lexKey => exact lexKeyLoop_rename U nm _ l
  | lexValue => exact lexValueLoop_rename nm _ l
  | lexLeftBracket =>
    show lexLeftBracket (l.rename nm) = (lexLeftBracket l).map _
    simp only [lexLeftBracket]
    rw [show ({ l.rename nm with pos := (l.rename nm).pos + leftBracket.length } : lexer) =
      ({ l with pos := l.pos + leftBracket.length } : lexer).rename nm from rfl, emit_rename]
    cases emit { l with pos := l.pos + leftBracket.length } itemType.itemLeftBracket <;> rfl
  | lexRightBracket =>
    show lexRightBracket (l.rename nm) = (lexRightBracket l).map _
    simp only [lexRightBracket]
    rw [show ({ l.rename nm with pos := (l.rename nm).pos + rightBracket.length } : lexer) =
      ({ l with pos := l.pos + rightBracket.length } : lexer).rename nm from rfl, emit_rename]
    cases emit { l with pos := l.pos + rightBracket.length } itemType.itemRrightBracket <;> rfl
  | lexEqualSign =>
    show lexEqualSign (l.rename nm) = (lexEqualSign l).map _
    simp only [lexEqualSign]
    rw [show ({ l.rename nm with pos := (l.rename nm).pos + equalSign.length } : lexer) =
      ({ l with pos := l.pos + equalSign.length } : lexer).rename nm from rfl, emit_rename]
    cases emit { l with pos := l.pos + equalSign.length } itemType.itemEqualSign <;> rfl

theorem nextItemLoop_rename :
    ∀ (n : Nat) (l : lexer),
      nextItemLoop U n (l.rename nm) = (nextItemLoop U n l).map fun x => (x.1, x.2.rename nm) := by
  intro n
  induction n with
  | zero => intro l; rfl
  | succ n ih =>
    intro l
    rw [nextItemLoop, nextItemLoop]
    have h1 : (l.rename nm).items = l.items := rfl
    have h2 : (l.rename nm).state = l.state := rfl
    rw [h1, h2]
    cases hb : l.items.buf with
    | cons it b => rfl
    | nil =>
      simp only []
      cases hs : l.state with
      | none => rfl
      | some f =>
        simp only []
        rw [call_rename]
        cases f.call U l with
        | ok x =>
          obtain ⟨l2, st⟩ := x
          exact ih { l2 with state := st }
        | nilCall => rfl
        | sliceBounds => rfl
        | deadlock => rfl
        | fuel => rfl

/-- The loop of `Parse` does not look at the name of the lexer. -/
theorem ParseLoop_rename :
    ∀ (n : Nat) (l : lexer) (file : File) (cur : Section) (key : List Char),
      ParseLoop U n (l.rename nm) file cur key = ParseLoop U n l file cur key := by
  intro n
  induction n with
  | zero => intro l file cur key; rfl
  | succ n ih =>
    intro l file cur key
    rw [ParseLoop, ParseLoop]
    simp only [nextItem]
    rw [nextItemLoop_rename]
    cases nextItemLoop U 3 l with
    | ok x =>
      obtain ⟨it, l2⟩ := x
      simp only [Exec.map, Exec.ok_bind]
      split
      · rfl
      · split <;> exact ih _ _ _ _
    | nilCall => rfl
    | sliceBounds => rfl
    | deadlock => rfl
    | fuel => rfl

/-- The loop of `Parse` carries the name of the file along and does not look at it. -/
theorem ParseLoop_fileName :
    ∀ (n : Nat) (l : lexer) (file : File) (cur : Section) (key : List Char),
      ParseLoop U n l { file with Name := nm } cur key =
        (ParseLoop U n l file cur key).map fun f => { f with Name := nm } := by
  intro n
  induction n with
  | zero => intro l file cur key; rfl
  | succ n ih =>
    intro l file cur key
    rw [ParseLoop, ParseLoop]
    cases nextItem U l with
    | ok x =>
      obtain ⟨it, l2⟩ := x
      simp only [Exec.ok_bind]
      split
      · rfl
      · split
        · split
          · exact ih l2 { file with Sections := file.Sections ++ [cur] } _ key
          · exact ih l2 file _ key
        · exact ih _ _ _ _
        · exact ih _ _ _ _
        · exact ih _ _ _ _
    | nilCall => rfl
    | sliceBounds => rfl
    | deadlock => rfl
    | fuel => rfl

/-- The document of another name is the same document with the other name. -/
theorem Parse_rename (name input : List Char) :
    Parse U nm input = (Parse U name input).map fun f => { f with Name := nm } := by
  have h := ParseLoop_fileName U nm (2 * input.length + 2) (lex name input)
    { Name := name, Sections := [] } { Name := [], KeyValuePairs := [] } []
  rw [Parse, Parse, ← h, ← ParseLoop_rename U nm _ (lex name input)]
  rfl

end Rename

/-- C16. The name of the document is what the caller gave and nothing else depends on it:
for all names `n` and `n1` and every input on which `Parse` returns,
`Parse(n, input).Name = n`, and `Parse(n1, input)` returns too, with the same sections. -/
theorem Parse_name_only (U : Unicode) (n n1 input : List Char) (f : File)
    (h : Parse U n input = .ok f) :
    f.Name = n ∧ ∃ f1 : File, Parse U n1 input = .ok f1 ∧ f1.Sections = f.Sections := by
  have h1 := Parse_rename U n n input
  have h2 := Parse_rename U n1 n input
  rw [h] at h1 h2
  simp only [Exec.map, Exec.ok.injEq] at h1
  exact ⟨by rw [h1], _, h2, rfl⟩

theorem Parse_name_only_witness :
    Parse asciiTables "one".toList "k=v\n".toList =
        .ok { Name := "one".toList,
              Sections := [{ Name := [], KeyValuePairs := [{ Key := "k".toList, Value := "v".toList }] }] } ∧
      ∃ f1 : File, Parse asciiTables "two".toList "k=v\n".toList = .ok f1 ∧
        f1.Sections = [{ Name := [], KeyValuePairs := [{ Key := "k".toList, Value := "v".toList }] }] :=
  ⟨by decide,
    (Parse_name_only asciiTables "one".toList "two".toList "k=v\n".toList
      { Name := "one".toList,
        Sections := [{ Name := [], KeyValuePairs := [{ Key := "k".toList, Value := "v".toList }] }] }
      (by decide)).2⟩

/-! ## The channel -/

theorem lexer.At.drained_At {l : lexer} {pre tok R : List Char} {buf : List item}
    (h : l.At pre tok R buf) (st : Option stateFn) :
    ({ l with state := st } : lexer).drained.At pre tok R [] :=
  ⟨h.input, h.start, h.pos, h.cap, rfl⟩

/-- A state function that has sent the last token and returned nil. -/
theorem Stage.of_last {l1 : lexer} {pre R : List Char} {it : item}
    (h : l1.At pre [] R [it]) (ht : it.Terminal) : Stage { l1 with state := none } :=
  ⟨h.cap, Or.inr (Or.inr (Or.inr (Or.inr ⟨it, h.buf, Or.inr ⟨ht, rfl, rfl⟩⟩)))⟩

/-- A state function that has sent a token and returned the state function of a phase. -/
theorem Stage.of_sent {l1 : lexer} {pre R : List Char} {it : item} {g : stateFn}
    (h : l1.At pre [] R [it]) (ht : ¬ it.Terminal) (q : Phase)
    (hq : ({ l1 with state := some g } : lexer).drained.Ready R g → q.Holds
      ({ l1 with state := some g } : lexer).drained) :
    Stage { l1 with state := some g } :=
  ⟨h.cap, Or.inr (Or.inr (Or.inr (Or.inr ⟨it, h.buf,
    Or.inl ⟨ht, q, hq ⟨⟨pre, h.drained_At (some g)⟩, rfl⟩⟩⟩)))⟩

/-- A call of the state function at the head of an iteration, the buffer being empty: it
returns, it has sent no item or one item, and a last token goes with the state nil. -/
theorem Stage.call_ok (U : Unicode) {l : lexer} {f : stateFn} (h : Stage l)
    (hb : l.items.buf = []) (hs : l.state = some f) :
    ∃ (l1 : lexer) (st : Option stateFn), f.call U l = .ok (l1, st) ∧
      Stage { l1 with state := st } ∧
      (l1.items.buf = [] ∨ ∃ it : item, l1.items.buf = [it] ∧ (it.Terminal → st = none)) := by
  obtain ⟨_, hp | hH | ⟨pre, tok, R, hA, hs1⟩ | ⟨pre, tok, R, hA, hs1⟩ | ⟨it, hb1, _⟩⟩ := h
  · obtain ⟨p, hp⟩ := hp
    cases p with
    | start R =>
      obtain ⟨⟨pre, hA⟩, hs1⟩ := hp
      obtain rfl : stateFn.lexStart = f := Option.some.inj (hs1.symm.trans hs)
      have hfuel : R.length < l.input.length - l.pos + 1 := by rw [hA.remaining]; omega
      rcases lexStartLoop_cases U R _ l pre [] hA hfuel with ⟨l1, p1, v, h1, hA1⟩ |
          ⟨l1, p1, t1, R1, h1, hA1, _⟩ | ⟨l1, p1, t1, R1, h1, hA1, _⟩
      · exact ⟨l1, none, h1, Stage.of_last hA1 (Or.inl rfl),
          Or.inr ⟨_, hA1.buf, fun _ => rfl⟩⟩
      · exact ⟨l1, _, h1,
          ⟨hA1.cap, Or.inr (Or.inr (Or.inl ⟨p1, t1, R1, hA1.withState _, rfl⟩))⟩,
          Or.inl hA1.buf⟩
      · exact ⟨l1, _, h1,
          ⟨hA1.cap, Or.inr (Or.inr (Or.inr (Or.inl ⟨p1, t1, R1, hA1.withState _, rfl⟩)))⟩,
          Or.inl hA1.buf⟩
    | name R =>
      obtain ⟨⟨pre, hA⟩, hs1⟩ := hp
      obtain rfl : stateFn.lexSection = f := Option.some.inj (hs1.symm.trans hs)
      have hfuel : R.length < l.input.length - l.pos + 1 := by rw [hA.remaining]; omega
      rcases lexSectionLoop_cases U R _ l pre [] hA hfuel with ⟨l1, msg, h1, hA1⟩ |
          ⟨l1, p1, v1, R1, h1, hA1, _⟩
      · exact ⟨l1, none, h1, Stage.of_last hA1 (Or.inr rfl),
          Or.inr ⟨_, hA1.buf, fun _ => rfl⟩⟩
      · exact ⟨l1, _, h1, Stage.of_sent hA1 (by simp [item.Terminal]) (.close R1) (fun x => x),
          Or.inr ⟨_, hA1.buf, fun ht => absurd ht (by simp [item.Terminal])⟩⟩
    | close R =>
      obtain ⟨⟨pre, hA⟩, hs1⟩ := hp
      obtain rfl : stateFn.lexRightBracket = f := Option.some.inj (hs1.symm.trans hs)
      obtain ⟨l1, h1, hA1⟩ := lexRightBracket_eq hA
      exact ⟨l1, _, h1, Stage.of_sent hA1 (by simp [item.Terminal]) (.start R) (fun x => x),
        Or.inr ⟨_, hA1.buf, fun ht => absurd ht (by simp [item.Terminal])⟩⟩
    | assign R =>
      obtain ⟨⟨pre, hA⟩, hs1⟩ := hp
      obtain rfl : stateFn.lexEqualSign = f := Option.some.inj (hs1.symm.trans hs)
      obtain ⟨l1, h1, hA1⟩ := lexEqualSign_eq hA
      exact ⟨l1, _, h1, Stage.of_sent hA1 (by simp [item.Terminal]) (.value R) (fun x => x),
        Or.inr ⟨_, hA1.buf, fun ht => absurd ht (by simp [item.Terminal])⟩⟩
    | value R =>
      obtain ⟨⟨pre, hA⟩, hs1⟩ := hp
      obtain rfl : stateFn.lexValue = f := Option.some.inj (hs1.symm.trans hs)
      have hfuel : R.length < l.input.length - l.pos + 1 := by rw [hA.remaining]; omega
      rcases lexValueLoop_cases R _ l pre [] hA hfuel with ⟨l1, msg, h1, hA1⟩ |
          ⟨l1, p1, v1, R1, h1, hA1, _⟩
      · exact ⟨l1, none, h1, Stage.of_last hA1 (Or.inr rfl),
          Or.inr ⟨_, hA1.buf, fun _ => rfl⟩⟩
      · exact ⟨l1, _, h1,
          Stage.of_sent hA1 (by simp [item.Terminal]) (.start ('\n' :: R1)) (fun x => x),
          Or.inr ⟨_, hA1.buf, fun ht => absurd ht (by simp [item.Terminal])⟩⟩
  · rw [hH.2] at hs
    exact absurd hs (by simp)
  · obtain rfl : stateFn.lexLeftBracket = f := Option.some.inj (hs1.symm.trans hs)
    obtain ⟨l1, h1, hA1⟩ := lexLeftBracket_eq hA
    exact ⟨l1, _, h1, Stage.of_sent hA1 (by simp [item.Terminal]) (.name R) (fun x => x),
      Or.inr ⟨_, hA1.buf, fun ht => absurd ht (by simp [item.Terminal])⟩⟩
  · obtain rfl : stateFn.lexKey = f := Option.some.inj (hs1.symm.trans hs)
    have hfuel : R.length < l.input.length - l.pos + 1 := by rw [hA.remaining]; omega
    rcases lexKeyLoop_cases U R _ l pre tok hA hfuel with ⟨l1, msg, h1, hA1⟩ |
        ⟨l1, p1, v1, R1, h1, hA1, _⟩
    · exact ⟨l1, none, h1, Stage.of_last hA1 (Or.inr rfl),
        Or.inr ⟨_, hA1.buf, fun _ => rfl⟩⟩
    · exact ⟨l1, _, h1, Stage.of_sent hA1 (by simp [item.Terminal]) (.assign R1) (fun x => x),
        Or.inr ⟨_, hA1.buf, fun ht => absurd ht (by simp [item.Terminal])⟩⟩
  · rw [hb1] at hb
    exact absurd hb (by simp)

/-- The receipt of the buffered item at the head of an iteration: it was the only one. -/
theorem Stage.recv_ok {l : lexer} {it : item} {b : List item} (h : Stage l)
    (hb : l.items.buf = it :: b) :
    b = [] ∧ Stage { l with items := { l.items with buf := b } } := by
  obtain ⟨hcap, hp | hH | ⟨pre, tok, R, hA, _⟩ | ⟨pre, tok, R, hA, _⟩ | ⟨it1, hb1, hcase⟩⟩ := h
  · obtain ⟨p, hp⟩ := hp
    have hbuf : l.items.buf = [] := by
      cases p <;> exact hp.1.choose_spec.buf
    rw [hbuf] at hb
    exact absurd hb (by simp)
  · rw [hH.1] at hb
    exact absurd hb (by simp)
  · rw [hA.buf] at hb
    exact absurd hb (by simp)
  · rw [hA.buf] at hb
    exact absurd hb (by simp)
  · rw [hb1] at hb
    obtain ⟨rfl, rfl⟩ : it1 = it ∧ [] = b := by simpa using hb
    refine ⟨rfl, hcap, ?_⟩
    rcases hcase with ⟨_, p, hp⟩ | ⟨_, hH⟩
    · exact Or.inl ⟨p, hp⟩
    · exact Or.inr (Or.inl hH)

theorem Stage.buf_length {l : lexer} (h : Stage l) : l.items.buf.length ≤ 1 := by
  obtain ⟨_, hp | hH | ⟨pre, tok, R, hA, _⟩ | ⟨pre, tok, R, hA, _⟩ | ⟨it1, hb1, _⟩⟩ := h
  · obtain ⟨p, hp⟩ := hp
    have hbuf : l.items.buf = [] := by
      cases p <;> exact hp.1.choose_spec.buf
    simp [hbuf]
  · simp [hH.1]
  · simp [hA.buf]
  · simp [hA.buf]
  · simp [hb1]

/-- What holds at the head of every iteration, from a fresh lexer: the lexer has one of
the shapes of `Stage`; what was sent is what was received and then what is buffered; and
no token was sent after a last token, with which the state has become nil. -/
theorem Run.inv {U : Unicode} {name input : List Char} {s r : List item} {l : lexer}
    (h : Run U (lex name input) s r l) :
    Stage l ∧ s = r ++ l.items.buf ∧
      ((∀ it ∈ s, ¬ it.Terminal) ∨
        (l.state = none ∧ ∃ (init : List item) (last : item), s = init ++ [last] ∧
          last.Terminal ∧ ∀ it ∈ init, ¬ it.Terminal)) := by
  induction h with
  | init =>
    exact ⟨⟨rfl, Or.inl ⟨.start input, lex_Ready name input⟩⟩, rfl,
      Or.inl fun _ hx => absurd hx (List.not_mem_nil _)⟩
  | @call s r l l1 f st _ hb hs hc ih =>
    obtain ⟨hstage, hfifo, hterm⟩ := ih
    obtain ⟨l2, st2, hc2, hst2, hsent⟩ := hstage.call_ok U hb hs
    rw [hc] at hc2
    obtain ⟨rfl, rfl⟩ : l1 = l2 ∧ st = st2 := by simpa using hc2
    rw [hb, List.append_nil] at hfifo
    refine ⟨hst2, by rw [hfifo], ?_⟩
    have hall : ∀ it ∈ s, ¬ it.Terminal := by
      rcases hterm with hall | ⟨hnone, _⟩
      · exact hall
      · rw [hnone] at hs; exact absurd hs (by simp)
    rcases hsent with he | ⟨it, he, hlast⟩
    · rw [he, List.append_nil]
      exact Or.inl hall
    · rw [he]
      by_cases hT : it.Terminal
      · exact Or.inr ⟨hlast hT, s, it, rfl, hT, hall⟩
      · refine Or.inl fun x hx => ?_
        rcases List.mem_append.1 hx with hx | hx
        · exact hall x hx
        · rw [List.mem_singleton.1 hx]; exact hT
  | @recv s r l it b _ hb ih =>
    obtain ⟨hstage, hfifo, hterm⟩ := ih
    obtain ⟨rfl, hst2⟩ := hstage.recv_ok hb
    refine ⟨hst2, by rw [hfifo, hb]; simp, hterm⟩

/-- A call of `nextItem` is a number of such iterations, the last of which receives. -/
theorem Run.nextItemLoop {U : Unicode} {l0 : lexer} :
    ∀ (n : Nat) {s r : List item} {l l1 : lexer} {it : item}, Run U l0 s r l →
      nextItemLoop U n l = .ok (it, l1) → ∃ s1 : List item, Run U l0 s1 (r ++ [it]) l1 := by
  intro n
  induction n with
  | zero => intro s r l l1 it _ h; simp [Goini.nextItemLoop] at h
  | succ n ih =>
    intro s r l l1 it hrun h
    cases hb : l.items.buf with
    | cons it0 b =>
      rw [nextItemLoop_recv n hb] at h
      obtain ⟨rfl, rfl⟩ : it0 = it ∧ _ = l1 := by simpa using h
      exact ⟨s, Run.recv hrun hb⟩
    | nil =>
      cases hs : l.state with
      | none => simp [Goini.nextItemLoop, hb, hs] at h
      | some f =>
        cases hc : f.call U l with
        | ok x =>
          obtain ⟨l2, st⟩ := x
          rw [nextItemLoop_run n hb hs hc] at h
          exact ih (Run.call hrun hb hs hc) h
        | nilCall => simp [Goini.nextItemLoop, hb, hs, hc] at h
        | sliceBounds => simp [Goini.nextItemLoop, hb, hs, hc] at h
        | deadlock => simp [Goini.nextItemLoop, hb, hs, hc] at h
        | fuel => simp [Goini.nextItemLoop, hb, hs, hc] at h

/-- The tokens that the client collects end in a last token and hold no other. -/
theorem tokensLoop_shape (U : Unicode) :
    ∀ (n : Nat) (l : lexer) (ts : List item), tokensLoop U n l = .ok ts →
      ∃ (init : List item) (last : item), ts = init ++ [last] ∧ last.Terminal ∧
        ∀ it ∈ init, ¬ it.Terminal := by
  intro n
  induction n with
  | zero => intro l ts h; simp [tokensLoop] at h
  | succ n ih =>
    intro l ts h
    cases hn : nextItem U l with
    | ok x =>
      obtain ⟨it, l1⟩ := x
      by_cases hT : it.Terminal
      · rw [tokensLoop_last n hT hn] at h
        obtain rfl : [it] = ts := by simpa using h
        exact ⟨[], it, rfl, hT, fun _ hx => absurd hx (List.not_mem_nil _)⟩
      · obtain ⟨rest, hrest, rfl⟩ := tokensLoop_cons_inv n hT hn h
        obtain ⟨init, last, rfl, hlast, hinit⟩ := ih l1 rest hrest
        refine ⟨it :: init, last, rfl, hlast, fun x hx => ?_⟩
        rcases List.mem_cons.1 hx with rfl | hx
        · exact hT
        · exact hinit x hx
    | nilCall => simp [tokensLoop, hn] at h
    | sliceBounds => simp [tokensLoop, hn] at h
    | deadlock => simp [tokensLoop, hn] at h
    | fuel => simp [tokensLoop, hn] at h

/-- The receipt that ends a call of `nextItem` leaves the buffer empty. -/
theorem nextItemLoop_drained (U : Unicode) :
    ∀ (n : Nat) {l l1 : lexer} {it : item}, Stage l → nextItemLoop U n l = .ok (it, l1) →
      l1.items.buf = [] := by
  intro n
  induction n with
  | zero => intro l l1 it _ h; simp [nextItemLoop] at h
  | succ n ih =>
    intro l l1 it hst h
    cases hb : l.items.buf with
    | cons it0 b =>
      obtain ⟨rfl, _⟩ := hst.recv_ok hb
      rw [nextItemLoop_recv n hb] at h
      obtain ⟨_, rfl⟩ : it0 = it ∧ _ = l1 := by simpa using h
      rfl
    | nil =>
      cases hs : l.state with
      | none => simp [nextItemLoop, hb, hs] at h
      | some f =>
        obtain ⟨l2, st, hc, hst2, _⟩ := hst.call_ok U hb hs
        rw [nextItemLoop_run n hb hs hc] at h
        exact ih hst2 h

/-- The client that collects the tokens of a fresh lexer: when it has its last token,
everything that was sent has been received, and the state of the lexer is nil. -/
theorem Run.tokensLoop {U : Unicode} {name input : List Char} :
    ∀ (n : Nat) {s r : List item} {l : lexer} {ts : List item},
      Run U (lex name input) s r l → Goini.tokensLoop U n l = .ok ts →
      ∃ l1 : lexer, Run U (lex name input) (r ++ ts) (r ++ ts) l1 ∧ l1.Halted := by
  intro n
  induction n with
  | zero => intro s r l ts _ h; simp [Goini.tokensLoop] at h
  | succ n ih =>
    intro s r l ts hrun h
    cases hn : nextItem U l with
    | ok x =>
      obtain ⟨it, l2⟩ := x
      obtain ⟨s2, hrun2⟩ := Run.nextItemLoop 3 hrun hn
      have hbuf : l2.items.buf = [] := nextItemLoop_drained U 3 hrun.inv.1 hn
      obtain ⟨_, hfifo, hterm⟩ := hrun2.inv
      rw [hbuf, List.append_nil] at hfifo
      subst hfifo
      by_cases hT : it.Terminal
      · rw [tokensLoop_last n hT hn] at h
        obtain rfl : [it] = ts := by simpa using h
        refine ⟨l2, hrun2, hbuf, ?_⟩
        rcases hterm with hall | ⟨hnone, _⟩
        · exact absurd hT (hall it (by simp))
        · exact hnone
      · obtain ⟨rest, hrest, rfl⟩ := tokensLoop_cons_inv n hT hn h
        obtain ⟨l1, hrun1, hH⟩ := ih hrun2 hrest
        exact ⟨l1, by simpa using hrun1, hH⟩
    | nilCall => simp [Goini.tokensLoop, hn] at h
    | sliceBounds => simp [Goini.tokensLoop, hn] at h
    | deadlock => simp [Goini.tokensLoop, hn] at h
    | fuel => simp [Goini.tokensLoop, hn] at h

/-- The iterations on the input `"["`: `lexStart` hands over, `lexLeftBracket` sends the
bracket, the client receives it, `lexSection` sends the error and returns nil. -/
theorem Run_bracket :
    Run asciiTables (lex "t".toList "[".toList)
      [{ Typ := itemType.itemLeftBracket, Value := "[".toList },
       { Typ := itemType.itemError, Value := "unclosed section".toList }]
      [{ Typ := itemType.itemLeftBracket, Value := "[".toList }]
      { name := "t".toList, input := [], start := 0, pos := 0, width := 0, state := none,
        items := { cap := 2,
                   buf := [{ Typ := itemType.itemError, Value := "unclosed section".toList }] } } := by
  have h0 : Run asciiTables (lex "t".toList "[".toList) [] [] (lex "t".toList "[".toList) := Run.init
  have h1 := @Run.call asciiTables _ _ _ _ (lex "t".toList "[".toList) stateFn.lexStart
    (some stateFn.lexLeftBracket) h0 rfl rfl (by decide)
  have h2 := @Run.call asciiTables _ _ _ _
    { name := "t".toList, input := "[".toList, start := 1, pos := 1, width := 0,
      state := some stateFn.lexLeftBracket,
      items := { cap := 2, buf := [{ Typ := itemType.itemLeftBracket, Value := "[".toList }] } }
    stateFn.lexLeftBracket (some stateFn.lexSection) h1 rfl rfl (by decide)
  have h3 := @Run.recv asciiTables _ _ _ _
    { Typ := itemType.itemLeftBracket, Value := "[".toList } [] h2 rfl
  have h4 := @Run.call asciiTables _ _ _ _
    { name := "t".toList, input := [], start := 0, pos := 0, width := 0,
      state := some stateFn.lexSection,
      items := { cap := 2,
                 buf := [{ Typ := itemType.itemError, Value := "unclosed section".toList }] } }
    stateFn.lexSection none h3 rfl rfl (by decide)
  exact h4

/-- C18. The buffer between tokenizer and builder never holds more than one token.  At the
head of every iteration of the loop of `nextItem`, from a fresh lexer: the channel has the
capacity 2 and holds one item at most; what the state functions have sent is what the
client has received followed by what is buffered, so the tokens come in the order in which
they were sent; a state function is called with the buffer empty, its call returns (no
send blocks) and leaves one item at most in the buffer; with an item in the buffer
`nextItem` hands out the first item and calls no state function; and a call of `nextItem`
is made of such iterations. -/
theorem Run_buffer (U : Unicode) (name input : List Char) (s r : List item) (l : lexer)
    (h : Run U (lex name input) s r l) :
    l.items.cap = 2 ∧ l.items.buf.length ≤ 1 ∧ s = r ++ l.items.buf ∧
      (∀ f : stateFn, l.items.buf = [] → l.state = some f →
        ∃ (l1 : lexer) (st : Option stateFn), f.call U l = .ok (l1, st) ∧
          l1.items.cap = 2 ∧ l1.items.buf.length ≤ 1) ∧
      (∀ (n : Nat) (it : item) (b : List item), l.items.buf = it :: b →
        nextItemLoop U (n + 1) l = .ok (it, { l with items := { l.items with buf := b } })) ∧
      (∀ (it : item) (l1 : lexer), nextItem U l = .ok (it, l1) →
        ∃ s1 : List item, Run U (lex name input) s1 (r ++ [it]) l1) := by
  obtain ⟨hstage, hfifo, _⟩ := h.inv
  refine ⟨hstage.1, hstage.buf_length, hfifo, fun f hb hs => ?_, fun n it b hb => ?_,
    fun it l1 hn => ?_⟩
  · obtain ⟨l1, st, hc, hst, _⟩ := hstage.call_ok U hb hs
    exact ⟨l1, st, hc, hst.1, hst.buf_length⟩
  · exact nextItemLoop_recv n hb
  · exact Run.nextItemLoop 3 h hn

theorem Run_buffer_witness :
    Run asciiTables (lex "t".toList "[".toList)
        [{ Typ := itemType.itemLeftBracket, Value := "[".toList },
         { Typ := itemType.itemError, Value := "unclosed section".toList }]
        [{ Typ := itemType.itemLeftBracket, Value := "[".toList }]
        { name := "t".toList, input := [], start := 0, pos := 0, width := 0, state := none,
          items := { cap := 2,
                     buf := [{ Typ := itemType.itemError, Value := "unclosed section".toList }] } } ∧
      ([{ Typ := itemType.itemError, Value := "unclosed section".toList }] : List item).length ≤ 1 :=
  ⟨Run_bracket, (Run_buffer asciiTables "t".toList "[".toList _ _ _ Run_bracket).2.1⟩

/-- C14. For every input, asking a fresh tokenizer for tokens until it hands out
`itemEOF` or `itemError` gives a finite token sequence, the last token of which is
`itemEOF` or `itemError` and no other token of which is: the tokenizer ends on every input
and emits one last token.  These tokens are all that was sent; the state of the lexer is
nil then, and asking once more gives no token but the call of nil.  And however long the
client goes on asking, no token is sent after a last token: in what the state functions
have sent, only the last item can be `itemEOF` or `itemError`. -/
theorem tokens_one_last (U : Unicode) (name input : List Char) :
    (∃ (init : List item) (last : item), tokens U name input = .ok (init ++ [last]) ∧
        last.Terminal ∧ (∀ it ∈ init, ¬ it.Terminal) ∧
        ∃ l1 : lexer, Run U (lex name input) (init ++ [last]) (init ++ [last]) l1 ∧
          l1.Halted ∧ nextItem U l1 = .nilCall) ∧
      (∀ (s r : List item) (l : lexer), Run U (lex name input) s r l →
        ∀ it ∈ s.dropLast, ¬ it.Terminal) := by
  constructor
  · obtain ⟨ts, hts⟩ := tokens_total U name input
    obtain ⟨init, last, rfl, hlast, hinit⟩ := tokensLoop_shape U _ _ ts hts
    obtain ⟨l1, hrun, hH⟩ := Run.tokensLoop _ Run.init hts
    exact ⟨init, last, hts, hlast, hinit, l1, by simpa using hrun, hH, nextItem_halted hH⟩
  · intro s r l h
    obtain ⟨_, _, hterm⟩ := h.inv
    rcases hterm with hall | ⟨_, init, last, rfl, _, hinit⟩
    · exact fun it hit => hall it (List.mem_of_mem_dropLast hit)
    · simpa using hinit

theorem tokens_one_last_witness :
    Run asciiTables (lex "t".toList "[".toList)
        [{ Typ := itemType.itemLeftBracket, Value := "[".toList },
         { Typ := itemType.itemError, Value := "unclosed section".toList }]
        [{ Typ := itemType.itemLeftBracket, Value := "[".toList }]
        { name := "t".toList, input := [], start := 0, pos := 0, width := 0, state := none,
          items := { cap := 2,
                     buf := [{ Typ := itemType.itemError, Value := "unclosed section".toList }] } } ∧
      ∀ it ∈ ([{ Typ := itemType.itemLeftBracket, Value := "[".toList },
          { Typ := itemType.itemError, Value := "unclosed section".toList }] : List item).dropLast,
        ¬ it.Terminal :=
  ⟨Run_bracket, (tokens_one_last asciiTables "t".toList "[".toList).2 _ _ _ Run_bracket⟩

/-! ## The pending key at a section name -/

section Reset

variable {U : Unicode} {l l1 : lexer}

end Reset

end Goini
